import Mathlib

/-!
# Formal model of the hierarchical shortcut-graph routing engine

A shallow embedding of the C++ query engine:

* `src/cpp/src/h3_utils.cpp` — cell-hierarchy primitives (`get_resolution`,
  `cell_to_parent`, `find_lca`, `parent_check`) on top of a model of the
  external H3 library;
* `src/cpp/src/shortcut_graph.cpp` — the graph store, the loaders and the
  three bidirectional search variants (`query_classic`, `query_pruned`,
  `query_multi`).

Machine `double` costs are modelled by exact rationals (`ℚ`); `uint32_t`
and `uint64_t` identifiers by `Nat` with explicit `% 2^32` / `% 2^64`
reductions where the C++ casts from signed column values; fallible loops
are driven by an explicit fuel parameter and return `Option`.
-/

namespace RoutingEngine

/-! ## Model of the external H3 library

The engine consumes three operations of the H3 C library: `getResolution`,
`cellToParent` and index validity.  They are modelled over `Nat`: the index
`0` is "no cell"; a positive number is read in base 8 as a base cell digit
followed by one child digit per resolution level, so the resolution is the
number of base-8 digits minus one and the ancestor at a coarser resolution
is obtained by truncating child digits (dividing by a power of 8).  In this
model `cellToParent` always succeeds, so the `E_SUCCESS` failure branch of
the C++ wrapper is never taken. -/

/-- Fuel-driven base-8 logarithm (the fuel is always sufficient at `fuel = c`). -/
def logGo : Nat → Nat → Nat
  | 0, _ => 0
  | fuel + 1, c => if c < 8 then 0 else logGo fuel (c / 8) + 1

/-- Model of H3 `getResolution` on a valid (positive) index. -/
def h3GetResolution (c : Nat) : Nat := logGo c c

/-- Model of H3 `cellToParent`: truncate child digits down to resolution `r`. -/
def h3CellToParent (c : Nat) (r : Nat) : Nat := c / 8 ^ (h3GetResolution c - r)

/-! ## `h3_utils.cpp` -/

/-- `h3_utils::get_resolution`: resolution of a cell, `-1` for cell `0`. -/
def get_resolution (cell : Nat) : Int :=
  if cell = 0 then -1 else h3GetResolution cell

/-- `h3_utils::cell_to_parent`: ancestor of `cell` at resolution `target_res`.
Returns `0` for cell `0` or negative target; returns `cell` unchanged when
`target_res ≥` its resolution. -/
def cell_to_parent (cell : Nat) (target_res : Int) : Nat :=
  if cell = 0 ∨ target_res < 0 then 0
  else if (h3GetResolution cell : Int) ≤ target_res then cell
  else h3CellToParent cell target_res.toNat

/-- The climbing loop of `h3_utils::find_lca`:
`while (c1 != c2 && min_res > 0) { min_res--; c1 = parent; c2 = parent; }`. -/
def find_lca_loop : Nat → Nat → Nat → Nat × Nat
  | 0, c1, c2 => (c1, c2)
  | r + 1, c1, c2 =>
    if c1 = c2 then (c1, c2)
    else find_lca_loop r (cell_to_parent c1 (r : Int)) (cell_to_parent c2 (r : Int))

/-- `h3_utils::find_lca`: lowest common ancestor of two cells, `0` if none. -/
def find_lca (cell1 cell2 : Nat) : Nat :=
  if cell1 = 0 ∨ cell2 = 0 then 0
  else
    let res1 := h3GetResolution cell1
    let res2 := h3GetResolution cell2
    let min_res := if res1 < res2 then res1 else res2
    let c1 := if min_res < res1 then cell_to_parent cell1 (min_res : Int) else cell1
    let c2 := if min_res < res2 then cell_to_parent cell2 (min_res : Int) else cell2
    let p := find_lca_loop min_res c1 c2
    if p.1 = p.2 then p.1 else 0

/-- `h3_utils::parent_check`: is `node_cell` inside the `high_cell` region? -/
def parent_check (node_cell high_cell : Nat) (high_res : Int) : Bool :=
  if high_cell = 0 ∨ high_res < 0 then true
  else if node_cell = 0 then false
  else if (h3GetResolution node_cell : Int) < high_res then false
  else cell_to_parent node_cell high_res == high_cell

/-! ## Data model (`shortcut_graph.hpp`) -/

/-- `QueryResult`: outcome of a shortest-path query. -/
structure QueryResult where
  distance : ℚ
  path : List Nat
  reachable : Bool
deriving DecidableEq

/-- `HighCell`: the pruning envelope of a query. -/
structure HighCell where
  cell : Nat
  res : Int
deriving DecidableEq

/-- `EdgeMeta`: per-edge metadata record. -/
structure EdgeMeta where
  incoming_cell : Nat
  outgoing_cell : Nat
  lca_res : Int
  length : ℚ
  cost : ℚ
deriving DecidableEq

/-- `Shortcut`: a precomputed arc between two edges.  The C++ fields `from`
and `to` are Lean keywords, hence the guillemet names. -/
structure Shortcut where
  «from» : Nat
  «to» : Nat
  cost : ℚ
  via_edge : Nat
  cell : Nat
  inside : Int
deriving DecidableEq

/-- The graph store of `ShortcutGraph`: the contiguous shortcut records,
the two adjacency indexes (edge id to list of shortcut positions, an edge
with no entry mapping to `[]`, matching the `find == end` treatment of the
C++ `unordered_map`), and the edge-metadata map as an association list with
insert-or-replace semantics. -/
structure ShortcutGraph where
  shortcuts : List Shortcut
  fwd_adj : Nat → List Nat
  bwd_adj : Nat → List Nat
  edge_meta : List (Nat × EdgeMeta)

/-- Lookup in the edge-metadata map (`edge_meta_.find`). -/
def metaFind : List (Nat × EdgeMeta) → Nat → Option EdgeMeta
  | [], _ => none
  | (k, v) :: rest, e => if k = e then some v else metaFind rest e

/-- Insert-or-replace in the edge-metadata map (`edge_meta_[id] = meta`). -/
def metaInsert : List (Nat × EdgeMeta) → Nat → EdgeMeta → List (Nat × EdgeMeta)
  | [], k, v => [(k, v)]
  | (k', v') :: rest, k, v =>
    if k' = k then (k, v) :: rest else (k', v') :: metaInsert rest k v

/-- `ShortcutGraph::get_edge_cost`: metadata cost of an edge, `0` if unknown. -/
def ShortcutGraph.get_edge_cost (g : ShortcutGraph) (edge_id : Nat) : ℚ :=
  match metaFind g.edge_meta edge_id with
  | some m => m.cost
  | none => 0

/-- `ShortcutGraph::get_edge_cell`: `incoming_cell` of an edge, `0` if unknown. -/
def ShortcutGraph.get_edge_cell (g : ShortcutGraph) (edge_id : Nat) : Nat :=
  match metaFind g.edge_meta edge_id with
  | some m => m.incoming_cell
  | none => 0

/-- `ShortcutGraph::compute_high_cell`: coarsen both endpoints by their
`lca_res` and take the LCA; `(0, -1)` disables pruning. -/
def ShortcutGraph.compute_high_cell (g : ShortcutGraph) (source_edge target_edge : Nat) :
    HighCell :=
  match metaFind g.edge_meta source_edge, metaFind g.edge_meta target_edge with
  | some sm, some dm =>
    if sm.incoming_cell = 0 ∨ dm.incoming_cell = 0 then { cell := 0, res := -1 }
    else
      let src_cell := if 0 ≤ sm.lca_res then cell_to_parent sm.incoming_cell sm.lca_res
        else sm.incoming_cell
      let dst_cell := if 0 ≤ dm.lca_res then cell_to_parent dm.incoming_cell dm.lca_res
        else dm.incoming_cell
      let lca := find_lca src_cell dst_cell
      if lca ≠ 0 then { cell := lca, res := get_resolution lca }
      else { cell := 0, res := -1 }
  | _, _ => { cell := 0, res := -1 }

/-! ## Search-engine state (`shortcut_graph.cpp`)

`MinHeap` (a `std::priority_queue` ordered by distance only) is modelled by
a list kept sorted by ascending distance whose head is the popped entry;
the C++ pop order among equal-distance entries is unspecified, the model
fixes first-in-first-out.  The per-direction distance and parent tables
are functions into `Option`, `none` standing for an absent key. -/

/-- Push an entry into the distance-ordered queue. -/
def pqPush : List (ℚ × Nat) → ℚ → Nat → List (ℚ × Nat)
  | [], d, u => [(d, u)]
  | (d', u') :: rest, d, u =>
    if d < d' then (d, u) :: (d', u') :: rest else (d', u') :: pqPush rest d u

/-- Point update of a lookup table (`map[k] = v`). -/
def mupd {α : Type} (m : Nat → Option α) (k : Nat) (v : α) : Nat → Option α :=
  fun x => if x = k then some v else m x

/-- `x < best`, where `best = none` is `+∞` (`d >= best` is its negation). -/
def dLtBest (x : ℚ) (best : Option ℚ) : Bool :=
  match best with
  | none => true
  | some b => x < b

/-- Transient state of one bidirectional search: distance and parent tables,
the two queues, the best meeting cost (`none` = `+∞`), the meeting node and
the found flag. -/
structure SState where
  dist_fwd : Nat → Option ℚ
  dist_bwd : Nat → Option ℚ
  parent_fwd : Nat → Option Nat
  parent_bwd : Nat → Option Nat
  pq_fwd : List (ℚ × Nat)
  pq_bwd : List (ℚ × Nat)
  best : Option ℚ
  meeting : Nat
  found : Bool

/-! ### Admissibility filters (claim C2)

Direct translations of the `continue` conditions guarding relaxation. -/

/-- Forward admissibility, all variants: `if (sc.inside != 1) continue;`. -/
def forward_inside_ok (sc : Shortcut) : Bool := sc.inside == 1

/-- Backward admissibility, classic and multi variants:
`if (sc.inside != -1 && sc.inside != 0) continue;`. -/
def backward_inside_ok_classic (sc : Shortcut) : Bool :=
  sc.inside == -1 || sc.inside == 0

/-- Backward admissibility, pruned variant (the `allowed` chain of
`query_pruned`). -/
def backward_allowed_pruned (sc : Shortcut) (check at_high : Bool) : Bool :=
  if sc.inside == -1 && check then true
  else if sc.inside == 0 && (at_high || !check) then true
  else if sc.inside == -2 && !check then true
  else false

/-! ### Shared pieces of the search loops -/

/-- Relaxation of one outgoing shortcut position in the forward direction
without an inline meeting test (the loop bodies of `query_pruned` and
`query_multi`), parameterized by the variant's admissibility filter. -/
def relax_fwd (g : ShortcutGraph) (allowed : Shortcut → Bool) (d : ℚ) (u : Nat)
    (st : SState) (idx : Nat) : SState :=
  match g.shortcuts[idx]? with
  | none => st
  | some sc =>
    if allowed sc then
      let nd := d + sc.cost
      let improve := match st.dist_fwd sc.«to» with
        | none => true
        | some dv => nd < dv
      if improve then
        { st with dist_fwd := mupd st.dist_fwd sc.«to» nd,
                  parent_fwd := mupd st.parent_fwd sc.«to» u,
                  pq_fwd := pqPush st.pq_fwd nd sc.«to» }
      else st
    else st

/-- Relaxation of one incoming shortcut position in the backward direction
without an inline meeting test. -/
def relax_bwd (g : ShortcutGraph) (allowed : Shortcut → Bool) (d : ℚ) (u : Nat)
    (st : SState) (idx : Nat) : SState :=
  match g.shortcuts[idx]? with
  | none => st
  | some sc =>
    if allowed sc then
      let nd := d + sc.cost
      let improve := match st.dist_bwd sc.«from» with
        | none => true
        | some dv => nd < dv
      if improve then
        { st with dist_bwd := mupd st.dist_bwd sc.«from» nd,
                  parent_bwd := mupd st.parent_bwd sc.«from» u,
                  pq_bwd := pqPush st.pq_bwd nd sc.«from» }
      else st
    else st

/-- Initial state of the single-endpoint searches (`query_classic` and
`query_pruned`, after the source-equals-target fast path):
`dist_fwd[s] = 0`, `dist_bwd[t] = edge_cost(t)`. -/
def init_single (g : ShortcutGraph) (s t : Nat) : SState :=
  let target_cost := g.get_edge_cost t
  { dist_fwd := mupd (fun _ => none) s 0
    dist_bwd := mupd (fun _ => none) t target_cost
    parent_fwd := mupd (fun _ => none) s s
    parent_bwd := mupd (fun _ => none) t t
    pq_fwd := [(0, s)]
    pq_bwd := [(target_cost, t)]
    best := none
    meeting := 0
    found := false }

/-- The forward part of the C++ path reconstruction: follow `parent_fwd`
from the meeting node to the origin (list returned meeting-first, the
caller reverses it); an absent parent entry reads as `0`, mirroring the
value-initializing `operator[]`. -/
def walk_fwd (par : Nat → Option Nat) : Nat → Nat → Option (List Nat)
  | 0, _ => none
  | fuel + 1, curr =>
    let p := (par curr).getD 0
    if p = curr then some [curr]
    else (walk_fwd par fuel p).map (fun l => curr :: l)

/-- The backward part of the C++ path reconstruction: append the successive
`parent_bwd` ancestors of the meeting node (the meeting node excluded). -/
def walk_bwd (par : Nat → Option Nat) : Nat → Nat → Option (List Nat)
  | 0, _ => none
  | fuel + 1, curr =>
    let p := (par curr).getD 0
    if p = curr then some []
    else (walk_bwd par fuel p).map (fun l => p :: l)

/-- Path reconstruction: reversed forward chain, then the backward chain. -/
def reconstruct_path (fuel : Nat) (st : SState) : Option (List Nat) :=
  match walk_fwd st.parent_fwd fuel st.meeting, walk_bwd st.parent_bwd fuel st.meeting with
  | some f, some b => some (f.reverse ++ b)
  | _, _ => none

/-- The common epilogue of the three query functions: `{-1, {}, false}` when
no meeting was found, otherwise the best cost with the reconstructed path. -/
def finish_search (fuel : Nat) (st : SState) : Option QueryResult :=
  if st.found then
    (reconstruct_path fuel st).map
      (fun p => { distance := st.best.getD 0, path := p, reachable := true })
  else some { distance := -1, path := [], reachable := false }

/-! ### `query_classic` -/

/-- The relaxation body of the classic forward step: allow `inside == +1`,
relax, and on improvement run the inline meeting test against `dist_bwd`. -/
def classic_fwd_relax (g : ShortcutGraph) (d : ℚ) (u : Nat)
    (st : SState) (idx : Nat) : SState :=
  match g.shortcuts[idx]? with
  | none => st
  | some sc =>
    if forward_inside_ok sc then
      let nd := d + sc.cost
      let improve := match st.dist_fwd sc.«to» with
        | none => true
        | some dv => nd < dv
      if improve then
        let st1 := { st with dist_fwd := mupd st.dist_fwd sc.«to» nd,
                             parent_fwd := mupd st.parent_fwd sc.«to» u,
                             pq_fwd := pqPush st.pq_fwd nd sc.«to» }
        match st1.dist_bwd sc.«to» with
        | some db =>
          if dLtBest (nd + db) st1.best then
            { st1 with best := some (nd + db), meeting := sc.«to», found := true }
          else st1
        | none => st1
      else st
    else st

/-- The relaxation body of the classic backward step: allow
`inside ∈ {-1, 0}`, relax toward `sc.from`, inline meeting test against
`dist_fwd`. -/
def classic_bwd_relax (g : ShortcutGraph) (d : ℚ) (u : Nat)
    (st : SState) (idx : Nat) : SState :=
  match g.shortcuts[idx]? with
  | none => st
  | some sc =>
    if backward_inside_ok_classic sc then
      let nd := d + sc.cost
      let improve := match st.dist_bwd sc.«from» with
        | none => true
        | some dv => nd < dv
      if improve then
        let st1 := { st with dist_bwd := mupd st.dist_bwd sc.«from» nd,
                             parent_bwd := mupd st.parent_bwd sc.«from» u,
                             pq_bwd := pqPush st.pq_bwd nd sc.«from» }
        match st1.dist_fwd sc.«from» with
        | some df =>
          if dLtBest (df + nd) st1.best then
            { st1 with best := some (df + nd), meeting := sc.«from», found := true }
          else st1
        | none => st1
      else st
    else st

/-- One classic forward step.  The returned flag signals the C++ `continue`
(stale entry or `d >= best`), which skips the backward step and the
termination check of the same outer iteration. -/
def classic_fwd_step (g : ShortcutGraph) (st : SState) : SState × Bool :=
  match st.pq_fwd with
  | [] => (st, false)
  | (d, u) :: rest =>
    let st0 := { st with pq_fwd := rest }
    let stale : Bool := match st0.dist_fwd u with
      | some du => decide (du < d)
      | none => false
    if stale then (st0, true)
    else if !dLtBest d st0.best then (st0, true)
    else ((g.fwd_adj u).foldl (classic_fwd_relax g d u) st0, false)

/-- One classic backward step. -/
def classic_bwd_step (g : ShortcutGraph) (st : SState) : SState × Bool :=
  match st.pq_bwd with
  | [] => (st, false)
  | (d, u) :: rest =>
    let st0 := { st with pq_bwd := rest }
    let stale : Bool := match st0.dist_bwd u with
      | some du => decide (du < d)
      | none => false
    if stale then (st0, true)
    else if !dLtBest d st0.best then (st0, true)
    else ((g.bwd_adj u).foldl (classic_bwd_relax g d u) st0, false)

/-- The classic early-termination test: break when both queues are nonempty
with both tops `≥ best`, or when both queues are empty. -/
def classic_term (st : SState) : Bool :=
  match st.pq_fwd, st.pq_bwd with
  | (d1, _) :: _, (d2, _) :: _ => !dLtBest d1 st.best && !dLtBest d2 st.best
  | [], [] => true
  | _, _ => false

/-- The classic outer loop, fuel-driven; `none` when the fuel runs out
before the loop finishes. -/
def classic_loop (g : ShortcutGraph) : Nat → SState → Option SState
  | 0, st => if st.pq_fwd.isEmpty && st.pq_bwd.isEmpty then some st else none
  | fuel + 1, st =>
    if st.pq_fwd.isEmpty && st.pq_bwd.isEmpty then some st
    else
      let fs := classic_fwd_step g st
      if fs.2 then classic_loop g fuel fs.1
      else
        let bs := classic_bwd_step g fs.1
        if bs.2 then classic_loop g fuel bs.1
        else if classic_term bs.1 then some bs.1
        else classic_loop g fuel bs.1

/-- `ShortcutGraph::query_classic`. -/
def ShortcutGraph.query_classic (g : ShortcutGraph) (fuel : Nat)
    (source_edge target_edge : Nat) : Option QueryResult :=
  if source_edge = target_edge then
    some { distance := g.get_edge_cost source_edge, path := [source_edge], reachable := true }
  else
    (classic_loop g fuel (init_single g source_edge target_edge)).bind (finish_search fuel)

/-! ### `query_pruned` -/

/-- The meeting test at a forward pop (pruned and multi variants):
`best ← min(best, d + dist_bwd[u])`, recording the meeting node. -/
def meet_fwd (st : SState) (d : ℚ) (u : Nat) : SState :=
  match st.dist_bwd u with
  | some db =>
    if dLtBest (d + db) st.best then
      { st with best := some (d + db), meeting := u, found := true }
    else st
  | none => st

/-- The meeting test at a backward pop: `best ← min(best, dist_fwd[u] + d)`. -/
def meet_bwd (st : SState) (d : ℚ) (u : Nat) : SState :=
  match st.dist_fwd u with
  | some df =>
    if dLtBest (df + d) st.best then
      { st with best := some (df + d), meeting := u, found := true }
    else st
  | none => st

/-- One pruned forward step: pop, meeting test, staleness and bound guards,
node-level `parent_check` pruning, then relaxation of `inside == +1`
shortcuts.  The flag signals the C++ `continue`. -/
def pruned_fwd_step (g : ShortcutGraph) (high : HighCell) (st : SState) :
    SState × Bool :=
  match st.pq_fwd with
  | [] => (st, false)
  | (d, u) :: rest =>
    let st0 := { st with pq_fwd := rest }
    let st1 := meet_fwd st0 d u
    let stale : Bool := match st1.dist_fwd u with
      | some du => decide (du < d)
      | none => false
    if stale then (st1, true)
    else if !dLtBest d st1.best then (st1, true)
    else if !(parent_check (g.get_edge_cell u) high.cell high.res) then (st1, true)
    else ((g.fwd_adj u).foldl (relax_fwd g forward_inside_ok d u) st1, false)

/-- One pruned backward step: pop, meeting test, guards, then relaxation
filtered by `backward_allowed_pruned` with `check` and `at_high` computed
from the popped node's cell. -/
def pruned_bwd_step (g : ShortcutGraph) (high : HighCell) (st : SState) :
    SState × Bool :=
  match st.pq_bwd with
  | [] => (st, false)
  | (d, u) :: rest =>
    let st0 := { st with pq_bwd := rest }
    let st1 := meet_bwd st0 d u
    let stale : Bool := match st1.dist_bwd u with
      | some du => decide (du < d)
      | none => false
    if stale then (st1, true)
    else if !dLtBest d st1.best then (st1, true)
    else
      let u_cell := g.get_edge_cell u
      let check := parent_check u_cell high.cell high.res
      let at_high := u_cell == high.cell
      ((g.bwd_adj u).foldl
        (relax_bwd g (fun sc => backward_allowed_pruned sc check at_high) d u) st1, false)

/-- The pruned early-termination test: once `best < ∞`, break when neither
queue's top can still improve it. -/
def pruned_term (st : SState) : Bool :=
  match st.best with
  | none => false
  | some b =>
    let fwd_can : Bool := match st.pq_fwd with
      | (d, _) :: _ => decide (d < b)
      | [] => false
    let bwd_can : Bool := match st.pq_bwd with
      | (d, _) :: _ => decide (d < b)
      | [] => false
    !fwd_can && !bwd_can

/-- The pruned outer loop. -/
def pruned_loop (g : ShortcutGraph) (high : HighCell) : Nat → SState → Option SState
  | 0, st => if st.pq_fwd.isEmpty && st.pq_bwd.isEmpty then some st else none
  | fuel + 1, st =>
    if st.pq_fwd.isEmpty && st.pq_bwd.isEmpty then some st
    else
      let fs := pruned_fwd_step g high st
      if fs.2 then pruned_loop g high fuel fs.1
      else
        let bs := pruned_bwd_step g high fs.1
        if bs.2 then pruned_loop g high fuel bs.1
        else if pruned_term bs.1 then some bs.1
        else pruned_loop g high fuel bs.1

/-- `ShortcutGraph::query_pruned`. -/
def ShortcutGraph.query_pruned (g : ShortcutGraph) (fuel : Nat)
    (source_edge target_edge : Nat) : Option QueryResult :=
  if source_edge = target_edge then
    some { distance := g.get_edge_cost source_edge, path := [source_edge], reachable := true }
  else
    (pruned_loop g (g.compute_high_cell source_edge target_edge) fuel
      (init_single g source_edge target_edge)).bind (finish_search fuel)

/-! ### `query_multi` -/

/-- Seed the forward search from the weighted sources that have metadata. -/
def multi_init_sources (g : ShortcutGraph) (st : SState)
    (pairs : List (Nat × ℚ)) : SState :=
  pairs.foldl (fun st p =>
    if (metaFind g.edge_meta p.1).isSome then
      { st with dist_fwd := mupd st.dist_fwd p.1 p.2,
                parent_fwd := mupd st.parent_fwd p.1 p.1,
                pq_fwd := pqPush st.pq_fwd p.2 p.1 }
    else st) st

/-- Seed the backward search from the weighted targets that have metadata;
the seed distance is the offset plus the target edge's own cost. -/
def multi_init_targets (g : ShortcutGraph) (st : SState)
    (pairs : List (Nat × ℚ)) : SState :=
  pairs.foldl (fun st p =>
    let dtot := p.2 + g.get_edge_cost p.1
    if (metaFind g.edge_meta p.1).isSome then
      { st with dist_bwd := mupd st.dist_bwd p.1 dtot,
                parent_bwd := mupd st.parent_bwd p.1 p.1,
                pq_bwd := pqPush st.pq_bwd dtot p.1 }
    else st) st

/-- The fully seeded initial state of `query_multi`. -/
def multi_init (g : ShortcutGraph) (source_edges : List Nat) (source_dists : List ℚ)
    (target_edges : List Nat) (target_dists : List ℚ) : SState :=
  let st0 : SState :=
    { dist_fwd := fun _ => none
      dist_bwd := fun _ => none
      parent_fwd := fun _ => none
      parent_bwd := fun _ => none
      pq_fwd := []
      pq_bwd := []
      best := none
      meeting := 0
      found := false }
  multi_init_targets g (multi_init_sources g st0 (source_edges.zip source_dists))
    (target_edges.zip target_dists)

/-- One multi forward step: pop, meeting test, then the combined guard
`d >= best || d > dist_fwd[u]` (the table read defaulting to `0` for an
absent key, as the C++ `operator[]` does), then relaxation. -/
def multi_fwd_step (g : ShortcutGraph) (st : SState) : SState × Bool :=
  match st.pq_fwd with
  | [] => (st, false)
  | (d, u) :: rest =>
    let st0 := { st with pq_fwd := rest }
    let st1 := meet_fwd st0 d u
    if !dLtBest d st1.best || decide ((st1.dist_fwd u).getD 0 < d) then (st1, true)
    else ((g.fwd_adj u).foldl (relax_fwd g forward_inside_ok d u) st1, false)

/-- One multi backward step. -/
def multi_bwd_step (g : ShortcutGraph) (st : SState) : SState × Bool :=
  match st.pq_bwd with
  | [] => (st, false)
  | (d, u) :: rest =>
    let st0 := { st with pq_bwd := rest }
    let st1 := meet_bwd st0 d u
    if !dLtBest d st1.best || decide ((st1.dist_bwd u).getD 0 < d) then (st1, true)
    else ((g.bwd_adj u).foldl (relax_bwd g backward_inside_ok_classic d u) st1, false)

/-- The multi early-termination acceleration: once `best < ∞`, a queue
whose top is `≥ best` is drained completely. -/
def multi_drain (st : SState) : SState :=
  match st.best with
  | none => st
  | some b =>
    let st1 := match st.pq_fwd with
      | (d, _) :: _ => if !(decide (d < b)) then { st with pq_fwd := [] } else st
      | [] => st
    match st1.pq_bwd with
    | (d, _) :: _ => if !(decide (d < b)) then { st1 with pq_bwd := [] } else st1
    | [] => st1

/-- The multi outer loop (no `break`; the loop ends when both queues are
empty). -/
def multi_loop (g : ShortcutGraph) : Nat → SState → Option SState
  | 0, st => if st.pq_fwd.isEmpty && st.pq_bwd.isEmpty then some st else none
  | fuel + 1, st =>
    if st.pq_fwd.isEmpty && st.pq_bwd.isEmpty then some st
    else
      let fs := multi_fwd_step g st
      if fs.2 then multi_loop g fuel fs.1
      else
        let bs := multi_bwd_step g fs.1
        if bs.2 then multi_loop g fuel bs.1
        else multi_loop g fuel (multi_drain bs.1)

/-- `ShortcutGraph::query_multi`.  The C++ signature takes parallel arrays
indexed together; the model zips them. -/
def ShortcutGraph.query_multi (g : ShortcutGraph) (fuel : Nat)
    (source_edges : List Nat) (source_dists : List ℚ)
    (target_edges : List Nat) (target_dists : List ℚ) : Option QueryResult :=
  (multi_loop g fuel (multi_init g source_edges source_dists target_edges target_dists)).bind
    (finish_search fuel)

/-! ## Loaders

The parquet reader is modelled at the row level: a file is its list of
decoded rows (all chunks concatenated, in order), with the column values
at the C++ types — `int64` columns as `Int`, the `double` column as `ℚ`,
the `int8` column as `Int`.  The `static_cast` narrowing conversions are
the explicit `% 2^32` / `% 2^64` reductions. -/

/-- `static_cast<uint32_t>` from a signed 64-bit value. -/
def u32 (i : Int) : Nat := (i % (2 ^ 32 : Int)).toNat

/-- `static_cast<uint64_t>` from a signed 64-bit value. -/
def u64 (i : Int) : Nat := (i % (2 ^ 64 : Int)).toNat

/-- One decoded parquet row of the shortcut artifact. -/
structure ShortcutRow where
  incoming_edge : Int
  outgoing_edge : Int
  cost : ℚ
  via_edge : Int
  cell : Int
  inside : Int
deriving DecidableEq

/-- The per-row body of `load_parquet_file`: append the shortcut and index
its position in both adjacency maps. -/
def load_row (g : ShortcutGraph) (row : ShortcutRow) : ShortcutGraph :=
  let sc : Shortcut :=
    { «from» := u32 row.incoming_edge
      «to» := u32 row.outgoing_edge
      cost := row.cost
      via_edge := u32 row.via_edge
      cell := u64 row.cell
      inside := row.inside }
  let idx := g.shortcuts.length
  { g with
    shortcuts := g.shortcuts ++ [sc]
    fwd_adj := fun e => if e = sc.«from» then g.fwd_adj e ++ [idx] else g.fwd_adj e
    bwd_adj := fun e => if e = sc.«to» then g.bwd_adj e ++ [idx] else g.bwd_adj e }

/-- `load_parquet_file`: append every row of one file to the store. -/
def load_parquet_file (g : ShortcutGraph) (rows : List ShortcutRow) : ShortcutGraph :=
  rows.foldl load_row g

/-- `ShortcutGraph::load_shortcuts`: clear the store, load every file,
report success iff at least one shortcut was loaded. -/
def ShortcutGraph.load_shortcuts (g : ShortcutGraph)
    (files : List (List ShortcutRow)) : Bool × ShortcutGraph :=
  let g0 := { g with shortcuts := [], fwd_adj := fun _ => [], bwd_adj := fun _ => [] }
  let g1 := files.foldl load_parquet_file g0
  (!g1.shortcuts.isEmpty, g1)

/-! ### CSV edge-metadata loader

The text file is modelled as `Option (List (List Char))`: `none` when the
stream cannot be opened, otherwise the list of its lines (header first).
The `std::stoul` / `std::stoull` / `std::stoi` / `std::stod` conversions
are modelled for plain decimal forms (optional leading spaces, optional
sign, digits, and for `stod` an optional fraction part); the exotic forms
they also accept (hexadecimal, exponents, out-of-range overflow) are not
exercised by the claims. -/

/-- Decimal digit value of a character, if any. -/
def digitVal (c : Char) : Option Nat :=
  if '0' ≤ c ∧ c ≤ '9' then some (c.toNat - '0'.toNat) else none

/-- Skip leading spaces and tabs (the whitespace skip of `std::strtol`). -/
def skipWs : List Char → List Char
  | ' ' :: rest => skipWs rest
  | '\t' :: rest => skipWs rest
  | cs => cs

/-- Consume a maximal run of digits; `none` in the first component when no
digit was consumed, otherwise the accumulated value.  Returns the rest. -/
def parseDigitsAux : List Char → Option Nat → Option Nat × List Char
  | [], acc => (acc, [])
  | c :: rest, acc =>
    match digitVal c with
    | some d => parseDigitsAux rest (some (acc.getD 0 * 10 + d))
    | none => (acc, c :: rest)

/-- Value of a maximal digit run read as a base-10 fraction (`scale` is the
positional weight of the next digit); the flag records whether at least one
digit was consumed. -/
def parseFracAux : List Char → ℚ → ℚ × Bool
  | [], _ => (0, false)
  | c :: rest, scale =>
    match digitVal c with
    | some d =>
      let v := parseFracAux rest (scale / 10)
      (scale * d + v.1, true)
    | none => (0, false)

/-- Model of the integer string conversions (`std::stoul`, `std::stoull`,
`std::stoi`) on plain decimal forms: `none` models the `std::invalid_argument`
they throw when no digits are found. -/
def parseIntChars (cs : List Char) : Option Int :=
  let cs := skipWs cs
  match cs with
  | '-' :: rest => (parseDigitsAux rest none).1.map (fun n => -(n : Int))
  | '+' :: rest => (parseDigitsAux rest none).1.map (fun n => (n : Int))
  | _ => (parseDigitsAux cs none).1.map (fun n => (n : Int))

/-- Model of `std::stod` on plain decimal forms `[sign] digits [. digits]`. -/
def parseRatChars (cs : List Char) : Option ℚ :=
  let cs := skipWs cs
  let sgn : Bool × List Char := match cs with
    | '-' :: rest => (true, rest)
    | '+' :: rest => (false, rest)
    | _ => (false, cs)
  let ip := parseDigitsAux sgn.2 none
  let fp : ℚ × Bool := match ip.2 with
    | '.' :: rest2 => parseFracAux rest2 (1 / 10)
    | _ => (0, false)
  match ip.1, fp.2 with
  | none, false => none
  | iv, _ =>
    let v : ℚ := (iv.getD 0 : ℚ) + fp.1
    some (if sgn.1 then -v else v)

/-- The character-level CSV field splitter of `load_edge_metadata`: `"`
toggles the quoted state, an unquoted `,` ends the field. -/
def splitCsvAux : List Char → Bool → List Char → List (List Char) → List (List Char)
  | [], _, field, acc => acc ++ [field]
  | c :: rest, in_quotes, field, acc =>
    if c = '"' then splitCsvAux rest (!in_quotes) field acc
    else if c = ',' ∧ in_quotes = false then splitCsvAux rest in_quotes [] (acc ++ [field])
    else splitCsvAux rest in_quotes (field ++ [c]) acc

/-- One data line of the metadata CSV: split into fields, require at least
11 columns, convert columns 10, 7, 8, 9, 2, 6; any conversion failure
drops the row (the `catch (...)` of the C++ loop). -/
def parse_meta_row (line : List Char) : Option (Nat × EdgeMeta) :=
  let row := splitCsvAux line false [] []
  if 11 ≤ row.length then
    match parseIntChars (row.getD 10 []), parseIntChars (row.getD 7 []),
        parseIntChars (row.getD 8 []), parseIntChars (row.getD 9 []),
        parseRatChars (row.getD 2 []), parseRatChars (row.getD 6 []) with
    | some id, some ic, some oc, some lr, some len, some cost =>
      some (u32 id,
        { incoming_cell := u64 ic, outgoing_cell := u64 oc,
          lca_res := lr, length := len, cost := cost })
    | _, _, _, _, _, _ => none
  else none

/-- The per-line body of the metadata loop: insert the parsed record,
silently skip malformed lines. -/
def meta_line_step (m : List (Nat × EdgeMeta)) (line : List Char) :
    List (Nat × EdgeMeta) :=
  match parse_meta_row line with
  | some r => metaInsert m r.1 r.2
  | none => m

/-- `ShortcutGraph::load_edge_metadata`: `false` with the store untouched
when the file cannot be opened; otherwise skip the header line, clear the
previous metadata, insert every parsed row, and report success iff the
resulting map is nonempty. -/
def ShortcutGraph.load_edge_metadata (g : ShortcutGraph)
    (file : Option (List (List Char))) : Bool × ShortcutGraph :=
  match file with
  | none => (false, g)
  | some lines =>
    let m := (lines.drop 1).foldl meta_line_step []
    (!m.isEmpty, { g with edge_meta := m })

/-- The adjacency-exactness invariant of claim C9: each index maps every
edge to exactly the positions of its incident shortcuts, in order. -/
def adjacency_exact (g : ShortcutGraph) : Prop :=
  ∀ e : Nat,
    g.fwd_adj e = (List.range g.shortcuts.length).filter
      (fun i => g.shortcuts[i]?.any (fun sc => sc.«from» == e)) ∧
    g.bwd_adj e = (List.range g.shortcuts.length).filter
      (fun i => g.shortcuts[i]?.any (fun sc => sc.«to» == e))

/-! ## Reachability and search invariants (claim C3)

Claim C3 relates `query_multi([s], [0], [t], [0])` to `query_classic(s, t)`.
The proof goes through a common declarative yardstick: the forward and
backward cost-reachability relations generated by exactly the relaxations
the loops perform, a soundness invariant (every recorded meeting cost is an
achievable pair sum), and an optimality invariant (a node with a table
entry is either still queued at its table value, fully relaxed, or cut off
by `best`), under the data-model invariant that costs are nonnegative. -/

/-- The §3 data-model invariant: all shortcut and metadata costs are
nonnegative. -/
def nonneg_costs (g : ShortcutGraph) : Prop :=
  (∀ sc ∈ g.shortcuts, 0 ≤ sc.cost) ∧
  (∀ e m, metaFind g.edge_meta e = some m → 0 ≤ m.cost)

/-- Forward cost-reachability: the pairs `(x, v)` such that the forward
search can set `dist_fwd x = v` — start at the source with `0` and follow
`inside = +1` shortcut positions listed in the forward adjacency. -/
inductive FwdReach (g : ShortcutGraph) (s : Nat) : Nat → ℚ → Prop
  | base : FwdReach g s s 0
  | step {u : Nat} {d : ℚ} {idx : Nat} {sc : Shortcut} :
      FwdReach g s u d → idx ∈ g.fwd_adj u → g.shortcuts[idx]? = some sc →
      sc.inside = 1 → FwdReach g s sc.«to» (d + sc.cost)

/-- Backward cost-reachability: start at the target with `edge_cost t` and
follow `inside ∈ {-1, 0}` shortcut positions backward. -/
inductive BwdReach (g : ShortcutGraph) (t : Nat) : Nat → ℚ → Prop
  | base : BwdReach g t t (g.get_edge_cost t)
  | step {u : Nat} {d : ℚ} {idx : Nat} {sc : Shortcut} :
      BwdReach g t u d → idx ∈ g.bwd_adj u → g.shortcuts[idx]? = some sc →
      (sc.inside = -1 ∨ sc.inside = 0) → BwdReach g t sc.«from» (d + sc.cost)

/-- The queue is sorted by ascending distance (the heap-order abstraction the
model maintains). -/
def sortedQ (q : List (ℚ × Nat)) : Prop :=
  q.Pairwise (fun a b => a.1 ≤ b.1)

/-- `best` is set and at most `v` (`none` stands for `+∞`). -/
def bestLE (o : Option ℚ) (v : ℚ) : Prop :=
  ∃ b, o = some b ∧ b ≤ v

/-- The meeting invariant of the classic variant: any node present in both
tables has already driven `best` down to at most its pair sum (the classic
loop tests meetings at every improving relaxation). -/
def meetC (st : SState) : Prop :=
  ∀ x v1 v2, st.dist_fwd x = some v1 → st.dist_bwd x = some v2 →
    bestLE st.best (v1 + v2)

/-- The meeting invariant of the multi variant: a node present in both
tables has either already driven `best` down, or one of its table values
still sits in the corresponding queue (its pop will run the meeting test). -/
def meetM (st : SState) : Prop :=
  ∀ x v1 v2, st.dist_fwd x = some v1 → st.dist_bwd x = some v2 →
    bestLE st.best (v1 + v2) ∨ (v1, x) ∈ st.pq_fwd ∨ (v2, x) ∈ st.pq_bwd

/-- The step-preserved invariant of both searches, for source `s` and
target `t` over store `g`. -/
structure SearchInv (g : ShortcutGraph) (s t : Nat) (st : SState) : Prop where
  sorted_f : sortedQ st.pq_fwd
  sorted_b : sortedQ st.pq_bwd
  nonneg_f : ∀ x v, st.dist_fwd x = some v → 0 ≤ v
  nonneg_b : ∀ x v, st.dist_bwd x = some v → 0 ≤ v
  sound_f : ∀ x v, st.dist_fwd x = some v → FwdReach g s x v
  sound_b : ∀ x v, st.dist_bwd x = some v → BwdReach g t x v
  entry_le_f : ∀ p ∈ st.pq_fwd, ∃ v, st.dist_fwd p.2 = some v ∧ v ≤ p.1
  entry_le_b : ∀ p ∈ st.pq_bwd, ∃ v, st.dist_bwd p.2 = some v ∧ v ≤ p.1
  entry_reach_f : ∀ p ∈ st.pq_fwd, FwdReach g s p.2 p.1
  entry_reach_b : ∀ p ∈ st.pq_bwd, BwdReach g t p.2 p.1
  best_sound : ∀ b, st.best = some b →
    ∃ x v1 v2, FwdReach g s x v1 ∧ BwdReach g t x v2 ∧ b = v1 + v2
  found_iff : st.found = st.best.isSome
  seed_f : ∃ w, st.dist_fwd s = some w ∧ w ≤ 0
  seed_b : ∃ w, st.dist_bwd t = some w ∧ w ≤ g.get_edge_cost t

/-- The forward node invariant: every node with a table entry — except an
optional exempt node currently being expanded — is still queued at its
table value, or fully relaxed, or cut off by `best`. -/
def NodeInvF (g : ShortcutGraph) (ex : Option Nat) (st : SState) : Prop :=
  ∀ u du, st.dist_fwd u = some du → some u ≠ ex →
    ((du, u) ∈ st.pq_fwd) ∨
    (∀ idx ∈ g.fwd_adj u, ∀ sc, g.shortcuts[idx]? = some sc → sc.inside = 1 →
      ∃ w, st.dist_fwd sc.«to» = some w ∧ w ≤ du + sc.cost) ∨
    bestLE st.best du

/-- The backward node invariant. -/
def NodeInvB (g : ShortcutGraph) (ex : Option Nat) (st : SState) : Prop :=
  ∀ u du, st.dist_bwd u = some du → some u ≠ ex →
    ((du, u) ∈ st.pq_bwd) ∨
    (∀ idx ∈ g.bwd_adj u, ∀ sc, g.shortcuts[idx]? = some sc →
      (sc.inside = -1 ∨ sc.inside = 0) →
      ∃ w, st.dist_bwd sc.«from» = some w ∧ w ≤ du + sc.cost) ∨
    bestLE st.best du

/-- Any forward table value of the second state is inherited or freshly
queued (the push accompanying every improvement). -/
def FreshF (st st2 : SState) : Prop :=
  ∀ x w, st2.dist_fwd x = some w → st.dist_fwd x = some w ∨ (w, x) ∈ st2.pq_fwd

/-- Any backward table value of the second state is inherited or freshly
queued. -/
def FreshB (st st2 : SState) : Prop :=
  ∀ x w, st2.dist_bwd x = some w → st.dist_bwd x = some w ∨ (w, x) ∈ st2.pq_bwd

/-- The shape of a finished search: both queues drained, or `best` set with
every remaining queue entry unable to improve it. -/
def end_cond (st : SState) : Prop :=
  (st.pq_fwd = [] ∧ st.pq_bwd = []) ∨
  (∃ b, st.best = some b ∧ (∀ p ∈ st.pq_fwd, b ≤ p.1) ∧ (∀ p ∈ st.pq_bwd, b ≤ p.1))

/-- Structural postcondition of one forward-side relaxation or fold: the
backward side is untouched, forward queue entries and defined table values
persist (tables only improve), and a set `best` only decreases. -/
def StepPostF (st st2 : SState) : Prop :=
  st2.dist_bwd = st.dist_bwd ∧ st2.pq_bwd = st.pq_bwd ∧
  (∀ p ∈ st.pq_fwd, p ∈ st2.pq_fwd) ∧
  (∀ x w, st.dist_fwd x = some w → ∃ w2, st2.dist_fwd x = some w2 ∧ w2 ≤ w) ∧
  (∀ v, bestLE st.best v → bestLE st2.best v)

/-- Structural postcondition of one backward-side relaxation or fold. -/
def StepPostB (st st2 : SState) : Prop :=
  st2.dist_fwd = st.dist_fwd ∧ st2.pq_fwd = st.pq_fwd ∧
  (∀ p ∈ st.pq_bwd, p ∈ st2.pq_bwd) ∧
  (∀ x w, st.dist_bwd x = some w → ∃ w2, st2.dist_bwd x = some w2 ∧ w2 ≤ w) ∧
  (∀ v, bestLE st.best v → bestLE st2.best v)

/-- The relaxation bound delivered by processing position `idx` at popped
distance `d` in the forward direction. -/
def BoundF (g : ShortcutGraph) (d : ℚ) (idx : Nat) (st2 : SState) : Prop :=
  ∀ sc, g.shortcuts[idx]? = some sc → sc.inside = 1 →
    ∃ w, st2.dist_fwd sc.«to» = some w ∧ w ≤ d + sc.cost

/-- The relaxation bound delivered by processing position `idx` at popped
distance `d` in the backward direction. -/
def BoundB (g : ShortcutGraph) (d : ℚ) (idx : Nat) (st2 : SState) : Prop :=
  ∀ sc, g.shortcuts[idx]? = some sc → (sc.inside = -1 ∨ sc.inside = 0) →
    ∃ w, st2.dist_bwd sc.«from» = some w ∧ w ≤ d + sc.cost

/-! ## Concrete stores used by closed theorems -/

/-- The empty store (no shortcuts, no adjacency, no metadata). -/
def emptyStore : ShortcutGraph :=
  { shortcuts := [], fwd_adj := fun _ => [], bwd_adj := fun _ => [], edge_meta := [] }

/-- The scenario-S3 store: one `inside = +1` shortcut from edge `1` to
edge `2` of cost `7`, and metadata giving edge `2` cost `1`. -/
def storeS3 : ShortcutGraph :=
  { shortcuts := [{ «from» := 1, «to» := 2, cost := 7, via_edge := 0, cell := 0, inside := 1 }]
    fwd_adj := fun e => if e = 1 then [0] else []
    bwd_adj := fun e => if e = 2 then [0] else []
    edge_meta :=
      [(2, { incoming_cell := 0, outgoing_cell := 0, lca_res := -1, length := 0, cost := 1 })] }

/-- A scenario-S5 store: the S3 shortcut, with both endpoints carrying
metadata that places them in the same cell `16`, so the query's high cell
is `(16, 1)` and the whole optimal path stays inside the envelope. -/
def storeS5 : ShortcutGraph :=
  { shortcuts := [{ «from» := 1, «to» := 2, cost := 7, via_edge := 0, cell := 0, inside := 1 }]
    fwd_adj := fun e => if e = 1 then [0] else []
    bwd_adj := fun e => if e = 2 then [0] else []
    edge_meta :=
      [(1, { incoming_cell := 16, outgoing_cell := 16, lca_res := -1, length := 0, cost := 0 }),
       (2, { incoming_cell := 16, outgoing_cell := 16, lca_res := -1, length := 0, cost := 1 })] }

/-- An adversarial store for claim C1: the only source-to-target route is an
`inside = +1` shortcut `1 → 2` followed by a lateral (`inside = 0`) shortcut
`2 → 3`.  Edges `1` and `3` carry metadata with sibling cells `16` and `17`,
whose LCA is the cell `2` at resolution 0, so the backward search pops edge
`3` with `check = true` and `at_high = false` and refuses the lateral
shortcut that classic mode allows. -/
def storeC1 : ShortcutGraph :=
  { shortcuts :=
      [{ «from» := 1, «to» := 2, cost := 2, via_edge := 0, cell := 0, inside := 1 },
       { «from» := 2, «to» := 3, cost := 3, via_edge := 0, cell := 0, inside := 0 }]
    fwd_adj := fun e => if e = 1 then [0] else if e = 2 then [1] else []
    bwd_adj := fun e => if e = 2 then [0] else if e = 3 then [1] else []
    edge_meta :=
      [(1, { incoming_cell := 16, outgoing_cell := 16, lca_res := -1, length := 0, cost := 0 }),
       (3, { incoming_cell := 17, outgoing_cell := 17, lca_res := -1, length := 0, cost := 1 })] }

/-! ## Theorems -/

/-! ### Arithmetic facts about the H3 model -/

theorem logGo_bounds : ∀ (fuel c : Nat), 1 ≤ c → c ≤ fuel →
    8 ^ logGo fuel c ≤ c ∧ c < 8 ^ (logGo fuel c + 1) := by
  intro fuel
  induction fuel with
  | zero => intro c h1 h2; omega
  | succ f ih =>
    intro c h1 h2
    by_cases hc : c < 8
    · simp only [logGo, if_pos hc]
      constructor
      · simpa using h1
      · simpa using hc
    · push_neg at hc
      simp only [logGo, if_neg (by omega : ¬ c < 8)]
      have hdivpos : 1 ≤ c / 8 := (Nat.one_le_div_iff (by norm_num)).mpr hc
      have hdivlt : c / 8 < c := Nat.div_lt_self (by omega) (by norm_num)
      obtain ⟨hlo, hhi⟩ := ih (c / 8) hdivpos (by omega)
      constructor
      · calc 8 ^ (logGo f (c / 8) + 1) = 8 ^ logGo f (c / 8) * 8 := by ring
        _ ≤ c / 8 * 8 := by exact Nat.mul_le_mul_right 8 hlo
        _ ≤ c := Nat.div_mul_le_self c 8
      · have : c < 8 ^ (logGo f (c / 8) + 1) * 8 :=
          (Nat.div_lt_iff_lt_mul (by norm_num)).mp hhi
        calc c < 8 ^ (logGo f (c / 8) + 1) * 8 := this
        _ = 8 ^ (logGo f (c / 8) + 1 + 1) := by ring

theorem h3Res_bounds (c : Nat) (h : 1 ≤ c) :
    8 ^ h3GetResolution c ≤ c ∧ c < 8 ^ (h3GetResolution c + 1) :=
  logGo_bounds c c h le_rfl

theorem h3Res_unique (c r : Nat) (hlo : 8 ^ r ≤ c) (hhi : c < 8 ^ (r + 1)) :
    h3GetResolution c = r := by
  have h1 : 1 ≤ c := le_trans (Nat.one_le_pow _ _ (by norm_num)) hlo
  obtain ⟨hlo2, hhi2⟩ := h3Res_bounds c h1
  by_contra hne
  rcases Nat.lt_or_ge (h3GetResolution c) r with hlt | hge
  · have : 8 ^ (h3GetResolution c + 1) ≤ 8 ^ r :=
      Nat.pow_le_pow_right (by norm_num) (by omega)
    omega
  · have hlt2 : r < h3GetResolution c := by omega
    have : 8 ^ (r + 1) ≤ 8 ^ h3GetResolution c :=
      Nat.pow_le_pow_right (by norm_num) (by omega)
    omega

theorem h3Res_div (c r : Nat) (hc : 1 ≤ c) (hr : r ≤ h3GetResolution c) :
    1 ≤ c / 8 ^ (h3GetResolution c - r) ∧
      h3GetResolution (c / 8 ^ (h3GetResolution c - r)) = r := by
  obtain ⟨hlo, hhi⟩ := h3Res_bounds c hc
  have hpow : (0:Nat) < 8 ^ (h3GetResolution c - r) := Nat.pos_pow_of_pos _ (by norm_num)
  have hlo2 : 8 ^ r ≤ c / 8 ^ (h3GetResolution c - r) := by
    rw [Nat.le_div_iff_mul_le hpow, ← Nat.pow_add]
    have : r + (h3GetResolution c - r) = h3GetResolution c := by omega
    rw [this]; exact hlo
  have hhi2 : c / 8 ^ (h3GetResolution c - r) < 8 ^ (r + 1) := by
    rw [Nat.div_lt_iff_lt_mul hpow, ← Nat.pow_add]
    have : r + 1 + (h3GetResolution c - r) = h3GetResolution c + 1 := by omega
    rw [this]; exact hhi
  refine ⟨?_, h3Res_unique _ _ hlo2 hhi2⟩
  calc 1 ≤ 8 ^ r := Nat.one_le_pow _ _ (by norm_num)
  _ ≤ _ := hlo2

theorem cell_to_parent_zero (r : Int) : cell_to_parent 0 r = 0 := by
  simp [cell_to_parent]

theorem cell_to_parent_neg (c : Nat) (r : Int) (h : r < 0) : cell_to_parent c r = 0 := by
  simp [cell_to_parent, h]

theorem cell_to_parent_coarse (c : Nat) (r : Int) (hc : c ≠ 0)
    (h : (h3GetResolution c : Int) ≤ r) : cell_to_parent c r = c := by
  have hr : ¬ r < 0 := by
    have : (0 : Int) ≤ (h3GetResolution c : Int) := Int.natCast_nonneg _
    omega
  simp [cell_to_parent, hc, hr, h]

theorem cell_to_parent_fine (c : Nat) (r : Int) (hc : c ≠ 0) (hr : 0 ≤ r)
    (h : r < (h3GetResolution c : Int)) :
    cell_to_parent c r = c / 8 ^ (h3GetResolution c - r.toNat) := by
  simp only [cell_to_parent, h3CellToParent]
  rw [if_neg (by omega), if_neg (by omega)]

/-- Claim C5 (amended): for all cells `c` and resolutions `r`, the first three
cell-hierarchy laws hold unconditionally —
`parent(parent(c,r),r) = parent(c,r)`, `parent(c, resolution(c)) = c`,
`lca(c,c) = c` — and the fourth law `parent_check(c, parent(c,r), r) = true`
holds provided `c = 0` or `r ≤ resolution(c)` (it fails for a valid cell
when `r` is strictly finer than the cell's own resolution). -/
theorem claim_C5 (c : Nat) (r : Int) :
    cell_to_parent (cell_to_parent c r) r = cell_to_parent c r ∧
    cell_to_parent c (get_resolution c) = c ∧
    find_lca c c = c ∧
    (c = 0 ∨ r ≤ get_resolution c → parent_check c (cell_to_parent c r) r = true) := by
  refine ⟨?_, ?_, ?_, ?_⟩
  · -- idempotence of `parent` at a fixed resolution
    by_cases hc : c = 0
    · subst hc; simp [cell_to_parent_zero]
    by_cases hr : r < 0
    · simp [cell_to_parent_neg c r hr, cell_to_parent_zero]
    push_neg at hr
    by_cases hcoarse : (h3GetResolution c : Int) ≤ r
    · simp only [cell_to_parent_coarse c r hc hcoarse]
    push_neg at hcoarse
    rw [cell_to_parent_fine c r hc hr hcoarse]
    have hc1 : 1 ≤ c := Nat.one_le_iff_ne_zero.mpr hc
    have hrle : r.toNat ≤ h3GetResolution c := by omega
    obtain ⟨hpos, hres⟩ := h3Res_div c r.toNat hc1 hrle
    exact cell_to_parent_coarse _ r (by omega) (by rw [hres]; omega)
  · -- `parent(c, resolution(c)) = c`
    by_cases hc : c = 0
    · subst hc; simp [get_resolution, cell_to_parent]
    · rw [get_resolution, if_neg hc]
      exact cell_to_parent_coarse c _ hc le_rfl
  · -- `lca(c, c) = c`
    by_cases hc : c = 0
    · subst hc; simp [find_lca]
    · have hloop : ∀ n, find_lca_loop n c c = (c, c) := by
        intro n; cases n with
        | zero => rfl
        | succ m => simp [find_lca_loop]
      simp [find_lca, hc, hloop]
  · -- `parent_check(c, parent(c,r), r)` under the amended side condition
    rintro (hc | hr)
    · subst hc; rw [cell_to_parent_zero]; simp [parent_check]
    by_cases hc : c = 0
    · subst hc; rw [cell_to_parent_zero]; simp [parent_check]
    rw [get_resolution, if_neg hc] at hr
    by_cases hneg : r < 0
    · rw [cell_to_parent_neg c r hneg]; simp [parent_check]
    push_neg at hneg
    by_cases hcoarse : (h3GetResolution c : Int) ≤ r
    · have heq : r = (h3GetResolution c : Int) := le_antisymm hr hcoarse
      rw [cell_to_parent_coarse c r hc hcoarse]
      rw [parent_check, if_neg (by omega), if_neg hc, if_neg (by omega)]
      rw [cell_to_parent_coarse c r hc hcoarse]
      exact beq_self_eq_true c
    · push_neg at hcoarse
      rw [cell_to_parent_fine c r hc hneg hcoarse]
      have hc1 : 1 ≤ c := Nat.one_le_iff_ne_zero.mpr hc
      obtain ⟨hpos, _⟩ := h3Res_div c r.toNat hc1 (by omega)
      rw [parent_check, if_neg (by omega), if_neg hc, if_neg (by omega)]
      rw [cell_to_parent_fine c r hc hneg hcoarse]
      exact beq_self_eq_true _

/-- Claim C5, counterexample to the claim as stated: for the valid cell `8`
(resolution 1) and resolution `2`, `parent(8, 2) = 8` but
`parent_check(8, parent(8, 2), 2) = false`, falsifying the fourth law
`parent_check(c, parent(c, r), r) = true` for all `c`, `r`. -/
theorem claim_C5_counterexample :
    parent_check 8 (cell_to_parent 8 2) 2 = false := by decide

/-- Claim C5, witness: the amended theorem applied at the concrete cell `16`
(resolution 1) and resolution `1`, discharging the side condition. -/
theorem claim_C5_witness :
    cell_to_parent (cell_to_parent 16 1) 1 = cell_to_parent 16 1 ∧
    parent_check 16 (cell_to_parent 16 1) 1 = true :=
  ⟨(claim_C5 16 1).1, (claim_C5 16 1).2.2.2 (Or.inr (by decide))⟩

/-- Claim C4: behaviour of `parent_check(node_cell, high_cell, high_res)` —
trivially true when `high_cell = 0` or `high_res < 0`; false for
`node_cell = 0` when pruning is active; false when `high_res` is finer than
the node's resolution; otherwise it compares the node's ancestor at
`high_res` with `high_cell`. -/
theorem claim_C4 (n h : Nat) (r : Int) :
    ((h = 0 ∨ r < 0) → parent_check n h r = true) ∧
    (¬ (h = 0 ∨ r < 0) → n = 0 → parent_check n h r = false) ∧
    (¬ (h = 0 ∨ r < 0) → n ≠ 0 → get_resolution n < r → parent_check n h r = false) ∧
    (¬ (h = 0 ∨ r < 0) → n ≠ 0 → r ≤ get_resolution n →
      (parent_check n h r = true ↔ cell_to_parent n r = h)) := by
  refine ⟨?_, ?_, ?_, ?_⟩
  · intro hdeg; simp [parent_check, hdeg]
  · intro hdeg hn; subst hn; simp [parent_check, hdeg]
  · intro hdeg hn hres
    rw [get_resolution, if_neg hn] at hres
    rw [parent_check, if_neg hdeg, if_neg hn, if_pos hres]
  · intro hdeg hn hres
    rw [get_resolution, if_neg hn] at hres
    rw [parent_check, if_neg hdeg, if_neg hn, if_neg (by omega)]
    exact beq_iff_eq

/-- Claim C4, witness: the theorem applied at `node_cell = 16`,
`high_cell = 2`, `high_res = 0` (the cell `16` has resolution 1 and its
resolution-0 ancestor is `2`), discharging all hypotheses. -/
theorem claim_C4_witness : parent_check 16 2 0 = true :=
  ((claim_C4 16 2 0).2.2.2 (by decide) (by decide) (by decide)).mpr (by decide)

/-- Truth table of the pruned backward filter, for arbitrary flags. -/
theorem backward_allowed_pruned_eq (sc : Shortcut) (check at_high : Bool) :
    backward_allowed_pruned sc check at_high = true ↔
      ((sc.inside = -1 ∧ check = true) ∨
       (sc.inside = 0 ∧ (at_high = true ∨ check = false)) ∨
       (sc.inside = -2 ∧ check = false)) := by
  cases check <;> cases at_high <;> simp [backward_allowed_pruned]

/-- Claim C2: the relaxation filters of the three variants — forward always
accepts exactly `inside = +1`; the classic/multi backward filter accepts
exactly `inside ∈ {-1, 0}`; the pruned backward filter, with
`check = parent_check(edge_cell(u), high.cell, high.res)` and
`at_high = (edge_cell(u) = high.cell)`, accepts exactly per the spec table;
it never accepts `inside = +1` for any flags; and a shortcut rejected by a
filter is not relaxed — the corresponding relaxation body leaves the search
state unchanged. -/
theorem claim_C2 (g : ShortcutGraph) (high : HighCell) (u : Nat) (sc : Shortcut) :
    (forward_inside_ok sc = true ↔ sc.inside = 1) ∧
    (backward_inside_ok_classic sc = true ↔ (sc.inside = -1 ∨ sc.inside = 0)) ∧
    (backward_allowed_pruned sc (parent_check (g.get_edge_cell u) high.cell high.res)
        (g.get_edge_cell u == high.cell) = true ↔
      ((sc.inside = -1 ∧ parent_check (g.get_edge_cell u) high.cell high.res = true) ∨
       (sc.inside = 0 ∧ (g.get_edge_cell u = high.cell ∨
          parent_check (g.get_edge_cell u) high.cell high.res = false)) ∨
       (sc.inside = -2 ∧ parent_check (g.get_edge_cell u) high.cell high.res = false))) ∧
    (∀ check at_high : Bool, sc.inside = 1 →
      backward_allowed_pruned sc check at_high = false) ∧
    (∀ (st : SState) (d : ℚ) (idx : Nat), g.shortcuts[idx]? = some sc →
      sc.inside ≠ 1 →
        relax_fwd g forward_inside_ok d u st idx = st ∧
        classic_fwd_relax g d u st idx = st) ∧
    (∀ (st : SState) (d : ℚ) (idx : Nat) (check at_high : Bool),
      g.shortcuts[idx]? = some sc →
      backward_allowed_pruned sc check at_high = false →
        relax_bwd g (fun s => backward_allowed_pruned s check at_high) d u st idx = st) := by
  refine ⟨?_, ?_, ?_, ?_, ?_, ?_⟩
  · simp [forward_inside_ok]
  · simp [backward_inside_ok_classic]
  · rw [backward_allowed_pruned_eq]
    simp
  · intro check at_high h
    cases check <;> cases at_high <;> simp [backward_allowed_pruned, h]
  · intro st d idx hsc h
    constructor
    · simp [relax_fwd, hsc, forward_inside_ok, h]
    · simp [classic_fwd_relax, hsc, forward_inside_ok, h]
  · intro st d idx check at_high hsc h
    simp [relax_bwd, hsc, h]

/-- Claim C2, witness: applied to a concrete `inside = +1` shortcut — never
accepted backward in pruned mode, and its backward relaxation is a no-op on
a concrete state over the empty store. -/
theorem claim_C2_witness :
    backward_allowed_pruned
      { «from» := 1, «to» := 2, cost := 7, via_edge := 0, cell := 0, inside := 1 }
      true false = false :=
  (claim_C2 emptyStore { cell := 0, res := -1 } 0
    { «from» := 1, «to» := 2, cost := 7, via_edge := 0, cell := 0, inside := 1 }).2.2.2.1
    true false rfl

/-- Claim C6: for every store and every edge `s`, `query_classic(s, s)` and
`query_pruned(s, s)` short-circuit to
`{edge_cost(s), [s], true}`, regardless of adjacency, metadata or fuel. -/
theorem claim_C6 (g : ShortcutGraph) (fuel : Nat) (s : Nat) :
    g.query_classic fuel s s =
      some { distance := g.get_edge_cost s, path := [s], reachable := true } ∧
    g.query_pruned fuel s s =
      some { distance := g.get_edge_cost s, path := [s], reachable := true } := by
  constructor
  · simp [ShortcutGraph.query_classic]
  · simp [ShortcutGraph.query_pruned]

set_option maxHeartbeats 2000000 in
/-- Claim C7: on the S3 store — one `inside = +1` shortcut `1 → 2` of cost
`7`, edge `2` metadata cost `1` — `query_classic(1, 2)` returns distance
`7 + 1 = 8` with path `[1, 2]`, the backward seed `dist_bwd[2] = edge_cost(2)`
contributing the target edge's own cost. -/
theorem claim_C7 :
    storeS3.query_classic 3 1 2 =
      some { distance := 8, path := [1, 2], reachable := true } := by
  norm_num [storeS3, ShortcutGraph.query_classic, init_single, classic_loop,
    classic_fwd_step, classic_bwd_step, classic_fwd_relax, classic_bwd_relax,
    classic_term, finish_search, reconstruct_path, walk_fwd, walk_bwd,
    ShortcutGraph.get_edge_cost, metaFind, mupd, pqPush, dLtBest,
    forward_inside_ok, backward_inside_ok_classic]

/-- Claim C1 (amended): the pruning rules are not admissible for arbitrary
loaded stores, so `query_classic` and `query_pruned` need not agree on every
graph with a path (see the counterexample); the agreement does hold when
source equals target on every store, and on stores whose optimal path stays
admissible under the high-cell rules, e.g. the S5 store, where both variants
return distance `8`. -/
theorem claim_C1 :
    (∀ (g : ShortcutGraph) (fuel s : Nat),
      g.query_classic fuel s s = g.query_pruned fuel s s) ∧
    (storeS5.query_classic 3 1 2 =
        some { distance := 8, path := [1, 2], reachable := true } ∧
     storeS5.query_pruned 3 1 2 =
        some { distance := 8, path := [1, 2], reachable := true }) := by
  refine ⟨?_, ?_, ?_⟩
  · intro g fuel s
    simp [ShortcutGraph.query_classic, ShortcutGraph.query_pruned]
  · norm_num [storeS5, ShortcutGraph.query_classic, init_single, classic_loop,
      classic_fwd_step, classic_bwd_step, classic_fwd_relax, classic_bwd_relax,
      classic_term, finish_search, reconstruct_path, walk_fwd, walk_bwd,
      ShortcutGraph.get_edge_cost, metaFind, mupd, pqPush, dLtBest,
      forward_inside_ok, backward_inside_ok_classic]
  · norm_num [storeS5, ShortcutGraph.query_pruned, init_single, pruned_loop,
      pruned_fwd_step, pruned_bwd_step, pruned_term, meet_fwd, meet_bwd,
      relax_fwd, relax_bwd, finish_search, reconstruct_path, walk_fwd, walk_bwd,
      ShortcutGraph.get_edge_cost, ShortcutGraph.get_edge_cell,
      ShortcutGraph.compute_high_cell, metaFind, mupd, pqPush, dLtBest,
      forward_inside_ok, backward_allowed_pruned, parent_check, cell_to_parent,
      find_lca, find_lca_loop, get_resolution, h3GetResolution, h3CellToParent, logGo]

set_option maxHeartbeats 2000000 in
/-- Claim C1, counterexample to the claim as stated: on `storeC1`, edges `1`
and `3` both carry metadata and a path `[1, 2, 3]` exists (classic reaches it
with distance `6`), yet pruned reports unreachable with distance `-1`: the
two query functions disagree although a path exists. -/
theorem claim_C1_counterexample :
    (metaFind storeC1.edge_meta 1).isSome = true ∧
    (metaFind storeC1.edge_meta 3).isSome = true ∧
    storeC1.query_classic 3 1 3 =
      some { distance := 6, path := [1, 2, 3], reachable := true } ∧
    storeC1.query_pruned 4 1 3 =
      some { distance := -1, path := [], reachable := false } := by
  refine ⟨by norm_num [storeC1, metaFind], by norm_num [storeC1, metaFind], ?_, ?_⟩
  · norm_num [storeC1, ShortcutGraph.query_classic, init_single, classic_loop,
      classic_fwd_step, classic_bwd_step, classic_fwd_relax, classic_bwd_relax,
      classic_term, finish_search, reconstruct_path, walk_fwd, walk_bwd,
      ShortcutGraph.get_edge_cost, metaFind, mupd, pqPush, dLtBest,
      forward_inside_ok, backward_inside_ok_classic]
  · norm_num [storeC1, ShortcutGraph.query_pruned, init_single, pruned_loop,
      pruned_fwd_step, pruned_bwd_step, pruned_term, meet_fwd, meet_bwd,
      relax_fwd, relax_bwd, finish_search, reconstruct_path, walk_fwd, walk_bwd,
      ShortcutGraph.get_edge_cost, ShortcutGraph.get_edge_cell,
      ShortcutGraph.compute_high_cell, metaFind, mupd, pqPush, dLtBest,
      forward_inside_ok, backward_allowed_pruned, parent_check, cell_to_parent,
      find_lca, find_lca_loop, get_resolution, h3GetResolution, h3CellToParent, logGo]

/-- Claim C8: in each of the three variants, when the search loop finishes
with no meeting recorded (`found = false`, which — since `best` can only be
set together with `found` — means the queues drained), the query returns
`{distance = -1, path = [], reachable = false}`. -/
theorem claim_C8 (g : ShortcutGraph) (fuel : Nat) (s t : Nat)
    (ses tes : List Nat) (sds tds : List ℚ) :
    (s ≠ t →
      (classic_loop g fuel (init_single g s t)).map SState.found = some false →
      g.query_classic fuel s t = some { distance := -1, path := [], reachable := false }) ∧
    (s ≠ t →
      (pruned_loop g (g.compute_high_cell s t) fuel (init_single g s t)).map SState.found
          = some false →
      g.query_pruned fuel s t = some { distance := -1, path := [], reachable := false }) ∧
    ((multi_loop g fuel (multi_init g ses sds tes tds)).map SState.found = some false →
      g.query_multi fuel ses sds tes tds
        = some { distance := -1, path := [], reachable := false }) := by
  refine ⟨?_, ?_, ?_⟩
  · intro hne hmap
    obtain ⟨st, hst, hfound⟩ := Option.map_eq_some'.mp hmap
    rw [ShortcutGraph.query_classic, if_neg hne, hst]
    simp [finish_search, hfound]
  · intro hne hmap
    obtain ⟨st, hst, hfound⟩ := Option.map_eq_some'.mp hmap
    rw [ShortcutGraph.query_pruned, if_neg hne, hst]
    simp [finish_search, hfound]
  · intro hmap
    obtain ⟨st, hst, hfound⟩ := Option.map_eq_some'.mp hmap
    rw [ShortcutGraph.query_multi, hst]
    simp [finish_search, hfound]

set_option maxHeartbeats 2000000 in
/-- Claim C8, witness: on the empty store the queues of all three variants
drain without a meeting, and each query returns `{-1, [], false}`. -/
theorem claim_C8_witness :
    emptyStore.query_classic 2 1 2 = some { distance := -1, path := [], reachable := false } ∧
    emptyStore.query_pruned 2 1 2 = some { distance := -1, path := [], reachable := false } ∧
    emptyStore.query_multi 2 [1] [0] [2] [0]
      = some { distance := -1, path := [], reachable := false } :=
  ⟨(claim_C8 emptyStore 2 1 2 [1] [2] [0] [0]).1 (by decide)
      (by norm_num [emptyStore, init_single, classic_loop, classic_fwd_step,
        classic_bwd_step, classic_term, ShortcutGraph.get_edge_cost, metaFind,
        mupd, dLtBest]),
   (claim_C8 emptyStore 2 1 2 [1] [2] [0] [0]).2.1 (by decide)
      (by norm_num [emptyStore, init_single, pruned_loop, pruned_fwd_step,
        pruned_bwd_step, pruned_term, meet_fwd, meet_bwd,
        ShortcutGraph.get_edge_cost, ShortcutGraph.get_edge_cell,
        ShortcutGraph.compute_high_cell, metaFind, mupd, dLtBest, parent_check]),
   (claim_C8 emptyStore 2 1 2 [1] [2] [0] [0]).2.2
      (by norm_num [emptyStore, multi_loop, multi_init, multi_init_sources,
        multi_init_targets, multi_fwd_step, multi_bwd_step, multi_drain,
        ShortcutGraph.get_edge_cost, metaFind, mupd, dLtBest])⟩

/-- Appending one shortcut extends the exact position filter by its index
(`from` side). -/
theorem range_filter_snoc_from (l : List Shortcut) (sc : Shortcut) (e : Nat) :
    (List.range (l ++ [sc]).length).filter
        (fun i => (l ++ [sc])[i]?.any (fun s => s.«from» == e)) =
      (List.range l.length).filter (fun i => l[i]?.any (fun s => s.«from» == e)) ++
        (if sc.«from» == e then [l.length] else []) := by
  have hlen : (l ++ [sc]).length = l.length + 1 := by simp
  rw [hlen, List.range_succ, List.filter_append]
  congr 1
  · apply List.filter_congr
    intro i hi
    rw [List.mem_range] at hi
    rw [List.getElem?_append, if_pos hi]
  · have hget : (l ++ [sc])[l.length]? = some sc := by
      rw [List.getElem?_append_right le_rfl]
      simp
    simp [List.filter_cons, hget]

/-- Appending one shortcut extends the exact position filter by its index
(`to` side). -/
theorem range_filter_snoc_to (l : List Shortcut) (sc : Shortcut) (e : Nat) :
    (List.range (l ++ [sc]).length).filter
        (fun i => (l ++ [sc])[i]?.any (fun s => s.«to» == e)) =
      (List.range l.length).filter (fun i => l[i]?.any (fun s => s.«to» == e)) ++
        (if sc.«to» == e then [l.length] else []) := by
  have hlen : (l ++ [sc]).length = l.length + 1 := by simp
  rw [hlen, List.range_succ, List.filter_append]
  congr 1
  · apply List.filter_congr
    intro i hi
    rw [List.mem_range] at hi
    rw [List.getElem?_append, if_pos hi]
  · have hget : (l ++ [sc])[l.length]? = some sc := by
      rw [List.getElem?_append_right le_rfl]
      simp
    simp [List.filter_cons, hget]

/-- Loading one row preserves adjacency exactness. -/
theorem load_row_exact (g : ShortcutGraph) (row : ShortcutRow)
    (h : adjacency_exact g) : adjacency_exact (load_row g row) := by
  intro e
  obtain ⟨hf, hb⟩ := h e
  constructor
  · simp only [load_row]
    rw [range_filter_snoc_from, ← hf]
    by_cases he : e = u32 row.incoming_edge
    · rw [if_pos he, if_pos (by simp [he])]
    · rw [if_neg he, if_neg (by simpa using Ne.symm he), List.append_nil]
  · simp only [load_row]
    rw [range_filter_snoc_to, ← hb]
    by_cases he : e = u32 row.outgoing_edge
    · rw [if_pos he, if_pos (by simp [he])]
    · rw [if_neg he, if_neg (by simpa using Ne.symm he), List.append_nil]

/-- Loading one file preserves adjacency exactness. -/
theorem load_parquet_file_exact : ∀ (rows : List ShortcutRow) (g : ShortcutGraph),
    adjacency_exact g → adjacency_exact (load_parquet_file g rows) := by
  intro rows
  induction rows with
  | nil => intro g h; exact h
  | cons r rs ih =>
    intro g h
    have := ih (load_row g r) (load_row_exact g r h)
    simpa [load_parquet_file] using this

/-- Loading any list of files preserves adjacency exactness. -/
theorem load_files_exact : ∀ (files : List (List ShortcutRow)) (g : ShortcutGraph),
    adjacency_exact g → adjacency_exact (files.foldl load_parquet_file g) := by
  intro files
  induction files with
  | nil => intro g h; exact h
  | cons f fs ih =>
    intro g h
    exact ih _ (load_parquet_file_exact f g h)

/-- Claim C9: after `load_shortcuts` (successful or not — the property is
unconditional), the forward index maps every edge `e` to exactly the
positions of the shortcuts with `from = e`, the backward index to exactly
those with `to = e`, every listed position is a valid index, and an edge
with no incident shortcuts maps to the empty list (the filter is empty). -/
theorem claim_C9 (g : ShortcutGraph) (files : List (List ShortcutRow)) :
    adjacency_exact (g.load_shortcuts files).2 ∧
    (∀ e : Nat, ∀ i ∈ (g.load_shortcuts files).2.fwd_adj e,
      i < (g.load_shortcuts files).2.shortcuts.length) ∧
    (∀ e : Nat, ∀ i ∈ (g.load_shortcuts files).2.bwd_adj e,
      i < (g.load_shortcuts files).2.shortcuts.length) := by
  have h0 : adjacency_exact
      { g with shortcuts := [], fwd_adj := fun _ => [], bwd_adj := fun _ => [] } := by
    intro e
    constructor <;> simp
  have hexact : adjacency_exact (g.load_shortcuts files).2 :=
    load_files_exact files _ h0
  refine ⟨hexact, ?_, ?_⟩
  · intro e i hi
    rw [(hexact e).1] at hi
    exact List.mem_range.mp (List.mem_filter.mp hi).1
  · intro e i hi
    rw [(hexact e).2] at hi
    exact List.mem_range.mp (List.mem_filter.mp hi).1

/-- Claim C9, witness: the validity part applied to a one-row store. -/
theorem claim_C9_witness :
    adjacency_exact ((emptyStore.load_shortcuts
      [[{ incoming_edge := 1, outgoing_edge := 2, cost := 7,
          via_edge := 0, cell := 5, inside := 1 }]]).2) ∧
    0 < ((emptyStore.load_shortcuts
      [[{ incoming_edge := 1, outgoing_edge := 2, cost := 7,
          via_edge := 0, cell := 5, inside := 1 }]]).2).shortcuts.length :=
  ⟨(claim_C9 emptyStore _).1,
   (claim_C9 emptyStore
      [[{ incoming_edge := 1, outgoing_edge := 2, cost := 7,
          via_edge := 0, cell := 5, inside := 1 }]]).2.1 1 0 (by decide)⟩

/-- Inserting into the metadata map never yields the empty map. -/
theorem metaInsert_ne_nil (m : List (Nat × EdgeMeta)) (k : Nat) (v : EdgeMeta) :
    metaInsert m k v ≠ [] := by
  cases m with
  | nil => simp [metaInsert]
  | cons a t =>
    simp only [metaInsert]
    split <;> simp

/-- The metadata fold is empty iff it started empty and no line parsed. -/
theorem fold_meta_nil_iff : ∀ (ls : List (List Char)) (m : List (Nat × EdgeMeta)),
    ls.foldl meta_line_step m = [] ↔ (m = [] ∧ ∀ l ∈ ls, parse_meta_row l = none) := by
  intro ls
  induction ls with
  | nil => intro m; simp
  | cons l ls ih =>
    intro m
    rw [List.foldl_cons, ih]
    cases hp : parse_meta_row l with
    | none => simp [meta_line_step, hp]
    | some r => simp [meta_line_step, hp, metaInsert_ne_nil]

/-- The metadata fold is the identity when no line parses. -/
theorem fold_meta_id : ∀ (ls : List (List Char)) (m : List (Nat × EdgeMeta)),
    (∀ l ∈ ls, parse_meta_row l = none) → ls.foldl meta_line_step m = m := by
  intro ls
  induction ls with
  | nil => intro m _; rfl
  | cons l ls ih =>
    intro m h
    rw [List.foldl_cons]
    rw [show meta_line_step m l = m by simp [meta_line_step, h l (by simp)]]
    exact ih m (fun x hx => h x (by simp [hx]))

/-- Claim C10: `load_edge_metadata` returns `true` iff at least one data
row parses; an unopenable file returns `false` with the store untouched;
once the file opens the previous metadata is cleared before parsing, so a
load with zero valid rows returns `false` leaving the metadata empty, and
the resulting metadata never depends on the prior store contents. -/
theorem claim_C10 (g : ShortcutGraph) (lines : List (List Char)) :
    g.load_edge_metadata none = (false, g) ∧
    ((g.load_edge_metadata (some lines)).1 = true ↔
      ∃ l ∈ lines.drop 1, (parse_meta_row l).isSome = true) ∧
    ((∀ l ∈ lines.drop 1, parse_meta_row l = none) →
      g.load_edge_metadata (some lines) = (false, { g with edge_meta := [] })) ∧
    (∀ g2 : ShortcutGraph,
      (g.load_edge_metadata (some lines)).2.edge_meta =
        (g2.load_edge_metadata (some lines)).2.edge_meta) := by
  have hiff := fold_meta_nil_iff (lines.drop 1) []
  refine ⟨rfl, ?_, ?_, ?_⟩
  · simp only [ShortcutGraph.load_edge_metadata]
    rw [Bool.not_eq_true', List.isEmpty_eq_false]
    constructor
    · intro hb
      by_contra hno
      push_neg at hno
      have hall : ∀ l ∈ lines.drop 1, parse_meta_row l = none := by
        intro l hl
        have hx := hno l hl
        cases hpl : parse_meta_row l with
        | none => rfl
        | some r => rw [hpl] at hx; simp at hx
      exact hb (hiff.mpr ⟨rfl, hall⟩)
    · rintro ⟨l, hl, hsome⟩ hE
      obtain ⟨-, hall⟩ := hiff.mp hE
      rw [hall l hl] at hsome
      simp at hsome
  · intro hall
    have hid : (lines.drop 1).foldl meta_line_step [] = [] := fold_meta_id _ _ hall
    simp only [ShortcutGraph.load_edge_metadata, hid]
    rfl
  · intro g2
    rfl

/-- Claim C10, witness: the theorem applied to an unopenable file and to a
two-line file whose only data row is malformed. -/
theorem claim_C10_witness :
    emptyStore.load_edge_metadata none = (false, emptyStore) ∧
    emptyStore.load_edge_metadata (some ["h".toList, "x".toList]) =
      (false, { emptyStore with edge_meta := [] }) :=
  ⟨(claim_C10 emptyStore []).1,
   (claim_C10 emptyStore ["h".toList, "x".toList]).2.2.1 (by decide)⟩


/-! ### Claim C3: basic facts about queues, tables and reachability -/

/-- Membership in a pushed queue. -/
theorem pqPush_mem (q : List (ℚ × Nat)) (d : ℚ) (u : Nat) (p : ℚ × Nat) :
    p ∈ pqPush q d u ↔ p ∈ q ∨ p = (d, u) := by
  induction q with
  | nil => simp [pqPush]
  | cons a rest ih =>
    obtain ⟨d0, u0⟩ := a
    by_cases h : d < d0
    · rw [pqPush, if_pos h]
      simp only [List.mem_cons]
      tauto
    · rw [pqPush, if_neg h]
      simp only [List.mem_cons, ih]
      tauto

/-- Pushing preserves sortedness. -/
theorem pqPush_sorted (q : List (ℚ × Nat)) (d : ℚ) (u : Nat)
    (h : sortedQ q) : sortedQ (pqPush q d u) := by
  induction q with
  | nil => simp [pqPush, sortedQ]
  | cons a rest ih =>
    obtain ⟨d0, u0⟩ := a
    rw [sortedQ, List.pairwise_cons] at h
    obtain ⟨hall, hrest⟩ := h
    by_cases hlt : d < d0
    · rw [pqPush, if_pos hlt, sortedQ, List.pairwise_cons]
      constructor
      · intro p hp
        rcases List.mem_cons.mp hp with h1 | h1
        · subst h1; exact le_of_lt hlt
        · exact le_trans (le_of_lt hlt) (hall p h1)
      · rw [sortedQ] at *
        exact List.pairwise_cons.mpr ⟨hall, hrest⟩
    · rw [pqPush, if_neg hlt, sortedQ, List.pairwise_cons]
      constructor
      · intro p hp
        rcases (pqPush_mem rest d u p).mp hp with h1 | h1
        · exact hall p h1
        · subst h1; exact le_of_not_lt hlt
      · exact ih hrest

/-- In a sorted queue, the head bounds every entry. -/
theorem sortedQ_head_le (d : ℚ) (u : Nat) (rest : List (ℚ × Nat))
    (h : sortedQ ((d, u) :: rest)) : ∀ p ∈ rest, d ≤ p.1 := by
  rw [sortedQ, List.pairwise_cons] at h
  exact fun p hp => h.1 p hp

/-- Table lookup after a point update, same key. -/
theorem mupd_self {α : Type} (m : Nat → Option α) (k : Nat) (v : α) :
    mupd m k v k = some v := by simp [mupd]

/-- Table lookup after a point update, different key. -/
theorem mupd_ne {α : Type} (m : Nat → Option α) (k : Nat) (v : α) (x : Nat)
    (h : x ≠ k) : mupd m k v x = m x := by simp [mupd, h]

/-- `edge_cost` is nonnegative under the data-model invariant. -/
theorem get_edge_cost_nonneg (g : ShortcutGraph) (h : nonneg_costs g) (e : Nat) :
    0 ≤ g.get_edge_cost e := by
  rw [ShortcutGraph.get_edge_cost]
  cases hm : metaFind g.edge_meta e with
  | none => simp
  | some m => simpa using h.2 e m hm

/-- Forward-reachable costs are nonnegative. -/
theorem FwdReach_nonneg (g : ShortcutGraph) (s : Nat) (h : nonneg_costs g) :
    ∀ x v, FwdReach g s x v → 0 ≤ v := by
  intro x v hr
  induction hr with
  | base => exact le_refl 0
  | step hprev hidx hsc hins ih =>
    have hmem := List.getElem?_mem hsc
    have := h.1 _ hmem
    linarith

/-- Backward-reachable costs dominate the target seed cost. -/
theorem BwdReach_ge (g : ShortcutGraph) (t : Nat) (h : nonneg_costs g) :
    ∀ x v, BwdReach g t x v → g.get_edge_cost t ≤ v := by
  intro x v hr
  induction hr with
  | base => exact le_refl _
  | step hprev hidx hsc hins ih =>
    have hmem := List.getElem?_mem hsc
    have := h.1 _ hmem
    linarith

/-- Backward-reachable costs are nonnegative. -/
theorem BwdReach_nonneg (g : ShortcutGraph) (t : Nat) (h : nonneg_costs g) :
    ∀ x v, BwdReach g t x v → 0 ≤ v := by
  intro x v hr
  exact le_trans (get_edge_cost_nonneg g h t) (BwdReach_ge g t h x v hr)


/-- `bestLE` is stable under any update that only lowers a set `best`
(or leaves `+∞` alone); `meet_fwd` and `meet_bwd` are such updates. -/
theorem bestLE_meet_fwd (st : SState) (d : ℚ) (u : Nat) (v : ℚ)
    (h : bestLE st.best v) : bestLE (meet_fwd st d u).best v := by
  obtain ⟨b, hb, hle⟩ := h
  rw [meet_fwd]
  cases hdb : st.dist_bwd u with
  | none => exact ⟨b, hb, hle⟩
  | some db =>
    dsimp only
    by_cases hlt : dLtBest (d + db) st.best = true
    · rw [if_pos hlt]
      refine ⟨d + db, rfl, ?_⟩
      rw [hb] at hlt
      simp [dLtBest] at hlt
      linarith
    · rw [if_neg hlt]; exact ⟨b, hb, hle⟩

theorem bestLE_meet_bwd (st : SState) (d : ℚ) (u : Nat) (v : ℚ)
    (h : bestLE st.best v) : bestLE (meet_bwd st d u).best v := by
  obtain ⟨b, hb, hle⟩ := h
  rw [meet_bwd]
  cases hdf : st.dist_fwd u with
  | none => exact ⟨b, hb, hle⟩
  | some df =>
    dsimp only
    by_cases hlt : dLtBest (df + d) st.best = true
    · rw [if_pos hlt]
      refine ⟨df + d, rfl, ?_⟩
      rw [hb] at hlt
      simp [dLtBest] at hlt
      linarith
    · rw [if_neg hlt]; exact ⟨b, hb, hle⟩

/-- The improving forward relaxation update preserves the search invariant:
set `dist_fwd y = nd`, any parent table, push `(nd, y)`. -/
theorem improve_fwd_inv (g : ShortcutGraph) (s t : Nat) (st : SState)
    (y : Nat) (nd : ℚ) (pf : Nat → Option Nat)
    (hinv : SearchInv g s t st)
    (hreach : FwdReach g s y nd)
    (hnn0 : 0 ≤ nd)
    (himp : ∀ w, st.dist_fwd y = some w → nd ≤ w) :
    SearchInv g s t { st with dist_fwd := mupd st.dist_fwd y nd,
                              parent_fwd := pf,
                              pq_fwd := pqPush st.pq_fwd nd y } := by
  obtain ⟨s_f, s_b, n_f, n_b, so_f, so_b, el_f, el_b, er_f, er_b, bs, fi, se_f, se_b⟩ := hinv
  refine ⟨pqPush_sorted _ _ _ s_f, s_b, ?_, n_b, ?_, so_b, ?_, el_b, ?_, er_b, bs, fi, ?_, se_b⟩
  · -- nonneg_f
    intro x v hx
    dsimp only at hx
    by_cases hxy : x = y
    · subst hxy; rw [mupd_self] at hx; cases hx; exact hnn0
    · rw [mupd_ne _ _ _ _ hxy] at hx; exact n_f x v hx
  · -- sound_f
    intro x v hx
    dsimp only at hx
    by_cases hxy : x = y
    · subst hxy; rw [mupd_self] at hx; cases hx; exact hreach
    · rw [mupd_ne _ _ _ _ hxy] at hx; exact so_f x v hx
  · -- entry_le_f
    intro p hp
    dsimp only at hp ⊢
    rcases (pqPush_mem _ _ _ _).mp hp with hp | hp
    · obtain ⟨v, hv, hle⟩ := el_f p hp
      by_cases hxy : p.2 = y
      · rw [hxy] at hv ⊢
        rw [mupd_self]
        exact ⟨nd, rfl, le_trans (himp v hv) hle⟩
      · rw [mupd_ne _ _ _ _ hxy]
        exact ⟨v, hv, hle⟩
    · subst hp
      dsimp only
      rw [mupd_self]
      exact ⟨nd, rfl, le_refl nd⟩
  · -- entry_reach_f
    intro p hp
    dsimp only at hp
    rcases (pqPush_mem _ _ _ _).mp hp with hp | hp
    · exact er_f p hp
    · subst hp; exact hreach
  · -- seed_f
    dsimp only
    obtain ⟨w, hw, hwle⟩ := se_f
    by_cases hxy : s = y
    · subst hxy
      rw [mupd_self]
      exact ⟨nd, rfl, le_trans (himp w hw) hwle⟩
    · rw [mupd_ne _ _ _ _ hxy]
      exact ⟨w, hw, hwle⟩

/-- The improving backward relaxation update preserves the search invariant. -/
theorem improve_bwd_inv (g : ShortcutGraph) (s t : Nat) (st : SState)
    (y : Nat) (nd : ℚ) (pb : Nat → Option Nat)
    (hinv : SearchInv g s t st)
    (hreach : BwdReach g t y nd)
    (hnn0 : 0 ≤ nd)
    (himp : ∀ w, st.dist_bwd y = some w → nd ≤ w) :
    SearchInv g s t { st with dist_bwd := mupd st.dist_bwd y nd,
                              parent_bwd := pb,
                              pq_bwd := pqPush st.pq_bwd nd y } := by
  obtain ⟨s_f, s_b, n_f, n_b, so_f, so_b, el_f, el_b, er_f, er_b, bs, fi, se_f, se_b⟩ := hinv
  refine ⟨s_f, pqPush_sorted _ _ _ s_b, n_f, ?_, so_f, ?_, el_f, ?_, er_f, ?_, bs, fi, se_f, ?_⟩
  · intro x v hx
    dsimp only at hx
    by_cases hxy : x = y
    · subst hxy; rw [mupd_self] at hx; cases hx; exact hnn0
    · rw [mupd_ne _ _ _ _ hxy] at hx; exact n_b x v hx
  · intro x v hx
    dsimp only at hx
    by_cases hxy : x = y
    · subst hxy; rw [mupd_self] at hx; cases hx; exact hreach
    · rw [mupd_ne _ _ _ _ hxy] at hx; exact so_b x v hx
  · intro p hp
    dsimp only at hp ⊢
    rcases (pqPush_mem _ _ _ _).mp hp with hp | hp
    · obtain ⟨v, hv, hle⟩ := el_b p hp
      by_cases hxy : p.2 = y
      · rw [hxy] at hv ⊢
        rw [mupd_self]
        exact ⟨nd, rfl, le_trans (himp v hv) hle⟩
      · rw [mupd_ne _ _ _ _ hxy]
        exact ⟨v, hv, hle⟩
    · subst hp
      dsimp only
      rw [mupd_self]
      exact ⟨nd, rfl, le_refl nd⟩
  · intro p hp
    dsimp only at hp
    rcases (pqPush_mem _ _ _ _).mp hp with hp | hp
    · exact er_b p hp
    · subst hp; exact hreach
  · dsimp only
    obtain ⟨w, hw, hwle⟩ := se_b
    by_cases hxy : t = y
    · subst hxy
      rw [mupd_self]
      exact ⟨nd, rfl, le_trans (himp w hw) hwle⟩
    · rw [mupd_ne _ _ _ _ hxy]
      exact ⟨w, hw, hwle⟩


/-- Processing one forward adjacency position in `relax_fwd` (multi variant)
preserves the invariant and the multi meeting invariant, satisfies the
structural postcondition, and delivers the relaxation bound. -/
theorem relax_fwd_lemma (g : ShortcutGraph) (s t : Nat) (d : ℚ) (u idx : Nat)
    (st : SState) (hnn : nonneg_costs g)
    (hinv : SearchInv g s t st) (hM : meetM st)
    (hreach : FwdReach g s u d) (hidx : idx ∈ g.fwd_adj u) (hd0 : 0 ≤ d) :
    SearchInv g s t (relax_fwd g forward_inside_ok d u st idx) ∧
    meetM (relax_fwd g forward_inside_ok d u st idx) ∧
    StepPostF st (relax_fwd g forward_inside_ok d u st idx) ∧
    BoundF g d idx (relax_fwd g forward_inside_ok d u st idx) := by
  have hpostrfl : StepPostF st st :=
    ⟨rfl, rfl, fun p hp => hp, fun x w hw => ⟨w, hw, le_refl w⟩, fun v hv => hv⟩
  cases hsc : g.shortcuts[idx]? with
  | none =>
    simp only [relax_fwd, hsc]
    exact ⟨hinv, hM, hpostrfl, fun sc h => by rw [hsc] at h; cases h⟩
  | some sc =>
    simp only [relax_fwd, hsc]
    by_cases hin : forward_inside_ok sc = true
    · rw [if_pos hin]
      have hins : sc.inside = 1 := by
        rw [forward_inside_ok] at hin; simpa using hin
      have hcost : 0 ≤ sc.cost := hnn.1 sc (List.getElem?_mem hsc)
      have hreach2 : FwdReach g s sc.«to» (d + sc.cost) :=
        FwdReach.step hreach hidx hsc hins
      have hnd0 : 0 ≤ d + sc.cost := by linarith
      cases hdist : st.dist_fwd sc.«to» with
      | none =>
        simp only [hdist]
        rw [if_pos trivial]
        have himp : ∀ w, st.dist_fwd sc.«to» = some w → d + sc.cost ≤ w := by
          intro w hw; rw [hdist] at hw; cases hw
        refine ⟨improve_fwd_inv g s t st _ _ _ hinv hreach2 hnd0 himp, ?_, ?_, ?_⟩
        · -- meetM
          intro x v1 v2 h1 h2
          dsimp only at h1 h2 ⊢
          by_cases hxy : x = sc.«to»
          · subst hxy
            rw [mupd_self] at h1
            cases h1
            exact Or.inr (Or.inl ((pqPush_mem _ _ _ _).mpr (Or.inr rfl)))
          · rw [mupd_ne _ _ _ _ hxy] at h1
            rcases hM x v1 v2 h1 h2 with h | h | h
            · exact Or.inl h
            · exact Or.inr (Or.inl ((pqPush_mem _ _ _ _).mpr (Or.inl h)))
            · exact Or.inr (Or.inr h)
        · -- StepPostF
          refine ⟨rfl, rfl, ?_, ?_, fun v hv => hv⟩
          · intro p hp
            exact (pqPush_mem _ _ _ _).mpr (Or.inl hp)
          · intro x w hw
            dsimp only
            by_cases hxy : x = sc.«to»
            · subst hxy; rw [hdist] at hw; cases hw
            · rw [mupd_ne _ _ _ _ hxy]; exact ⟨w, hw, le_refl w⟩
        · -- BoundF
          intro sc2 h2 hins2
          rw [hsc] at h2
          cases h2
          dsimp only
          rw [mupd_self]
          exact ⟨d + sc.cost, rfl, le_refl _⟩
      | some dv =>
        simp only [hdist]
        by_cases hlt : d + sc.cost < dv
        · rw [if_pos (by simpa using hlt)]
          have himp : ∀ w, st.dist_fwd sc.«to» = some w → d + sc.cost ≤ w := by
            intro w hw; rw [hdist] at hw; cases hw; exact le_of_lt hlt
          refine ⟨improve_fwd_inv g s t st _ _ _ hinv hreach2 hnd0 himp, ?_, ?_, ?_⟩
          · intro x v1 v2 h1 h2
            dsimp only at h1 h2 ⊢
            by_cases hxy : x = sc.«to»
            · subst hxy
              rw [mupd_self] at h1
              cases h1
              exact Or.inr (Or.inl ((pqPush_mem _ _ _ _).mpr (Or.inr rfl)))
            · rw [mupd_ne _ _ _ _ hxy] at h1
              rcases hM x v1 v2 h1 h2 with h | h | h
              · exact Or.inl h
              · exact Or.inr (Or.inl ((pqPush_mem _ _ _ _).mpr (Or.inl h)))
              · exact Or.inr (Or.inr h)
          · refine ⟨rfl, rfl, ?_, ?_, fun v hv => hv⟩
            · intro p hp
              exact (pqPush_mem _ _ _ _).mpr (Or.inl hp)
            · intro x w hw
              dsimp only
              by_cases hxy : x = sc.«to»
              · subst hxy
                rw [hdist] at hw
                cases hw
                rw [mupd_self]
                exact ⟨d + sc.cost, rfl, le_of_lt hlt⟩
              · rw [mupd_ne _ _ _ _ hxy]; exact ⟨w, hw, le_refl w⟩
          · intro sc2 h2 hins2
            rw [hsc] at h2
            cases h2
            dsimp only
            rw [mupd_self]
            exact ⟨d + sc.cost, rfl, le_refl _⟩
        · rw [if_neg (by simpa using hlt)]
          refine ⟨hinv, hM, hpostrfl, ?_⟩
          intro sc2 h2 hins2
          rw [hsc] at h2
          cases h2
          exact ⟨dv, hdist, le_of_not_lt hlt⟩
    · rw [if_neg hin]
      refine ⟨hinv, hM, hpostrfl, ?_⟩
      intro sc2 h2 hins2
      rw [hsc] at h2
      cases h2
      rw [forward_inside_ok] at hin
      simp [hins2] at hin


/-- A failed `x < best` test pins `best` to a finite value at most `x`. -/
theorem dLtBest_false (x : ℚ) (o : Option ℚ) (h : dLtBest x o = false) :
    ∃ b, o = some b ∧ b ≤ x := by
  cases o with
  | none => simp [dLtBest] at h
  | some b =>
    refine ⟨b, rfl, ?_⟩
    simp [dLtBest] at h
    exact h

/-- A passed `x < best` test on a finite `best`. -/
theorem dLtBest_true_some (x b : ℚ) (h : dLtBest x (some b) = true) : x < b := by
  simpa [dLtBest] using h

/-- The pop-time forward meeting test preserves the search invariant. -/
theorem meet_fwd_inv (g : ShortcutGraph) (s t : Nat) (st : SState) (d : ℚ) (u : Nat)
    (hinv : SearchInv g s t st) (hreach : FwdReach g s u d) :
    SearchInv g s t (meet_fwd st d u) := by
  obtain ⟨s_f, s_b, n_f, n_b, so_f, so_b, el_f, el_b, er_f, er_b, bs, fi, se_f, se_b⟩ := hinv
  rw [meet_fwd]
  cases hdb : st.dist_bwd u with
  | none => exact ⟨s_f, s_b, n_f, n_b, so_f, so_b, el_f, el_b, er_f, er_b, bs, fi, se_f, se_b⟩
  | some db =>
    dsimp only
    by_cases hlt : dLtBest (d + db) st.best = true
    · rw [if_pos hlt]
      have hC : ∀ v, bestLE st.best v → bestLE (some (d + db)) v := by
        intro v hv
        obtain ⟨b, hb, hble⟩ := hv
        rw [hb] at hlt
        exact ⟨d + db, rfl, le_trans (le_of_lt (dLtBest_true_some _ _ hlt)) hble⟩
      refine ⟨s_f, s_b, n_f, n_b, so_f, so_b, el_f, el_b, er_f, er_b, ?_, rfl, se_f, se_b⟩
      intro b hb
      cases hb
      exact ⟨u, d, db, hreach, so_b u db hdb, rfl⟩
    · rw [if_neg hlt]
      exact ⟨s_f, s_b, n_f, n_b, so_f, so_b, el_f, el_b, er_f, er_b, bs, fi, se_f, se_b⟩

/-- The pop-time backward meeting test preserves the search invariant. -/
theorem meet_bwd_inv (g : ShortcutGraph) (s t : Nat) (st : SState) (d : ℚ) (u : Nat)
    (hinv : SearchInv g s t st) (hreach : BwdReach g t u d) :
    SearchInv g s t (meet_bwd st d u) := by
  obtain ⟨s_f, s_b, n_f, n_b, so_f, so_b, el_f, el_b, er_f, er_b, bs, fi, se_f, se_b⟩ := hinv
  rw [meet_bwd]
  cases hdf : st.dist_fwd u with
  | none => exact ⟨s_f, s_b, n_f, n_b, so_f, so_b, el_f, el_b, er_f, er_b, bs, fi, se_f, se_b⟩
  | some df =>
    dsimp only
    by_cases hlt : dLtBest (df + d) st.best = true
    · rw [if_pos hlt]
      have hC : ∀ v, bestLE st.best v → bestLE (some (df + d)) v := by
        intro v hv
        obtain ⟨b, hb, hble⟩ := hv
        rw [hb] at hlt
        exact ⟨df + d, rfl, le_trans (le_of_lt (dLtBest_true_some _ _ hlt)) hble⟩
      refine ⟨s_f, s_b, n_f, n_b, so_f, so_b, el_f, el_b, er_f, er_b, ?_, rfl, se_f, se_b⟩
      intro b hb
      cases hb
      exact ⟨u, df, d, so_f u df hdf, hreach, rfl⟩
    · rw [if_neg hlt]
      exact ⟨s_f, s_b, n_f, n_b, so_f, so_b, el_f, el_b, er_f, er_b, bs, fi, se_f, se_b⟩

/-- The forward meeting test leaves tables and queues unchanged. -/
theorem meet_fwd_shape (st : SState) (d : ℚ) (u : Nat) :
    (meet_fwd st d u).dist_fwd = st.dist_fwd ∧
    (meet_fwd st d u).dist_bwd = st.dist_bwd ∧
    (meet_fwd st d u).pq_fwd = st.pq_fwd ∧
    (meet_fwd st d u).pq_bwd = st.pq_bwd := by
  rw [meet_fwd]
  cases st.dist_bwd u with
  | none => exact ⟨rfl, rfl, rfl, rfl⟩
  | some db =>
    dsimp only
    split
    · exact ⟨rfl, rfl, rfl, rfl⟩
    · exact ⟨rfl, rfl, rfl, rfl⟩

/-- The backward meeting test leaves tables and queues unchanged. -/
theorem meet_bwd_shape (st : SState) (d : ℚ) (u : Nat) :
    (meet_bwd st d u).dist_fwd = st.dist_fwd ∧
    (meet_bwd st d u).dist_bwd = st.dist_bwd ∧
    (meet_bwd st d u).pq_fwd = st.pq_fwd ∧
    (meet_bwd st d u).pq_bwd = st.pq_bwd := by
  rw [meet_bwd]
  cases st.dist_fwd u with
  | none => exact ⟨rfl, rfl, rfl, rfl⟩
  | some df =>
    dsimp only
    split
    · exact ⟨rfl, rfl, rfl, rfl⟩
    · exact ⟨rfl, rfl, rfl, rfl⟩

/-- After the forward meeting test at a node present in the backward table,
`best` is pinned below the pair sum. -/
theorem meet_fwd_pair (st : SState) (d : ℚ) (u : Nat) (v2 : ℚ)
    (h2 : st.dist_bwd u = some v2) : bestLE (meet_fwd st d u).best (d + v2) := by
  rw [meet_fwd, h2]
  dsimp only
  by_cases hlt : dLtBest (d + v2) st.best = true
  · rw [if_pos hlt]
    exact ⟨d + v2, rfl, le_refl _⟩
  · rw [if_neg hlt]
    exact dLtBest_false _ _ (by simpa using hlt)

/-- After the backward meeting test at a node present in the forward table,
`best` is pinned below the pair sum. -/
theorem meet_bwd_pair (st : SState) (d : ℚ) (u : Nat) (v1 : ℚ)
    (h1 : st.dist_fwd u = some v1) : bestLE (meet_bwd st d u).best (v1 + d) := by
  rw [meet_bwd, h1]
  dsimp only
  by_cases hlt : dLtBest (v1 + d) st.best = true
  · rw [if_pos hlt]
    exact ⟨v1 + d, rfl, le_refl _⟩
  · rw [if_neg hlt]
    exact dLtBest_false _ _ (by simpa using hlt)


/-- Processing one backward adjacency position in `relax_bwd` (multi variant)
preserves the invariant and the multi meeting invariant, satisfies the
structural postcondition, and delivers the relaxation bound. -/
theorem relax_bwd_lemma (g : ShortcutGraph) (s t : Nat) (d : ℚ) (u idx : Nat)
    (st : SState) (hnn : nonneg_costs g)
    (hinv : SearchInv g s t st) (hM : meetM st)
    (hreach : BwdReach g t u d) (hidx : idx ∈ g.bwd_adj u) (hd0 : 0 ≤ d) :
    SearchInv g s t (relax_bwd g backward_inside_ok_classic d u st idx) ∧
    meetM (relax_bwd g backward_inside_ok_classic d u st idx) ∧
    StepPostB st (relax_bwd g backward_inside_ok_classic d u st idx) ∧
    BoundB g d idx (relax_bwd g backward_inside_ok_classic d u st idx) := by
  have hpostrfl : StepPostB st st :=
    ⟨rfl, rfl, fun p hp => hp, fun x w hw => ⟨w, hw, le_refl w⟩, fun v hv => hv⟩
  cases hsc : g.shortcuts[idx]? with
  | none =>
    simp only [relax_bwd, hsc]
    exact ⟨hinv, hM, hpostrfl, fun sc h => by rw [hsc] at h; cases h⟩
  | some sc =>
    simp only [relax_bwd, hsc]
    by_cases hin : backward_inside_ok_classic sc = true
    · rw [if_pos hin]
      have hins : sc.inside = -1 ∨ sc.inside = 0 := by
        rw [backward_inside_ok_classic] at hin
        simpa using hin
      have hcost : 0 ≤ sc.cost := hnn.1 sc (List.getElem?_mem hsc)
      have hreach2 : BwdReach g t sc.«from» (d + sc.cost) :=
        BwdReach.step hreach hidx hsc hins
      have hnd0 : 0 ≤ d + sc.cost := by linarith
      cases hdist : st.dist_bwd sc.«from» with
      | none =>
        simp only [hdist]
        rw [if_pos trivial]
        have himp : ∀ w, st.dist_bwd sc.«from» = some w → d + sc.cost ≤ w := by
          intro w hw; rw [hdist] at hw; cases hw
        refine ⟨improve_bwd_inv g s t st _ _ _ hinv hreach2 hnd0 himp, ?_, ?_, ?_⟩
        · intro x v1 v2 h1 h2
          dsimp only at h1 h2 ⊢
          by_cases hxy : x = sc.«from»
          · subst hxy
            rw [mupd_self] at h2
            cases h2
            exact Or.inr (Or.inr ((pqPush_mem _ _ _ _).mpr (Or.inr rfl)))
          · rw [mupd_ne _ _ _ _ hxy] at h2
            rcases hM x v1 v2 h1 h2 with h | h | h
            · exact Or.inl h
            · exact Or.inr (Or.inl h)
            · exact Or.inr (Or.inr ((pqPush_mem _ _ _ _).mpr (Or.inl h)))
        · refine ⟨rfl, rfl, ?_, ?_, fun v hv => hv⟩
          · intro p hp
            exact (pqPush_mem _ _ _ _).mpr (Or.inl hp)
          · intro x w hw
            dsimp only
            by_cases hxy : x = sc.«from»
            · subst hxy; rw [hdist] at hw; cases hw
            · rw [mupd_ne _ _ _ _ hxy]; exact ⟨w, hw, le_refl w⟩
        · intro sc2 h2 hins2
          rw [hsc] at h2
          cases h2
          dsimp only
          rw [mupd_self]
          exact ⟨d + sc.cost, rfl, le_refl _⟩
      | some dv =>
        simp only [hdist]
        by_cases hlt : d + sc.cost < dv
        · rw [if_pos (by simpa using hlt)]
          have himp : ∀ w, st.dist_bwd sc.«from» = some w → d + sc.cost ≤ w := by
            intro w hw; rw [hdist] at hw; cases hw; exact le_of_lt hlt
          refine ⟨improve_bwd_inv g s t st _ _ _ hinv hreach2 hnd0 himp, ?_, ?_, ?_⟩
          · intro x v1 v2 h1 h2
            dsimp only at h1 h2 ⊢
            by_cases hxy : x = sc.«from»
            · subst hxy
              rw [mupd_self] at h2
              cases h2
              exact Or.inr (Or.inr ((pqPush_mem _ _ _ _).mpr (Or.inr rfl)))
            · rw [mupd_ne _ _ _ _ hxy] at h2
              rcases hM x v1 v2 h1 h2 with h | h | h
              · exact Or.inl h
              · exact Or.inr (Or.inl h)
              · exact Or.inr (Or.inr ((pqPush_mem _ _ _ _).mpr (Or.inl h)))
          · refine ⟨rfl, rfl, ?_, ?_, fun v hv => hv⟩
            · intro p hp
              exact (pqPush_mem _ _ _ _).mpr (Or.inl hp)
            · intro x w hw
              dsimp only
              by_cases hxy : x = sc.«from»
              · subst hxy
                rw [hdist] at hw
                cases hw
                rw [mupd_self]
                exact ⟨d + sc.cost, rfl, le_of_lt hlt⟩
              · rw [mupd_ne _ _ _ _ hxy]; exact ⟨w, hw, le_refl w⟩
          · intro sc2 h2 hins2
            rw [hsc] at h2
            cases h2
            dsimp only
            rw [mupd_self]
            exact ⟨d + sc.cost, rfl, le_refl _⟩
        · rw [if_neg (by simpa using hlt)]
          refine ⟨hinv, hM, hpostrfl, ?_⟩
          intro sc2 h2 hins2
          rw [hsc] at h2
          cases h2
          exact ⟨dv, hdist, le_of_not_lt hlt⟩
    · rw [if_neg hin]
      refine ⟨hinv, hM, hpostrfl, ?_⟩
      intro sc2 h2 hins2
      rw [hsc] at h2
      cases h2
      rw [backward_inside_ok_classic] at hin
      rcases hins2 with h | h <;> simp [h] at hin


/-- The improve-and-test composite of the classic forward relaxation:
invariant, classic meeting invariant, structural postcondition, and the new
table value. -/
theorem classic_fwd_improve_pack (g : ShortcutGraph) (s t : Nat) (st : SState)
    (u y : Nat) (nd : ℚ)
    (hinv : SearchInv g s t st) (hC : meetC st)
    (hreach2 : FwdReach g s y nd) (hnd0 : 0 ≤ nd)
    (himp : ∀ w, st.dist_fwd y = some w → nd ≤ w) :
    SearchInv g s t (meet_fwd { st with
        dist_fwd := mupd st.dist_fwd y nd,
        parent_fwd := mupd st.parent_fwd y u,
        pq_fwd := pqPush st.pq_fwd nd y } nd y) ∧
    meetC (meet_fwd { st with
        dist_fwd := mupd st.dist_fwd y nd,
        parent_fwd := mupd st.parent_fwd y u,
        pq_fwd := pqPush st.pq_fwd nd y } nd y) ∧
    StepPostF st (meet_fwd { st with
        dist_fwd := mupd st.dist_fwd y nd,
        parent_fwd := mupd st.parent_fwd y u,
        pq_fwd := pqPush st.pq_fwd nd y } nd y) ∧
    ∃ w, (meet_fwd { st with
        dist_fwd := mupd st.dist_fwd y nd,
        parent_fwd := mupd st.parent_fwd y u,
        pq_fwd := pqPush st.pq_fwd nd y } nd y).dist_fwd y = some w ∧ w ≤ nd := by
  obtain ⟨e1, e2, e3, e4⟩ :=
    meet_fwd_shape { st with
        dist_fwd := mupd st.dist_fwd y nd,
        parent_fwd := mupd st.parent_fwd y u,
        pq_fwd := pqPush st.pq_fwd nd y } nd y
  have hinv1 := improve_fwd_inv g s t st y nd (mupd st.parent_fwd y u) hinv hreach2 hnd0 himp
  refine ⟨meet_fwd_inv g s t _ nd y hinv1 hreach2, ?_, ?_, ?_⟩
  · -- meetC
    intro x v1 v2 h1 h2
    rw [e1] at h1
    rw [e2] at h2
    dsimp only at h1 h2
    by_cases hxy : x = y
    · subst hxy
      rw [mupd_self] at h1
      cases h1
      exact meet_fwd_pair _ nd x v2 h2
    · rw [mupd_ne _ _ _ _ hxy] at h1
      exact bestLE_meet_fwd _ nd y _ (hC x v1 v2 h1 h2)
  · -- StepPostF
    refine ⟨by rw [e2], by rw [e4], ?_, ?_, ?_⟩
    · intro p hp
      rw [e3]
      exact (pqPush_mem _ _ _ _).mpr (Or.inl hp)
    · intro x w hw
      rw [e1]
      dsimp only
      by_cases hxy : x = y
      · subst hxy
        rw [mupd_self]
        exact ⟨nd, rfl, himp w hw⟩
      · rw [mupd_ne _ _ _ _ hxy]
        exact ⟨w, hw, le_refl w⟩
    · intro v hv
      exact bestLE_meet_fwd _ nd y v hv
  · rw [e1]
    dsimp only
    rw [mupd_self]
    exact ⟨nd, rfl, le_refl nd⟩

/-- The improve-and-test composite of the classic backward relaxation. -/
theorem classic_bwd_improve_pack (g : ShortcutGraph) (s t : Nat) (st : SState)
    (u y : Nat) (nd : ℚ)
    (hinv : SearchInv g s t st) (hC : meetC st)
    (hreach2 : BwdReach g t y nd) (hnd0 : 0 ≤ nd)
    (himp : ∀ w, st.dist_bwd y = some w → nd ≤ w) :
    SearchInv g s t (meet_bwd { st with
        dist_bwd := mupd st.dist_bwd y nd,
        parent_bwd := mupd st.parent_bwd y u,
        pq_bwd := pqPush st.pq_bwd nd y } nd y) ∧
    meetC (meet_bwd { st with
        dist_bwd := mupd st.dist_bwd y nd,
        parent_bwd := mupd st.parent_bwd y u,
        pq_bwd := pqPush st.pq_bwd nd y } nd y) ∧
    StepPostB st (meet_bwd { st with
        dist_bwd := mupd st.dist_bwd y nd,
        parent_bwd := mupd st.parent_bwd y u,
        pq_bwd := pqPush st.pq_bwd nd y } nd y) ∧
    ∃ w, (meet_bwd { st with
        dist_bwd := mupd st.dist_bwd y nd,
        parent_bwd := mupd st.parent_bwd y u,
        pq_bwd := pqPush st.pq_bwd nd y } nd y).dist_bwd y = some w ∧ w ≤ nd := by
  obtain ⟨e1, e2, e3, e4⟩ :=
    meet_bwd_shape { st with
        dist_bwd := mupd st.dist_bwd y nd,
        parent_bwd := mupd st.parent_bwd y u,
        pq_bwd := pqPush st.pq_bwd nd y } nd y
  have hinv1 := improve_bwd_inv g s t st y nd (mupd st.parent_bwd y u) hinv hreach2 hnd0 himp
  refine ⟨meet_bwd_inv g s t _ nd y hinv1 hreach2, ?_, ?_, ?_⟩
  · intro x v1 v2 h1 h2
    rw [e1] at h1
    rw [e2] at h2
    dsimp only at h1 h2
    by_cases hxy : x = y
    · subst hxy
      rw [mupd_self] at h2
      cases h2
      exact meet_bwd_pair _ nd x v1 h1
    · rw [mupd_ne _ _ _ _ hxy] at h2
      exact bestLE_meet_bwd _ nd y _ (hC x v1 v2 h1 h2)
  · refine ⟨by rw [e1], by rw [e3], ?_, ?_, ?_⟩
    · intro p hp
      rw [e4]
      exact (pqPush_mem _ _ _ _).mpr (Or.inl hp)
    · intro x w hw
      rw [e2]
      dsimp only
      by_cases hxy : x = y
      · subst hxy
        rw [mupd_self]
        exact ⟨nd, rfl, himp w hw⟩
      · rw [mupd_ne _ _ _ _ hxy]
        exact ⟨w, hw, le_refl w⟩
    · intro v hv
      exact bestLE_meet_bwd _ nd y v hv
  · rw [e2]
    dsimp only
    rw [mupd_self]
    exact ⟨nd, rfl, le_refl nd⟩


/-- Processing one forward adjacency position in the classic relaxation body
preserves the invariant and the classic meeting invariant, satisfies the
structural postcondition, and delivers the relaxation bound. -/
theorem classic_fwd_relax_lemma (g : ShortcutGraph) (s t : Nat) (d : ℚ)
    (u idx : Nat) (st : SState) (hnn : nonneg_costs g)
    (hinv : SearchInv g s t st) (hC : meetC st)
    (hreach : FwdReach g s u d) (hidx : idx ∈ g.fwd_adj u) (hd0 : 0 ≤ d) :
    SearchInv g s t (classic_fwd_relax g d u st idx) ∧
    meetC (classic_fwd_relax g d u st idx) ∧
    StepPostF st (classic_fwd_relax g d u st idx) ∧
    BoundF g d idx (classic_fwd_relax g d u st idx) := by
  have hpostrfl : StepPostF st st :=
    ⟨rfl, rfl, fun p hp => hp, fun x w hw => ⟨w, hw, le_refl w⟩, fun v hv => hv⟩
  cases hsc : g.shortcuts[idx]? with
  | none =>
    simp only [classic_fwd_relax, hsc]
    exact ⟨hinv, hC, hpostrfl, fun sc h => by rw [hsc] at h; cases h⟩
  | some sc =>
    simp only [classic_fwd_relax, hsc]
    by_cases hin : forward_inside_ok sc = true
    · rw [if_pos hin]
      have hins : sc.inside = 1 := by
        rw [forward_inside_ok] at hin; simpa using hin
      have hcost : 0 ≤ sc.cost := hnn.1 sc (List.getElem?_mem hsc)
      have hreach2 : FwdReach g s sc.«to» (d + sc.cost) :=
        FwdReach.step hreach hidx hsc hins
      have hnd0 : 0 ≤ d + sc.cost := by linarith
      cases hdist : st.dist_fwd sc.«to» with
      | none =>
        simp only [hdist]
        rw [if_pos trivial]
        have himp : ∀ w, st.dist_fwd sc.«to» = some w → d + sc.cost ≤ w := by
          intro w hw; rw [hdist] at hw; cases hw
        obtain ⟨p1, p2, p3, p4⟩ :=
          classic_fwd_improve_pack g s t st u sc.«to» (d + sc.cost) hinv hC hreach2 hnd0 himp
        refine ⟨p1, p2, p3, ?_⟩
        intro sc2 h2 hins2
        rw [hsc] at h2
        cases h2
        exact p4
      | some dv =>
        simp only [hdist]
        by_cases hlt : d + sc.cost < dv
        · rw [if_pos (by simpa using hlt)]
          have himp : ∀ w, st.dist_fwd sc.«to» = some w → d + sc.cost ≤ w := by
            intro w hw; rw [hdist] at hw; cases hw; exact le_of_lt hlt
          obtain ⟨p1, p2, p3, p4⟩ :=
            classic_fwd_improve_pack g s t st u sc.«to» (d + sc.cost) hinv hC hreach2 hnd0 himp
          refine ⟨p1, p2, p3, ?_⟩
          intro sc2 h2 hins2
          rw [hsc] at h2
          cases h2
          exact p4
        · rw [if_neg (by simpa using hlt)]
          refine ⟨hinv, hC, hpostrfl, ?_⟩
          intro sc2 h2 hins2
          rw [hsc] at h2
          cases h2
          exact ⟨dv, hdist, le_of_not_lt hlt⟩
    · rw [if_neg hin]
      refine ⟨hinv, hC, hpostrfl, ?_⟩
      intro sc2 h2 hins2
      rw [hsc] at h2
      cases h2
      rw [forward_inside_ok] at hin
      simp [hins2] at hin

/-- Processing one backward adjacency position in the classic relaxation body. -/
theorem classic_bwd_relax_lemma (g : ShortcutGraph) (s t : Nat) (d : ℚ)
    (u idx : Nat) (st : SState) (hnn : nonneg_costs g)
    (hinv : SearchInv g s t st) (hC : meetC st)
    (hreach : BwdReach g t u d) (hidx : idx ∈ g.bwd_adj u) (hd0 : 0 ≤ d) :
    SearchInv g s t (classic_bwd_relax g d u st idx) ∧
    meetC (classic_bwd_relax g d u st idx) ∧
    StepPostB st (classic_bwd_relax g d u st idx) ∧
    BoundB g d idx (classic_bwd_relax g d u st idx) := by
  have hpostrfl : StepPostB st st :=
    ⟨rfl, rfl, fun p hp => hp, fun x w hw => ⟨w, hw, le_refl w⟩, fun v hv => hv⟩
  cases hsc : g.shortcuts[idx]? with
  | none =>
    simp only [classic_bwd_relax, hsc]
    exact ⟨hinv, hC, hpostrfl, fun sc h => by rw [hsc] at h; cases h⟩
  | some sc =>
    simp only [classic_bwd_relax, hsc]
    by_cases hin : backward_inside_ok_classic sc = true
    · rw [if_pos hin]
      have hins : sc.inside = -1 ∨ sc.inside = 0 := by
        rw [backward_inside_ok_classic] at hin
        simpa using hin
      have hcost : 0 ≤ sc.cost := hnn.1 sc (List.getElem?_mem hsc)
      have hreach2 : BwdReach g t sc.«from» (d + sc.cost) :=
        BwdReach.step hreach hidx hsc hins
      have hnd0 : 0 ≤ d + sc.cost := by linarith
      cases hdist : st.dist_bwd sc.«from» with
      | none =>
        simp only [hdist]
        rw [if_pos trivial]
        have himp : ∀ w, st.dist_bwd sc.«from» = some w → d + sc.cost ≤ w := by
          intro w hw; rw [hdist] at hw; cases hw
        obtain ⟨p1, p2, p3, p4⟩ :=
          classic_bwd_improve_pack g s t st u sc.«from» (d + sc.cost) hinv hC hreach2 hnd0 himp
        refine ⟨p1, p2, p3, ?_⟩
        intro sc2 h2 hins2
        rw [hsc] at h2
        cases h2
        exact p4
      | some dv =>
        simp only [hdist]
        by_cases hlt : d + sc.cost < dv
        · rw [if_pos (by simpa using hlt)]
          have himp : ∀ w, st.dist_bwd sc.«from» = some w → d + sc.cost ≤ w := by
            intro w hw; rw [hdist] at hw; cases hw; exact le_of_lt hlt
          obtain ⟨p1, p2, p3, p4⟩ :=
            classic_bwd_improve_pack g s t st u sc.«from» (d + sc.cost) hinv hC hreach2 hnd0 himp
          refine ⟨p1, p2, p3, ?_⟩
          intro sc2 h2 hins2
          rw [hsc] at h2
          cases h2
          exact p4
        · rw [if_neg (by simpa using hlt)]
          refine ⟨hinv, hC, hpostrfl, ?_⟩
          intro sc2 h2 hins2
          rw [hsc] at h2
          cases h2
          exact ⟨dv, hdist, le_of_not_lt hlt⟩
    · rw [if_neg hin]
      refine ⟨hinv, hC, hpostrfl, ?_⟩
      intro sc2 h2 hins2
      rw [hsc] at h2
      cases h2
      rw [backward_inside_ok_classic] at hin
      rcases hins2 with h | h <;> simp [h] at hin


/-- The forward structural postcondition composes. -/
theorem StepPostF_trans {a b c : SState} (h1 : StepPostF a b) (h2 : StepPostF b c) :
    StepPostF a c := by
  obtain ⟨e1, e2, q1, m1, b1⟩ := h1
  obtain ⟨f1, f2, q2, m2, b2⟩ := h2
  refine ⟨f1.trans e1, f2.trans e2, fun p hp => q2 p (q1 p hp), ?_, fun v hv => b2 v (b1 v hv)⟩
  intro x w hw
  obtain ⟨w2, hw2, hle2⟩ := m1 x w hw
  obtain ⟨w3, hw3, hle3⟩ := m2 x w2 hw2
  exact ⟨w3, hw3, le_trans hle3 hle2⟩

/-- The backward structural postcondition composes. -/
theorem StepPostB_trans {a b c : SState} (h1 : StepPostB a b) (h2 : StepPostB b c) :
    StepPostB a c := by
  obtain ⟨e1, e2, q1, m1, b1⟩ := h1
  obtain ⟨f1, f2, q2, m2, b2⟩ := h2
  refine ⟨f1.trans e1, f2.trans e2, fun p hp => q2 p (q1 p hp), ?_, fun v hv => b2 v (b1 v hv)⟩
  intro x w hw
  obtain ⟨w2, hw2, hle2⟩ := m1 x w hw
  obtain ⟨w3, hw3, hle3⟩ := m2 x w2 hw2
  exact ⟨w3, hw3, le_trans hle3 hle2⟩

/-- A delivered forward bound persists through later relaxations. -/
theorem BoundF_mono (g : ShortcutGraph) (d : ℚ) (i : Nat) {b c : SState}
    (hb : BoundF g d i b) (hpost : StepPostF b c) : BoundF g d i c := by
  intro sc hsc hins
  obtain ⟨w, hw, hle⟩ := hb sc hsc hins
  obtain ⟨w2, hw2, hle2⟩ := hpost.2.2.2.1 sc.«to» w hw
  exact ⟨w2, hw2, le_trans hle2 hle⟩

/-- A delivered backward bound persists through later relaxations. -/
theorem BoundB_mono (g : ShortcutGraph) (d : ℚ) (i : Nat) {b c : SState}
    (hb : BoundB g d i b) (hpost : StepPostB b c) : BoundB g d i c := by
  intro sc hsc hins
  obtain ⟨w, hw, hle⟩ := hb sc hsc hins
  obtain ⟨w2, hw2, hle2⟩ := hpost.2.2.2.1 sc.«from» w hw
  exact ⟨w2, hw2, le_trans hle2 hle⟩

/-- Folding the multi forward relaxation over adjacency positions. -/
theorem multi_fold_fwd (g : ShortcutGraph) (s t : Nat) (d : ℚ) (u : Nat)
    (hnn : nonneg_costs g) (hreach : FwdReach g s u d) (hd0 : 0 ≤ d) :
    ∀ (L : List Nat), (∀ i ∈ L, i ∈ g.fwd_adj u) → ∀ st, SearchInv g s t st → meetM st →
    SearchInv g s t (L.foldl (relax_fwd g forward_inside_ok d u) st) ∧
    meetM (L.foldl (relax_fwd g forward_inside_ok d u) st) ∧
    StepPostF st (L.foldl (relax_fwd g forward_inside_ok d u) st) ∧
    (∀ i ∈ L, BoundF g d i (L.foldl (relax_fwd g forward_inside_ok d u) st)) := by
  intro L
  induction L with
  | nil =>
    intro _ st hinv hM
    exact ⟨hinv, hM, ⟨rfl, rfl, fun p hp => hp, fun x w hw => ⟨w, hw, le_refl w⟩,
      fun v hv => hv⟩, by simp⟩
  | cons i L ih =>
    intro hsub st hinv hM
    obtain ⟨h1, h2, h3, h4⟩ :=
      relax_fwd_lemma g s t d u i st hnn hinv hM hreach (hsub i (by simp)) hd0
    obtain ⟨g1, g2, g3, g4⟩ :=
      ih (fun j hj => hsub j (by simp [hj])) (relax_fwd g forward_inside_ok d u st i) h1 h2
    rw [List.foldl_cons]
    refine ⟨g1, g2, StepPostF_trans h3 g3, ?_⟩
    intro j hj
    rcases List.mem_cons.mp hj with hj | hj
    · subst hj
      exact BoundF_mono g d j h4 g3
    · exact g4 j hj

/-- Folding the multi backward relaxation over adjacency positions. -/
theorem multi_fold_bwd (g : ShortcutGraph) (s t : Nat) (d : ℚ) (u : Nat)
    (hnn : nonneg_costs g) (hreach : BwdReach g t u d) (hd0 : 0 ≤ d) :
    ∀ (L : List Nat), (∀ i ∈ L, i ∈ g.bwd_adj u) → ∀ st, SearchInv g s t st → meetM st →
    SearchInv g s t (L.foldl (relax_bwd g backward_inside_ok_classic d u) st) ∧
    meetM (L.foldl (relax_bwd g backward_inside_ok_classic d u) st) ∧
    StepPostB st (L.foldl (relax_bwd g backward_inside_ok_classic d u) st) ∧
    (∀ i ∈ L, BoundB g d i (L.foldl (relax_bwd g backward_inside_ok_classic d u) st)) := by
  intro L
  induction L with
  | nil =>
    intro _ st hinv hM
    exact ⟨hinv, hM, ⟨rfl, rfl, fun p hp => hp, fun x w hw => ⟨w, hw, le_refl w⟩,
      fun v hv => hv⟩, by simp⟩
  | cons i L ih =>
    intro hsub st hinv hM
    obtain ⟨h1, h2, h3, h4⟩ :=
      relax_bwd_lemma g s t d u i st hnn hinv hM hreach (hsub i (by simp)) hd0
    obtain ⟨g1, g2, g3, g4⟩ :=
      ih (fun j hj => hsub j (by simp [hj])) (relax_bwd g backward_inside_ok_classic d u st i) h1 h2
    rw [List.foldl_cons]
    refine ⟨g1, g2, StepPostB_trans h3 g3, ?_⟩
    intro j hj
    rcases List.mem_cons.mp hj with hj | hj
    · subst hj
      exact BoundB_mono g d j h4 g3
    · exact g4 j hj

/-- Folding the classic forward relaxation over adjacency positions. -/
theorem classic_fold_fwd (g : ShortcutGraph) (s t : Nat) (d : ℚ) (u : Nat)
    (hnn : nonneg_costs g) (hreach : FwdReach g s u d) (hd0 : 0 ≤ d) :
    ∀ (L : List Nat), (∀ i ∈ L, i ∈ g.fwd_adj u) → ∀ st, SearchInv g s t st → meetC st →
    SearchInv g s t (L.foldl (classic_fwd_relax g d u) st) ∧
    meetC (L.foldl (classic_fwd_relax g d u) st) ∧
    StepPostF st (L.foldl (classic_fwd_relax g d u) st) ∧
    (∀ i ∈ L, BoundF g d i (L.foldl (classic_fwd_relax g d u) st)) := by
  intro L
  induction L with
  | nil =>
    intro _ st hinv hC
    exact ⟨hinv, hC, ⟨rfl, rfl, fun p hp => hp, fun x w hw => ⟨w, hw, le_refl w⟩,
      fun v hv => hv⟩, by simp⟩
  | cons i L ih =>
    intro hsub st hinv hC
    obtain ⟨h1, h2, h3, h4⟩ :=
      classic_fwd_relax_lemma g s t d u i st hnn hinv hC hreach (hsub i (by simp)) hd0
    obtain ⟨g1, g2, g3, g4⟩ :=
      ih (fun j hj => hsub j (by simp [hj])) (classic_fwd_relax g d u st i) h1 h2
    rw [List.foldl_cons]
    refine ⟨g1, g2, StepPostF_trans h3 g3, ?_⟩
    intro j hj
    rcases List.mem_cons.mp hj with hj | hj
    · subst hj
      exact BoundF_mono g d j h4 g3
    · exact g4 j hj

/-- Folding the classic backward relaxation over adjacency positions. -/
theorem classic_fold_bwd (g : ShortcutGraph) (s t : Nat) (d : ℚ) (u : Nat)
    (hnn : nonneg_costs g) (hreach : BwdReach g t u d) (hd0 : 0 ≤ d) :
    ∀ (L : List Nat), (∀ i ∈ L, i ∈ g.bwd_adj u) → ∀ st, SearchInv g s t st → meetC st →
    SearchInv g s t (L.foldl (classic_bwd_relax g d u) st) ∧
    meetC (L.foldl (classic_bwd_relax g d u) st) ∧
    StepPostB st (L.foldl (classic_bwd_relax g d u) st) ∧
    (∀ i ∈ L, BoundB g d i (L.foldl (classic_bwd_relax g d u) st)) := by
  intro L
  induction L with
  | nil =>
    intro _ st hinv hC
    exact ⟨hinv, hC, ⟨rfl, rfl, fun p hp => hp, fun x w hw => ⟨w, hw, le_refl w⟩,
      fun v hv => hv⟩, by simp⟩
  | cons i L ih =>
    intro hsub st hinv hC
    obtain ⟨h1, h2, h3, h4⟩ :=
      classic_bwd_relax_lemma g s t d u i st hnn hinv hC hreach (hsub i (by simp)) hd0
    obtain ⟨g1, g2, g3, g4⟩ :=
      ih (fun j hj => hsub j (by simp [hj])) (classic_bwd_relax g d u st i) h1 h2
    rw [List.foldl_cons]
    refine ⟨g1, g2, StepPostB_trans h3 g3, ?_⟩
    intro j hj
    rcases List.mem_cons.mp hj with hj | hj
    · subst hj
      exact BoundB_mono g d j h4 g3
    · exact g4 j hj

/-! ### Claim C3: freshness and node-invariant transport -/

/-- Freshness is reflexive. -/
theorem FreshF_refl (st : SState) : FreshF st st := fun _ _ hw => Or.inl hw

/-- Backward freshness is reflexive. -/
theorem FreshB_refl (st : SState) : FreshB st st := fun _ _ hw => Or.inl hw

/-- Freshness composes when the second leg keeps queue entries. -/
theorem FreshF_trans {a b c : SState} (h1 : FreshF a b) (h2 : FreshF b c)
    (hq : ∀ p ∈ b.pq_fwd, p ∈ c.pq_fwd) : FreshF a c := by
  intro x w hw
  rcases h2 x w hw with h | h
  · rcases h1 x w h with h' | h'
    · exact Or.inl h'
    · exact Or.inr (hq _ h')
  · exact Or.inr h

/-- Backward freshness composes when the second leg keeps queue entries. -/
theorem FreshB_trans {a b c : SState} (h1 : FreshB a b) (h2 : FreshB b c)
    (hq : ∀ p ∈ b.pq_bwd, p ∈ c.pq_bwd) : FreshB a c := by
  intro x w hw
  rcases h2 x w hw with h | h
  · rcases h1 x w h with h' | h'
    · exact Or.inl h'
    · exact Or.inr (hq _ h')
  · exact Or.inr h

/-- The multi/pruned forward relaxation keeps forward queue entries. -/
theorem relax_fwd_qmono (g : ShortcutGraph) (allowed : Shortcut → Bool) (d : ℚ)
    (u : Nat) (st : SState) (idx : Nat) :
    ∀ p ∈ st.pq_fwd, p ∈ (relax_fwd g allowed d u st idx).pq_fwd := by
  intro p hp
  cases hsc : g.shortcuts[idx]? with
  | none => simp only [relax_fwd, hsc]; exact hp
  | some sc =>
    simp only [relax_fwd, hsc]
    by_cases hin : allowed sc = true
    · rw [if_pos hin]
      cases hdist : st.dist_fwd sc.«to» with
      | none =>
        simp only [hdist]
        rw [if_pos trivial]
        exact (pqPush_mem _ _ _ _).mpr (Or.inl hp)
      | some dv =>
        simp only [hdist]
        by_cases hlt : d + sc.cost < dv
        · rw [if_pos (by simpa using hlt)]
          exact (pqPush_mem _ _ _ _).mpr (Or.inl hp)
        · rw [if_neg (by simpa using hlt)]; exact hp
    · rw [if_neg hin]; exact hp

/-- The multi/pruned backward relaxation keeps backward queue entries. -/
theorem relax_bwd_qmono (g : ShortcutGraph) (allowed : Shortcut → Bool) (d : ℚ)
    (u : Nat) (st : SState) (idx : Nat) :
    ∀ p ∈ st.pq_bwd, p ∈ (relax_bwd g allowed d u st idx).pq_bwd := by
  intro p hp
  cases hsc : g.shortcuts[idx]? with
  | none => simp only [relax_bwd, hsc]; exact hp
  | some sc =>
    simp only [relax_bwd, hsc]
    by_cases hin : allowed sc = true
    · rw [if_pos hin]
      cases hdist : st.dist_bwd sc.«from» with
      | none =>
        simp only [hdist]
        rw [if_pos trivial]
        exact (pqPush_mem _ _ _ _).mpr (Or.inl hp)
      | some dv =>
        simp only [hdist]
        by_cases hlt : d + sc.cost < dv
        · rw [if_pos (by simpa using hlt)]
          exact (pqPush_mem _ _ _ _).mpr (Or.inl hp)
        · rw [if_neg (by simpa using hlt)]; exact hp
    · rw [if_neg hin]; exact hp

/-- The multi/pruned forward relaxation is fresh. -/
theorem relax_fwd_fresh (g : ShortcutGraph) (allowed : Shortcut → Bool) (d : ℚ)
    (u : Nat) (st : SState) (idx : Nat) :
    FreshF st (relax_fwd g allowed d u st idx) := by
  cases hsc : g.shortcuts[idx]? with
  | none => simp only [relax_fwd, hsc]; exact FreshF_refl st
  | some sc =>
    simp only [relax_fwd, hsc]
    by_cases hin : allowed sc = true
    · rw [if_pos hin]
      cases hdist : st.dist_fwd sc.«to» with
      | none =>
        simp only [hdist]
        rw [if_pos trivial]
        intro x w hw
        dsimp only at hw ⊢
        by_cases hxy : x = sc.«to»
        · subst hxy
          rw [mupd_self] at hw
          cases hw
          exact Or.inr ((pqPush_mem _ _ _ _).mpr (Or.inr rfl))
        · rw [mupd_ne _ _ _ _ hxy] at hw
          exact Or.inl hw
      | some dv =>
        simp only [hdist]
        by_cases hlt : d + sc.cost < dv
        · rw [if_pos (by simpa using hlt)]
          intro x w hw
          dsimp only at hw ⊢
          by_cases hxy : x = sc.«to»
          · subst hxy
            rw [mupd_self] at hw
            cases hw
            exact Or.inr ((pqPush_mem _ _ _ _).mpr (Or.inr rfl))
          · rw [mupd_ne _ _ _ _ hxy] at hw
            exact Or.inl hw
        · rw [if_neg (by simpa using hlt)]; exact FreshF_refl st
    · rw [if_neg hin]; exact FreshF_refl st

/-- The multi/pruned backward relaxation is fresh. -/
theorem relax_bwd_fresh (g : ShortcutGraph) (allowed : Shortcut → Bool) (d : ℚ)
    (u : Nat) (st : SState) (idx : Nat) :
    FreshB st (relax_bwd g allowed d u st idx) := by
  cases hsc : g.shortcuts[idx]? with
  | none => simp only [relax_bwd, hsc]; exact FreshB_refl st
  | some sc =>
    simp only [relax_bwd, hsc]
    by_cases hin : allowed sc = true
    · rw [if_pos hin]
      cases hdist : st.dist_bwd sc.«from» with
      | none =>
        simp only [hdist]
        rw [if_pos trivial]
        intro x w hw
        dsimp only at hw ⊢
        by_cases hxy : x = sc.«from»
        · subst hxy
          rw [mupd_self] at hw
          cases hw
          exact Or.inr ((pqPush_mem _ _ _ _).mpr (Or.inr rfl))
        · rw [mupd_ne _ _ _ _ hxy] at hw
          exact Or.inl hw
      | some dv =>
        simp only [hdist]
        by_cases hlt : d + sc.cost < dv
        · rw [if_pos (by simpa using hlt)]
          intro x w hw
          dsimp only at hw ⊢
          by_cases hxy : x = sc.«from»
          · subst hxy
            rw [mupd_self] at hw
            cases hw
            exact Or.inr ((pqPush_mem _ _ _ _).mpr (Or.inr rfl))
          · rw [mupd_ne _ _ _ _ hxy] at hw
            exact Or.inl hw
        · rw [if_neg (by simpa using hlt)]; exact FreshB_refl st
    · rw [if_neg hin]; exact FreshB_refl st

/-- The classic forward relaxation keeps forward queue entries. -/
theorem classic_fwd_relax_qmono (g : ShortcutGraph) (d : ℚ) (u : Nat)
    (st : SState) (idx : Nat) :
    ∀ p ∈ st.pq_fwd, p ∈ (classic_fwd_relax g d u st idx).pq_fwd := by
  intro p hp
  cases hsc : g.shortcuts[idx]? with
  | none => simp only [classic_fwd_relax, hsc]; exact hp
  | some sc =>
    simp only [classic_fwd_relax, hsc]
    by_cases hin : forward_inside_ok sc = true
    · rw [if_pos hin]
      cases hdist : st.dist_fwd sc.«to» with
      | none =>
        simp only [hdist]
        rw [if_pos trivial]
        show p ∈ (meet_fwd { st with
            dist_fwd := mupd st.dist_fwd sc.«to» (d + sc.cost),
            parent_fwd := mupd st.parent_fwd sc.«to» u,
            pq_fwd := pqPush st.pq_fwd (d + sc.cost) sc.«to» }
          (d + sc.cost) sc.«to»).pq_fwd
        rw [(meet_fwd_shape _ _ _).2.2.1]
        exact (pqPush_mem _ _ _ _).mpr (Or.inl hp)
      | some dv =>
        simp only [hdist]
        by_cases hlt : d + sc.cost < dv
        · rw [if_pos (by simpa using hlt)]
          show p ∈ (meet_fwd { st with
              dist_fwd := mupd st.dist_fwd sc.«to» (d + sc.cost),
              parent_fwd := mupd st.parent_fwd sc.«to» u,
              pq_fwd := pqPush st.pq_fwd (d + sc.cost) sc.«to» }
            (d + sc.cost) sc.«to»).pq_fwd
          rw [(meet_fwd_shape _ _ _).2.2.1]
          exact (pqPush_mem _ _ _ _).mpr (Or.inl hp)
        · rw [if_neg (by simpa using hlt)]; exact hp
    · rw [if_neg hin]; exact hp

/-- The classic backward relaxation keeps backward queue entries. -/
theorem classic_bwd_relax_qmono (g : ShortcutGraph) (d : ℚ) (u : Nat)
    (st : SState) (idx : Nat) :
    ∀ p ∈ st.pq_bwd, p ∈ (classic_bwd_relax g d u st idx).pq_bwd := by
  intro p hp
  cases hsc : g.shortcuts[idx]? with
  | none => simp only [classic_bwd_relax, hsc]; exact hp
  | some sc =>
    simp only [classic_bwd_relax, hsc]
    by_cases hin : backward_inside_ok_classic sc = true
    · rw [if_pos hin]
      cases hdist : st.dist_bwd sc.«from» with
      | none =>
        simp only [hdist]
        rw [if_pos trivial]
        show p ∈ (meet_bwd { st with
            dist_bwd := mupd st.dist_bwd sc.«from» (d + sc.cost),
            parent_bwd := mupd st.parent_bwd sc.«from» u,
            pq_bwd := pqPush st.pq_bwd (d + sc.cost) sc.«from» }
          (d + sc.cost) sc.«from»).pq_bwd
        rw [(meet_bwd_shape _ _ _).2.2.2]
        exact (pqPush_mem _ _ _ _).mpr (Or.inl hp)
      | some dv =>
        simp only [hdist]
        by_cases hlt : d + sc.cost < dv
        · rw [if_pos (by simpa using hlt)]
          show p ∈ (meet_bwd { st with
              dist_bwd := mupd st.dist_bwd sc.«from» (d + sc.cost),
              parent_bwd := mupd st.parent_bwd sc.«from» u,
              pq_bwd := pqPush st.pq_bwd (d + sc.cost) sc.«from» }
            (d + sc.cost) sc.«from»).pq_bwd
          rw [(meet_bwd_shape _ _ _).2.2.2]
          exact (pqPush_mem _ _ _ _).mpr (Or.inl hp)
        · rw [if_neg (by simpa using hlt)]; exact hp
    · rw [if_neg hin]; exact hp

/-- The classic forward relaxation is fresh. -/
theorem classic_fwd_relax_fresh (g : ShortcutGraph) (d : ℚ) (u : Nat)
    (st : SState) (idx : Nat) :
    FreshF st (classic_fwd_relax g d u st idx) := by
  cases hsc : g.shortcuts[idx]? with
  | none => simp only [classic_fwd_relax, hsc]; exact FreshF_refl st
  | some sc =>
    simp only [classic_fwd_relax, hsc]
    by_cases hin : forward_inside_ok sc = true
    · rw [if_pos hin]
      cases hdist : st.dist_fwd sc.«to» with
      | none =>
        simp only [hdist]
        rw [if_pos trivial]
        show FreshF st (meet_fwd { st with
            dist_fwd := mupd st.dist_fwd sc.«to» (d + sc.cost),
            parent_fwd := mupd st.parent_fwd sc.«to» u,
            pq_fwd := pqPush st.pq_fwd (d + sc.cost) sc.«to» }
          (d + sc.cost) sc.«to»)
        intro x w hw
        rw [(meet_fwd_shape _ _ _).1] at hw
        rw [(meet_fwd_shape _ _ _).2.2.1]
        dsimp only at hw ⊢
        by_cases hxy : x = sc.«to»
        · subst hxy
          rw [mupd_self] at hw
          cases hw
          exact Or.inr ((pqPush_mem _ _ _ _).mpr (Or.inr rfl))
        · rw [mupd_ne _ _ _ _ hxy] at hw
          exact Or.inl hw
      | some dv =>
        simp only [hdist]
        by_cases hlt : d + sc.cost < dv
        · rw [if_pos (by simpa using hlt)]
          show FreshF st (meet_fwd { st with
              dist_fwd := mupd st.dist_fwd sc.«to» (d + sc.cost),
              parent_fwd := mupd st.parent_fwd sc.«to» u,
              pq_fwd := pqPush st.pq_fwd (d + sc.cost) sc.«to» }
            (d + sc.cost) sc.«to»)
          intro x w hw
          rw [(meet_fwd_shape _ _ _).1] at hw
          rw [(meet_fwd_shape _ _ _).2.2.1]
          dsimp only at hw ⊢
          by_cases hxy : x = sc.«to»
          · subst hxy
            rw [mupd_self] at hw
            cases hw
            exact Or.inr ((pqPush_mem _ _ _ _).mpr (Or.inr rfl))
          · rw [mupd_ne _ _ _ _ hxy] at hw
            exact Or.inl hw
        · rw [if_neg (by simpa using hlt)]; exact FreshF_refl st
    · rw [if_neg hin]; exact FreshF_refl st

/-- The classic backward relaxation is fresh. -/
theorem classic_bwd_relax_fresh (g : ShortcutGraph) (d : ℚ) (u : Nat)
    (st : SState) (idx : Nat) :
    FreshB st (classic_bwd_relax g d u st idx) := by
  cases hsc : g.shortcuts[idx]? with
  | none => simp only [classic_bwd_relax, hsc]; exact FreshB_refl st
  | some sc =>
    simp only [classic_bwd_relax, hsc]
    by_cases hin : backward_inside_ok_classic sc = true
    · rw [if_pos hin]
      cases hdist : st.dist_bwd sc.«from» with
      | none =>
        simp only [hdist]
        rw [if_pos trivial]
        show FreshB st (meet_bwd { st with
            dist_bwd := mupd st.dist_bwd sc.«from» (d + sc.cost),
            parent_bwd := mupd st.parent_bwd sc.«from» u,
            pq_bwd := pqPush st.pq_bwd (d + sc.cost) sc.«from» }
          (d + sc.cost) sc.«from»)
        intro x w hw
        rw [(meet_bwd_shape _ _ _).2.1] at hw
        rw [(meet_bwd_shape _ _ _).2.2.2]
        dsimp only at hw ⊢
        by_cases hxy : x = sc.«from»
        · subst hxy
          rw [mupd_self] at hw
          cases hw
          exact Or.inr ((pqPush_mem _ _ _ _).mpr (Or.inr rfl))
        · rw [mupd_ne _ _ _ _ hxy] at hw
          exact Or.inl hw
      | some dv =>
        simp only [hdist]
        by_cases hlt : d + sc.cost < dv
        · rw [if_pos (by simpa using hlt)]
          show FreshB st (meet_bwd { st with
              dist_bwd := mupd st.dist_bwd sc.«from» (d + sc.cost),
              parent_bwd := mupd st.parent_bwd sc.«from» u,
              pq_bwd := pqPush st.pq_bwd (d + sc.cost) sc.«from» }
            (d + sc.cost) sc.«from»)
          intro x w hw
          rw [(meet_bwd_shape _ _ _).2.1] at hw
          rw [(meet_bwd_shape _ _ _).2.2.2]
          dsimp only at hw ⊢
          by_cases hxy : x = sc.«from»
          · subst hxy
            rw [mupd_self] at hw
            cases hw
            exact Or.inr ((pqPush_mem _ _ _ _).mpr (Or.inr rfl))
          · rw [mupd_ne _ _ _ _ hxy] at hw
            exact Or.inl hw
        · rw [if_neg (by simpa using hlt)]; exact FreshB_refl st
    · rw [if_neg hin]; exact FreshB_refl st

/-- Folding a forward-queue-monotone step is forward-queue-monotone. -/
theorem foldl_qmono_fwd (f : SState → Nat → SState)
    (hf : ∀ st i, ∀ p ∈ st.pq_fwd, p ∈ (f st i).pq_fwd) :
    ∀ (L : List Nat) (st : SState), ∀ p ∈ st.pq_fwd, p ∈ (L.foldl f st).pq_fwd := by
  intro L
  induction L with
  | nil => intro st p hp; exact hp
  | cons i L ih =>
    intro st p hp
    rw [List.foldl_cons]
    exact ih (f st i) p (hf st i p hp)

/-- Folding a backward-queue-monotone step is backward-queue-monotone. -/
theorem foldl_qmono_bwd (f : SState → Nat → SState)
    (hf : ∀ st i, ∀ p ∈ st.pq_bwd, p ∈ (f st i).pq_bwd) :
    ∀ (L : List Nat) (st : SState), ∀ p ∈ st.pq_bwd, p ∈ (L.foldl f st).pq_bwd := by
  intro L
  induction L with
  | nil => intro st p hp; exact hp
  | cons i L ih =>
    intro st p hp
    rw [List.foldl_cons]
    exact ih (f st i) p (hf st i p hp)

/-- Folding a fresh, forward-queue-monotone step is fresh. -/
theorem foldl_fresh_fwd (f : SState → Nat → SState)
    (hfr : ∀ st i, FreshF st (f st i))
    (hq : ∀ st i, ∀ p ∈ st.pq_fwd, p ∈ (f st i).pq_fwd) :
    ∀ (L : List Nat) (st : SState), FreshF st (L.foldl f st) := by
  intro L
  induction L with
  | nil => intro st; exact FreshF_refl st
  | cons i L ih =>
    intro st
    rw [List.foldl_cons]
    exact FreshF_trans (hfr st i) (ih (f st i)) (foldl_qmono_fwd f hq L (f st i))

/-- Folding a fresh, backward-queue-monotone step is fresh. -/
theorem foldl_fresh_bwd (f : SState → Nat → SState)
    (hfr : ∀ st i, FreshB st (f st i))
    (hq : ∀ st i, ∀ p ∈ st.pq_bwd, p ∈ (f st i).pq_bwd) :
    ∀ (L : List Nat) (st : SState), FreshB st (L.foldl f st) := by
  intro L
  induction L with
  | nil => intro st; exact FreshB_refl st
  | cons i L ih =>
    intro st
    rw [List.foldl_cons]
    exact FreshB_trans (hfr st i) (ih (f st i)) (foldl_qmono_bwd f hq L (f st i))

/-- A node invariant that exempts nobody exempts anybody. -/
theorem NodeInvF_weaken (g : ShortcutGraph) (ex : Option Nat) {st : SState}
    (h : NodeInvF g none st) : NodeInvF g ex st :=
  fun u du hdu _ => h u du hdu (by simp)

/-- Backward version of the exemption weakening. -/
theorem NodeInvB_weaken (g : ShortcutGraph) (ex : Option Nat) {st : SState}
    (h : NodeInvB g none st) : NodeInvB g ex st :=
  fun u du hdu _ => h u du hdu (by simp)

/-- The forward node invariant transports along a forward step that is
structurally monotone and fresh. -/
theorem NodeInvF_transport (g : ShortcutGraph) (ex : Option Nat) {st st2 : SState}
    (h : NodeInvF g ex st) (hp : StepPostF st st2) (hf : FreshF st st2) :
    NodeInvF g ex st2 := by
  obtain ⟨e1, e2, hq, ht, hb⟩ := hp
  intro u du hdu hex
  rcases hf u du hdu with hold | hnew
  · rcases h u du hold hex with hA | hB | hC
    · exact Or.inl (hq _ hA)
    · refine Or.inr (Or.inl ?_)
      intro idx hidx sc hsc hins
      obtain ⟨w, hw, hwle⟩ := hB idx hidx sc hsc hins
      obtain ⟨w2, hw2, hw2le⟩ := ht _ _ hw
      exact ⟨w2, hw2, le_trans hw2le hwle⟩
    · exact Or.inr (Or.inr (hb _ hC))
  · exact Or.inl hnew

/-- The backward node invariant transports along a forward step (the
backward side is untouched and `best` only decreases). -/
theorem NodeInvB_transportF (g : ShortcutGraph) (ex : Option Nat) {st st2 : SState}
    (h : NodeInvB g ex st) (hp : StepPostF st st2) : NodeInvB g ex st2 := by
  obtain ⟨e1, e2, hq, ht, hb⟩ := hp
  intro u du hdu hex
  rw [e1] at hdu
  rcases h u du hdu hex with hA | hB | hC
  · exact Or.inl (by rw [e2]; exact hA)
  · refine Or.inr (Or.inl ?_)
    intro idx hidx sc hsc hins
    obtain ⟨w, hw, hwle⟩ := hB idx hidx sc hsc hins
    exact ⟨w, by rw [e1]; exact hw, hwle⟩
  · exact Or.inr (Or.inr (hb _ hC))

/-- The backward node invariant transports along a backward step that is
structurally monotone and fresh. -/
theorem NodeInvB_transport (g : ShortcutGraph) (ex : Option Nat) {st st2 : SState}
    (h : NodeInvB g ex st) (hp : StepPostB st st2) (hf : FreshB st st2) :
    NodeInvB g ex st2 := by
  obtain ⟨e1, e2, hq, ht, hb⟩ := hp
  intro u du hdu hex
  rcases hf u du hdu with hold | hnew
  · rcases h u du hold hex with hA | hB | hC
    · exact Or.inl (hq _ hA)
    · refine Or.inr (Or.inl ?_)
      intro idx hidx sc hsc hins
      obtain ⟨w, hw, hwle⟩ := hB idx hidx sc hsc hins
      obtain ⟨w2, hw2, hw2le⟩ := ht _ _ hw
      exact ⟨w2, hw2, le_trans hw2le hwle⟩
    · exact Or.inr (Or.inr (hb _ hC))
  · exact Or.inl hnew

/-- The forward node invariant transports along a backward step. -/
theorem NodeInvF_transportB (g : ShortcutGraph) (ex : Option Nat) {st st2 : SState}
    (h : NodeInvF g ex st) (hp : StepPostB st st2) : NodeInvF g ex st2 := by
  obtain ⟨e1, e2, hq, ht, hb⟩ := hp
  intro u du hdu hex
  rw [e1] at hdu
  rcases h u du hdu hex with hA | hB | hC
  · exact Or.inl (by rw [e2]; exact hA)
  · refine Or.inr (Or.inl ?_)
    intro idx hidx sc hsc hins
    obtain ⟨w, hw, hwle⟩ := hB idx hidx sc hsc hins
    exact ⟨w, by rw [e1]; exact hw, hwle⟩
  · exact Or.inr (Or.inr (hb _ hC))

/-- Removing the forward queue head preserves the search invariant. -/
theorem pop_fwd_inv (g : ShortcutGraph) (s t : Nat) (st : SState) (d : ℚ) (u : Nat)
    (rest : List (ℚ × Nat)) (hq : st.pq_fwd = (d, u) :: rest)
    (hinv : SearchInv g s t st) :
    SearchInv g s t { st with pq_fwd := rest } := by
  obtain ⟨s_f, s_b, n_f, n_b, so_f, so_b, el_f, el_b, er_f, er_b, bs, fi, se_f, se_b⟩ := hinv
  rw [hq] at s_f el_f er_f
  rw [sortedQ] at s_f
  refine ⟨?_, s_b, n_f, n_b, so_f, so_b, ?_, el_b, ?_, er_b, bs, fi, se_f, se_b⟩
  · exact (List.pairwise_cons.mp s_f).2
  · intro p hp
    exact el_f p (List.mem_cons_of_mem _ hp)
  · intro p hp
    exact er_f p (List.mem_cons_of_mem _ hp)

/-- Removing the backward queue head preserves the search invariant. -/
theorem pop_bwd_inv (g : ShortcutGraph) (s t : Nat) (st : SState) (d : ℚ) (u : Nat)
    (rest : List (ℚ × Nat)) (hq : st.pq_bwd = (d, u) :: rest)
    (hinv : SearchInv g s t st) :
    SearchInv g s t { st with pq_bwd := rest } := by
  obtain ⟨s_f, s_b, n_f, n_b, so_f, so_b, el_f, el_b, er_f, er_b, bs, fi, se_f, se_b⟩ := hinv
  rw [hq] at s_b el_b er_b
  rw [sortedQ] at s_b
  refine ⟨s_f, ?_, n_f, n_b, so_f, so_b, el_f, ?_, er_f, ?_, bs, fi, se_f, se_b⟩
  · exact (List.pairwise_cons.mp s_b).2
  · intro p hp
    exact el_b p (List.mem_cons_of_mem _ hp)
  · intro p hp
    exact er_b p (List.mem_cons_of_mem _ hp)

/-- One multi forward step preserves the search, meeting and node
invariants. -/
theorem multi_fwd_step_lemma (g : ShortcutGraph) (s t : Nat) (st : SState)
    (hnn : nonneg_costs g)
    (hinv : SearchInv g s t st) (hM : meetM st)
    (hNF : NodeInvF g none st) (hNB : NodeInvB g none st) :
    SearchInv g s t (multi_fwd_step g st).1 ∧ meetM (multi_fwd_step g st).1 ∧
    NodeInvF g none (multi_fwd_step g st).1 ∧
    NodeInvB g none (multi_fwd_step g st).1 := by
  cases hq : st.pq_fwd with
  | nil =>
    rw [multi_fwd_step, hq]
    exact ⟨hinv, hM, hNF, hNB⟩
  | cons p rest =>
    obtain ⟨d, u⟩ := p
    have hmem : (d, u) ∈ st.pq_fwd := by rw [hq]; exact List.mem_cons_self _ _
    have hreach : FwdReach g s u d := hinv.entry_reach_f (d, u) hmem
    obtain ⟨du, hdu, hdule⟩ := hinv.entry_le_f (d, u) hmem
    have hd0 : 0 ≤ d := le_trans (hinv.nonneg_f u du hdu) hdule
    have hinv0 : SearchInv g s t { st with pq_fwd := rest } :=
      pop_fwd_inv g s t st d u rest hq hinv
    have hinv1 : SearchInv g s t (meet_fwd { st with pq_fwd := rest } d u) :=
      meet_fwd_inv g s t _ d u hinv0 hreach
    obtain ⟨m1, m2, m3, m4⟩ := meet_fwd_shape { st with pq_fwd := rest } d u
    dsimp only at m1 m2 m3 m4
    have hNF1 : NodeInvF g (some u) (meet_fwd { st with pq_fwd := rest } d u) := by
      intro w dw hdw hex
      rw [m1] at hdw
      rcases hNF w dw hdw (by simp) with hA | hB | hC
      · rw [hq] at hA
        rcases List.mem_cons.mp hA with he | he
        · exact absurd (congrArg (fun q => some q.2) he) hex
        · exact Or.inl (by rw [m3]; exact he)
      · refine Or.inr (Or.inl ?_)
        intro idx hidx sc hsc hins
        obtain ⟨w2, hw2, hw2le⟩ := hB idx hidx sc hsc hins
        exact ⟨w2, by rw [m1]; exact hw2, hw2le⟩
      · exact Or.inr (Or.inr (bestLE_meet_fwd _ d u dw hC))
    have hNB1 : NodeInvB g none (meet_fwd { st with pq_fwd := rest } d u) := by
      intro w dw hdw hex
      rw [m2] at hdw
      rcases hNB w dw hdw hex with hA | hB | hC
      · exact Or.inl (by rw [m4]; exact hA)
      · refine Or.inr (Or.inl ?_)
        intro idx hidx sc hsc hins
        obtain ⟨w2, hw2, hw2le⟩ := hB idx hidx sc hsc hins
        exact ⟨w2, by rw [m2]; exact hw2, hw2le⟩
      · exact Or.inr (Or.inr (bestLE_meet_fwd _ d u dw hC))
    have hM1 : meetM (meet_fwd { st with pq_fwd := rest } d u) := by
      intro x v1 v2 h1 h2
      rw [m1] at h1
      rw [m2] at h2
      rcases hM x v1 v2 h1 h2 with hc | hc | hc
      · exact Or.inl (bestLE_meet_fwd _ d u _ hc)
      · rw [hq] at hc
        rcases List.mem_cons.mp hc with he | he
        · have hx : x = u := congrArg Prod.snd he
          have hv : v1 = d := congrArg Prod.fst he
          subst hx
          subst hv
          exact Or.inl (meet_fwd_pair { st with pq_fwd := rest } v1 x v2 h2)
        · exact Or.inr (Or.inl (by rw [m3]; exact he))
      · exact Or.inr (Or.inr (by rw [m4]; exact hc))
    rw [multi_fwd_step, hq]
    dsimp only
    split
    · next hgu =>
      refine ⟨hinv1, hM1, ?_, hNB1⟩
      intro w dw hdw hex2
      by_cases hwu : w = u
      · subst hwu
        have hdw' : dw = du := by
          rw [m1] at hdw
          rw [hdu] at hdw
          exact (Option.some.inj hdw).symm
        by_cases hst : du < d
        · rcases hNF w du hdu (by simp) with hA | hB | hC
          · rw [hq] at hA
            rcases List.mem_cons.mp hA with he | he
            · exact absurd (congrArg Prod.fst he) (ne_of_lt hst)
            · rw [hdw']
              exact Or.inl (by rw [m3]; exact he)
          · refine Or.inr (Or.inl ?_)
            rw [hdw']
            intro idx hidx sc hsc hins
            obtain ⟨w2, hw2, hw2le⟩ := hB idx hidx sc hsc hins
            exact ⟨w2, by rw [m1]; exact hw2, hw2le⟩
          · rw [hdw']
            exact Or.inr (Or.inr (bestLE_meet_fwd _ d w du hC))
        · have hdud : du = d := le_antisymm hdule (not_lt.mp hst)
          rw [Bool.or_eq_true] at hgu
          rcases hgu with hg | hg
          · have hfl : dLtBest d (meet_fwd { st with pq_fwd := rest } d w).best = false := by
              revert hg
              cases dLtBest d (meet_fwd { st with pq_fwd := rest } d w).best <;> simp
            obtain ⟨b, hb, hble⟩ := dLtBest_false _ _ hfl
            exact Or.inr (Or.inr ⟨b, hb, by rw [hdw', hdud]; exact hble⟩)
          · exfalso
            rw [m1, hdu] at hg
            exact hst (by simpa using hg)
      · exact hNF1 w dw hdw (by simp [hwu])
    · next hgu =>
      rw [Bool.or_eq_true] at hgu
      obtain ⟨hg1, hg2⟩ := not_or.mp hgu
      have hdud : du = d := by
        rw [m1, hdu] at hg2
        exact le_antisymm hdule (by simpa using hg2)
      obtain ⟨f1, f2, f3, f4⟩ :=
        multi_fold_fwd g s t d u hnn hreach hd0 (g.fwd_adj u) (fun i hi => hi)
          (meet_fwd { st with pq_fwd := rest } d u) hinv1 hM1
      have hfr : FreshF (meet_fwd { st with pq_fwd := rest } d u)
          ((g.fwd_adj u).foldl (relax_fwd g forward_inside_ok d u)
            (meet_fwd { st with pq_fwd := rest } d u)) :=
        foldl_fresh_fwd _ (fun st2 i => relax_fwd_fresh g forward_inside_ok d u st2 i)
          (fun st2 i => relax_fwd_qmono g forward_inside_ok d u st2 i)
          (g.fwd_adj u) _
      have hNFx := NodeInvF_transport g (some u) hNF1 f3 hfr
      refine ⟨f1, f2, ?_, NodeInvB_transportF g none hNB1 f3⟩
      intro w dw hdw hex2
      by_cases hwu : w = u
      · subst hwu
        rcases hfr w dw hdw with hold | hnew
        · have hdw' : dw = d := by
            rw [m1] at hold
            rw [hdu] at hold
            rw [← hdud]
            exact (Option.some.inj hold).symm
          refine Or.inr (Or.inl ?_)
          intro idx hidx sc hsc hins
          obtain ⟨w2, hw2, hw2le⟩ := f4 idx hidx sc hsc hins
          exact ⟨w2, hw2, by rw [hdw']; exact hw2le⟩
        · exact Or.inl hnew
      · exact hNFx w dw hdw (by simp [hwu])

/-- One multi backward step preserves the search, meeting and node
invariants. -/
theorem multi_bwd_step_lemma (g : ShortcutGraph) (s t : Nat) (st : SState)
    (hnn : nonneg_costs g)
    (hinv : SearchInv g s t st) (hM : meetM st)
    (hNF : NodeInvF g none st) (hNB : NodeInvB g none st) :
    SearchInv g s t (multi_bwd_step g st).1 ∧ meetM (multi_bwd_step g st).1 ∧
    NodeInvF g none (multi_bwd_step g st).1 ∧
    NodeInvB g none (multi_bwd_step g st).1 := by
  cases hq : st.pq_bwd with
  | nil =>
    rw [multi_bwd_step, hq]
    exact ⟨hinv, hM, hNF, hNB⟩
  | cons p rest =>
    obtain ⟨d, u⟩ := p
    have hmem : (d, u) ∈ st.pq_bwd := by rw [hq]; exact List.mem_cons_self _ _
    have hreach : BwdReach g t u d := hinv.entry_reach_b (d, u) hmem
    obtain ⟨du, hdu, hdule⟩ := hinv.entry_le_b (d, u) hmem
    have hd0 : 0 ≤ d := le_trans (hinv.nonneg_b u du hdu) hdule
    have hinv0 : SearchInv g s t { st with pq_bwd := rest } :=
      pop_bwd_inv g s t st d u rest hq hinv
    have hinv1 : SearchInv g s t (meet_bwd { st with pq_bwd := rest } d u) :=
      meet_bwd_inv g s t _ d u hinv0 hreach
    obtain ⟨m1, m2, m3, m4⟩ := meet_bwd_shape { st with pq_bwd := rest } d u
    dsimp only at m1 m2 m3 m4
    have hNB1 : NodeInvB g (some u) (meet_bwd { st with pq_bwd := rest } d u) := by
      intro w dw hdw hex
      rw [m2] at hdw
      rcases hNB w dw hdw (by simp) with hA | hB | hC
      · rw [hq] at hA
        rcases List.mem_cons.mp hA with he | he
        · exact absurd (congrArg (fun q => some q.2) he) hex
        · exact Or.inl (by rw [m4]; exact he)
      · refine Or.inr (Or.inl ?_)
        intro idx hidx sc hsc hins
        obtain ⟨w2, hw2, hw2le⟩ := hB idx hidx sc hsc hins
        exact ⟨w2, by rw [m2]; exact hw2, hw2le⟩
      · exact Or.inr (Or.inr (bestLE_meet_bwd _ d u dw hC))
    have hNF1 : NodeInvF g none (meet_bwd { st with pq_bwd := rest } d u) := by
      intro w dw hdw hex
      rw [m1] at hdw
      rcases hNF w dw hdw hex with hA | hB | hC
      · exact Or.inl (by rw [m3]; exact hA)
      · refine Or.inr (Or.inl ?_)
        intro idx hidx sc hsc hins
        obtain ⟨w2, hw2, hw2le⟩ := hB idx hidx sc hsc hins
        exact ⟨w2, by rw [m1]; exact hw2, hw2le⟩
      · exact Or.inr (Or.inr (bestLE_meet_bwd _ d u dw hC))
    have hM1 : meetM (meet_bwd { st with pq_bwd := rest } d u) := by
      intro x v1 v2 h1 h2
      rw [m1] at h1
      rw [m2] at h2
      rcases hM x v1 v2 h1 h2 with hc | hc | hc
      · exact Or.inl (bestLE_meet_bwd _ d u _ hc)
      · exact Or.inr (Or.inl (by rw [m3]; exact hc))
      · rw [hq] at hc
        rcases List.mem_cons.mp hc with he | he
        · have hx : x = u := congrArg Prod.snd he
          have hv : v2 = d := congrArg Prod.fst he
          subst hx
          subst hv
          exact Or.inl (meet_bwd_pair { st with pq_bwd := rest } v2 x v1 h1)
        · exact Or.inr (Or.inr (by rw [m4]; exact he))
    rw [multi_bwd_step, hq]
    dsimp only
    split
    · next hgu =>
      refine ⟨hinv1, hM1, hNF1, ?_⟩
      intro w dw hdw hex2
      by_cases hwu : w = u
      · subst hwu
        have hdw' : dw = du := by
          rw [m2] at hdw
          rw [hdu] at hdw
          exact (Option.some.inj hdw).symm
        by_cases hst : du < d
        · rcases hNB w du hdu (by simp) with hA | hB | hC
          · rw [hq] at hA
            rcases List.mem_cons.mp hA with he | he
            · exact absurd (congrArg Prod.fst he) (ne_of_lt hst)
            · rw [hdw']
              exact Or.inl (by rw [m4]; exact he)
          · refine Or.inr (Or.inl ?_)
            rw [hdw']
            intro idx hidx sc hsc hins
            obtain ⟨w2, hw2, hw2le⟩ := hB idx hidx sc hsc hins
            exact ⟨w2, by rw [m2]; exact hw2, hw2le⟩
          · rw [hdw']
            exact Or.inr (Or.inr (bestLE_meet_bwd _ d w du hC))
        · have hdud : du = d := le_antisymm hdule (not_lt.mp hst)
          rw [Bool.or_eq_true] at hgu
          rcases hgu with hg | hg
          · have hfl : dLtBest d (meet_bwd { st with pq_bwd := rest } d w).best = false := by
              revert hg
              cases dLtBest d (meet_bwd { st with pq_bwd := rest } d w).best <;> simp
            obtain ⟨b, hb, hble⟩ := dLtBest_false _ _ hfl
            exact Or.inr (Or.inr ⟨b, hb, by rw [hdw', hdud]; exact hble⟩)
          · exfalso
            rw [m2, hdu] at hg
            exact hst (by simpa using hg)
      · exact hNB1 w dw hdw (by simp [hwu])
    · next hgu =>
      rw [Bool.or_eq_true] at hgu
      obtain ⟨hg1, hg2⟩ := not_or.mp hgu
      have hdud : du = d := by
        rw [m2, hdu] at hg2
        exact le_antisymm hdule (by simpa using hg2)
      obtain ⟨f1, f2, f3, f4⟩ :=
        multi_fold_bwd g s t d u hnn hreach hd0 (g.bwd_adj u) (fun i hi => hi)
          (meet_bwd { st with pq_bwd := rest } d u) hinv1 hM1
      have hfr : FreshB (meet_bwd { st with pq_bwd := rest } d u)
          ((g.bwd_adj u).foldl (relax_bwd g backward_inside_ok_classic d u)
            (meet_bwd { st with pq_bwd := rest } d u)) :=
        foldl_fresh_bwd _ (fun st2 i => relax_bwd_fresh g backward_inside_ok_classic d u st2 i)
          (fun st2 i => relax_bwd_qmono g backward_inside_ok_classic d u st2 i)
          (g.bwd_adj u) _
      have hNBx := NodeInvB_transport g (some u) hNB1 f3 hfr
      refine ⟨f1, f2, NodeInvF_transportB g none hNF1 f3, ?_⟩
      intro w dw hdw hex2
      by_cases hwu : w = u
      · subst hwu
        rcases hfr w dw hdw with hold | hnew
        · have hdw' : dw = d := by
            rw [m2] at hold
            rw [hdu] at hold
            rw [← hdud]
            exact (Option.some.inj hold).symm
          refine Or.inr (Or.inl ?_)
          intro idx hidx sc hsc hins
          obtain ⟨w2, hw2, hw2le⟩ := f4 idx hidx sc hsc hins
          exact ⟨w2, hw2, by rw [hdw']; exact hw2le⟩
        · exact Or.inl hnew
      · exact hNBx w dw hdw (by simp [hwu])

/-- In a sorted queue every entry dominates the head key. -/
theorem sortedQ_all (d : ℚ) (u : Nat) (q : List (ℚ × Nat))
    (h : sortedQ ((d, u) :: q)) : ∀ p ∈ (d, u) :: q, d ≤ p.1 := by
  intro p hp
  rcases List.mem_cons.mp hp with he | he
  · rw [he]
  · exact sortedQ_head_le d u q h p he

/-- Clearing a forward queue all of whose keys dominate a set `best`
preserves the search, meeting and node invariants. -/
theorem clear_fwd_lemma (g : ShortcutGraph) (s t : Nat) (st : SState) (b : ℚ)
    (hb : st.best = some b) (hall : ∀ p ∈ st.pq_fwd, b ≤ p.1)
    (hinv : SearchInv g s t st) (hM : meetM st)
    (hNF : NodeInvF g none st) (hNB : NodeInvB g none st) :
    SearchInv g s t { st with pq_fwd := [] } ∧ meetM { st with pq_fwd := [] } ∧
    NodeInvF g none { st with pq_fwd := [] } ∧
    NodeInvB g none { st with pq_fwd := [] } := by
  obtain ⟨s_f, s_b, n_f, n_b, so_f, so_b, el_f, el_b, er_f, er_b, bs, fi, se_f, se_b⟩ := hinv
  refine ⟨⟨by rw [sortedQ]; exact List.Pairwise.nil, s_b, n_f, n_b, so_f, so_b,
    fun p hp => absurd hp (List.not_mem_nil p), el_b,
    fun p hp => absurd hp (List.not_mem_nil p), er_b, bs, fi, se_f, se_b⟩, ?_, ?_, ?_⟩
  · intro x v1 v2 h1 h2
    rcases hM x v1 v2 h1 h2 with hc | hc | hc
    · exact Or.inl hc
    · have h20 : 0 ≤ v2 := n_b x v2 h2
      exact Or.inl ⟨b, hb, le_trans (hall _ hc) (by linarith)⟩
    · exact Or.inr (Or.inr hc)
  · intro w dw hdw hex
    rcases hNF w dw hdw hex with hA | hB | hC
    · exact Or.inr (Or.inr ⟨b, hb, hall _ hA⟩)
    · exact Or.inr (Or.inl hB)
    · exact Or.inr (Or.inr hC)
  · intro w dw hdw hex
    rcases hNB w dw hdw hex with hA | hB | hC
    · exact Or.inl hA
    · exact Or.inr (Or.inl hB)
    · exact Or.inr (Or.inr hC)

/-- Clearing a backward queue all of whose keys dominate a set `best`
preserves the search, meeting and node invariants. -/
theorem clear_bwd_lemma (g : ShortcutGraph) (s t : Nat) (st : SState) (b : ℚ)
    (hb : st.best = some b) (hall : ∀ p ∈ st.pq_bwd, b ≤ p.1)
    (hinv : SearchInv g s t st) (hM : meetM st)
    (hNF : NodeInvF g none st) (hNB : NodeInvB g none st) :
    SearchInv g s t { st with pq_bwd := [] } ∧ meetM { st with pq_bwd := [] } ∧
    NodeInvF g none { st with pq_bwd := [] } ∧
    NodeInvB g none { st with pq_bwd := [] } := by
  obtain ⟨s_f, s_b, n_f, n_b, so_f, so_b, el_f, el_b, er_f, er_b, bs, fi, se_f, se_b⟩ := hinv
  refine ⟨⟨s_f, by rw [sortedQ]; exact List.Pairwise.nil, n_f, n_b, so_f, so_b,
    el_f, fun p hp => absurd hp (List.not_mem_nil p),
    er_f, fun p hp => absurd hp (List.not_mem_nil p), bs, fi, se_f, se_b⟩, ?_, ?_, ?_⟩
  · intro x v1 v2 h1 h2
    rcases hM x v1 v2 h1 h2 with hc | hc | hc
    · exact Or.inl hc
    · exact Or.inr (Or.inl hc)
    · have h10 : 0 ≤ v1 := n_f x v1 h1
      exact Or.inl ⟨b, hb, le_trans (hall _ hc) (by linarith)⟩
  · intro w dw hdw hex
    rcases hNF w dw hdw hex with hA | hB | hC
    · exact Or.inl hA
    · exact Or.inr (Or.inl hB)
    · exact Or.inr (Or.inr hC)
  · intro w dw hdw hex
    rcases hNB w dw hdw hex with hA | hB | hC
    · exact Or.inr (Or.inr ⟨b, hb, hall _ hA⟩)
    · exact Or.inr (Or.inl hB)
    · exact Or.inr (Or.inr hC)

/-- The multi draining acceleration preserves the search, meeting and node
invariants. -/
theorem multi_drain_lemma (g : ShortcutGraph) (s t : Nat) (st : SState)
    (hinv : SearchInv g s t st) (hM : meetM st)
    (hNF : NodeInvF g none st) (hNB : NodeInvB g none st) :
    SearchInv g s t (multi_drain st) ∧ meetM (multi_drain st) ∧
    NodeInvF g none (multi_drain st) ∧ NodeInvB g none (multi_drain st) := by
  rw [multi_drain]
  cases hb : st.best with
  | none => exact ⟨hinv, hM, hNF, hNB⟩
  | some b =>
    dsimp only
    have step1 : ∀ st1 : SState, st1.best = st.best → SearchInv g s t st1 → meetM st1 →
        NodeInvF g none st1 → NodeInvB g none st1 →
        SearchInv g s t (match st1.pq_bwd with
          | (d, _) :: _ => if !(decide (d < b)) then { st1 with pq_bwd := [] } else st1
          | [] => st1) ∧
        meetM (match st1.pq_bwd with
          | (d, _) :: _ => if !(decide (d < b)) then { st1 with pq_bwd := [] } else st1
          | [] => st1) ∧
        NodeInvF g none (match st1.pq_bwd with
          | (d, _) :: _ => if !(decide (d < b)) then { st1 with pq_bwd := [] } else st1
          | [] => st1) ∧
        NodeInvB g none (match st1.pq_bwd with
          | (d, _) :: _ => if !(decide (d < b)) then { st1 with pq_bwd := [] } else st1
          | [] => st1) := by
      intro st1 hb1 hinv1 hM1 hNF1 hNB1
      cases hqb : st1.pq_bwd with
      | nil => exact ⟨hinv1, hM1, hNF1, hNB1⟩
      | cons p q =>
        obtain ⟨d0, u0⟩ := p
        dsimp only
        split
        · next hge =>
          have hd0 : b ≤ d0 := by
            revert hge
            by_cases hlt : d0 < b
            · simp [hlt]
            · intro _
              exact le_of_not_lt hlt
          have hall : ∀ p ∈ st1.pq_bwd, b ≤ p.1 := by
            rw [hqb]
            intro p hp
            exact le_trans hd0 (sortedQ_all d0 u0 q (by rw [← hqb]; exact hinv1.sorted_b) p hp)
          exact clear_bwd_lemma g s t st1 b (by rw [hb1, hb]) hall hinv1 hM1 hNF1 hNB1
        · exact ⟨hinv1, hM1, hNF1, hNB1⟩
    cases hqf : st.pq_fwd with
    | nil =>
      dsimp only
      exact step1 st rfl hinv hM hNF hNB
    | cons p q =>
      obtain ⟨d0, u0⟩ := p
      dsimp only
      by_cases hlt : d0 < b
      · rw [if_neg (by simp [hlt])]
        exact step1 st rfl hinv hM hNF hNB
      · rw [if_pos (by simp [hlt])]
        have hall : ∀ p ∈ st.pq_fwd, b ≤ p.1 := by
          rw [hqf]
          intro p hp
          exact le_trans (le_of_not_lt hlt)
            (sortedQ_all d0 u0 q (by rw [← hqf]; exact hinv.sorted_f) p hp)
        obtain ⟨c1, c2, c3, c4⟩ :=
          clear_fwd_lemma g s t st b hb hall hinv hM hNF hNB
        rw [hb] at c1 c2 c3 c4
        exact step1 _ hb.symm c1 c2 c3 c4

/-- One classic forward step preserves the search, classic meeting and node
invariants. -/
theorem classic_fwd_step_lemma (g : ShortcutGraph) (s t : Nat) (st : SState)
    (hnn : nonneg_costs g)
    (hinv : SearchInv g s t st) (hC : meetC st)
    (hNF : NodeInvF g none st) (hNB : NodeInvB g none st) :
    SearchInv g s t (classic_fwd_step g st).1 ∧ meetC (classic_fwd_step g st).1 ∧
    NodeInvF g none (classic_fwd_step g st).1 ∧
    NodeInvB g none (classic_fwd_step g st).1 := by
  cases hq : st.pq_fwd with
  | nil =>
    rw [classic_fwd_step, hq]
    exact ⟨hinv, hC, hNF, hNB⟩
  | cons p rest =>
    obtain ⟨d, u⟩ := p
    have hmem : (d, u) ∈ st.pq_fwd := by rw [hq]; exact List.mem_cons_self _ _
    have hreach : FwdReach g s u d := hinv.entry_reach_f (d, u) hmem
    obtain ⟨du, hdu, hdule⟩ := hinv.entry_le_f (d, u) hmem
    have hd0 : 0 ≤ d := le_trans (hinv.nonneg_f u du hdu) hdule
    have hinv0 : SearchInv g s t { st with pq_fwd := rest } :=
      pop_fwd_inv g s t st d u rest hq hinv
    have hC0 : meetC { st with pq_fwd := rest } := hC
    have hNB0 : NodeInvB g none { st with pq_fwd := rest } := hNB
    have hNF0 : NodeInvF g (some u) { st with pq_fwd := rest } := by
      intro w dw hdw hex
      rcases hNF w dw hdw (by simp) with hA | hB | hC2
      · rw [hq] at hA
        rcases List.mem_cons.mp hA with he | he
        · exact absurd (congrArg (fun q => some q.2) he) hex
        · exact Or.inl he
      · exact Or.inr (Or.inl hB)
      · exact Or.inr (Or.inr hC2)
    rw [classic_fwd_step, hq]
    dsimp only
    rw [hdu]
    dsimp only
    by_cases hst : du < d
    · rw [if_pos (by simp [hst])]
      refine ⟨hinv0, hC0, ?_, hNB0⟩
      intro w dw hdw hex
      by_cases hwu : w = u
      · subst hwu
        have hdw' : dw = du := by
          rw [hdu] at hdw
          exact (Option.some.inj hdw).symm
        rcases hNF w du hdu (by simp) with hA | hB | hC2
        · rw [hq] at hA
          rcases List.mem_cons.mp hA with he | he
          · exact absurd (congrArg Prod.fst he) (ne_of_lt hst)
          · rw [hdw']
            exact Or.inl he
        · rw [hdw']
          exact Or.inr (Or.inl hB)
        · rw [hdw']
          exact Or.inr (Or.inr hC2)
      · exact hNF0 w dw hdw (by simp [hwu])
    · rw [if_neg (by simp [hst])]
      have hdud : du = d := le_antisymm hdule (not_lt.mp hst)
      by_cases hbt : dLtBest d st.best = true
      · rw [if_neg (by simp [hbt])]
        obtain ⟨f1, f2, f3, f4⟩ :=
          classic_fold_fwd g s t d u hnn hreach hd0 (g.fwd_adj u) (fun i hi => hi)
            { st with pq_fwd := rest } hinv0 hC0
        have hfr : FreshF { st with pq_fwd := rest }
            ((g.fwd_adj u).foldl (classic_fwd_relax g d u) { st with pq_fwd := rest }) :=
          foldl_fresh_fwd _ (fun st2 i => classic_fwd_relax_fresh g d u st2 i)
            (fun st2 i => classic_fwd_relax_qmono g d u st2 i) (g.fwd_adj u) _
        have hNFx := NodeInvF_transport g (some u) hNF0 f3 hfr
        refine ⟨f1, f2, ?_, NodeInvB_transportF g none hNB0 f3⟩
        intro w dw hdw hex
        by_cases hwu : w = u
        · subst hwu
          rcases hfr w dw hdw with hold | hnew
          · have hdw' : dw = d := by
              dsimp only at hold
              rw [hdu] at hold
              rw [← hdud]
              exact (Option.some.inj hold).symm
            refine Or.inr (Or.inl ?_)
            intro idx hidx sc hsc hins
            obtain ⟨w2, hw2, hw2le⟩ := f4 idx hidx sc hsc hins
            exact ⟨w2, hw2, by rw [hdw']; exact hw2le⟩
          · exact Or.inl hnew
        · exact hNFx w dw hdw (by simp [hwu])
      · rw [if_pos (by simp [hbt])]
        have hfl : dLtBest d st.best = false := by
          revert hbt
          cases dLtBest d st.best <;> simp
        obtain ⟨b, hb, hble⟩ := dLtBest_false _ _ hfl
        refine ⟨hinv0, hC0, ?_, hNB0⟩
        intro w dw hdw hex
        by_cases hwu : w = u
        · subst hwu
          have hdw' : dw = du := by
            rw [hdu] at hdw
            exact (Option.some.inj hdw).symm
          exact Or.inr (Or.inr ⟨b, hb, by rw [hdw', hdud]; exact hble⟩)
        · exact hNF0 w dw hdw (by simp [hwu])

/-- One classic backward step preserves the search, classic meeting and node
invariants. -/
theorem classic_bwd_step_lemma (g : ShortcutGraph) (s t : Nat) (st : SState)
    (hnn : nonneg_costs g)
    (hinv : SearchInv g s t st) (hC : meetC st)
    (hNF : NodeInvF g none st) (hNB : NodeInvB g none st) :
    SearchInv g s t (classic_bwd_step g st).1 ∧ meetC (classic_bwd_step g st).1 ∧
    NodeInvF g none (classic_bwd_step g st).1 ∧
    NodeInvB g none (classic_bwd_step g st).1 := by
  cases hq : st.pq_bwd with
  | nil =>
    rw [classic_bwd_step, hq]
    exact ⟨hinv, hC, hNF, hNB⟩
  | cons p rest =>
    obtain ⟨d, u⟩ := p
    have hmem : (d, u) ∈ st.pq_bwd := by rw [hq]; exact List.mem_cons_self _ _
    have hreach : BwdReach g t u d := hinv.entry_reach_b (d, u) hmem
    obtain ⟨du, hdu, hdule⟩ := hinv.entry_le_b (d, u) hmem
    have hd0 : 0 ≤ d := le_trans (hinv.nonneg_b u du hdu) hdule
    have hinv0 : SearchInv g s t { st with pq_bwd := rest } :=
      pop_bwd_inv g s t st d u rest hq hinv
    have hC0 : meetC { st with pq_bwd := rest } := hC
    have hNF0 : NodeInvF g none { st with pq_bwd := rest } := hNF
    have hNB0 : NodeInvB g (some u) { st with pq_bwd := rest } := by
      intro w dw hdw hex
      rcases hNB w dw hdw (by simp) with hA | hB | hC2
      · rw [hq] at hA
        rcases List.mem_cons.mp hA with he | he
        · exact absurd (congrArg (fun q => some q.2) he) hex
        · exact Or.inl he
      · exact Or.inr (Or.inl hB)
      · exact Or.inr (Or.inr hC2)
    rw [classic_bwd_step, hq]
    dsimp only
    rw [hdu]
    dsimp only
    by_cases hst : du < d
    · rw [if_pos (by simp [hst])]
      refine ⟨hinv0, hC0, hNF0, ?_⟩
      intro w dw hdw hex
      by_cases hwu : w = u
      · subst hwu
        have hdw' : dw = du := by
          rw [hdu] at hdw
          exact (Option.some.inj hdw).symm
        rcases hNB w du hdu (by simp) with hA | hB | hC2
        · rw [hq] at hA
          rcases List.mem_cons.mp hA with he | he
          · exact absurd (congrArg Prod.fst he) (ne_of_lt hst)
          · rw [hdw']
            exact Or.inl he
        · rw [hdw']
          exact Or.inr (Or.inl hB)
        · rw [hdw']
          exact Or.inr (Or.inr hC2)
      · exact hNB0 w dw hdw (by simp [hwu])
    · rw [if_neg (by simp [hst])]
      have hdud : du = d := le_antisymm hdule (not_lt.mp hst)
      by_cases hbt : dLtBest d st.best = true
      · rw [if_neg (by simp [hbt])]
        obtain ⟨f1, f2, f3, f4⟩ :=
          classic_fold_bwd g s t d u hnn hreach hd0 (g.bwd_adj u) (fun i hi => hi)
            { st with pq_bwd := rest } hinv0 hC0
        have hfr : FreshB { st with pq_bwd := rest }
            ((g.bwd_adj u).foldl (classic_bwd_relax g d u) { st with pq_bwd := rest }) :=
          foldl_fresh_bwd _ (fun st2 i => classic_bwd_relax_fresh g d u st2 i)
            (fun st2 i => classic_bwd_relax_qmono g d u st2 i) (g.bwd_adj u) _
        have hNBx := NodeInvB_transport g (some u) hNB0 f3 hfr
        refine ⟨f1, f2, NodeInvF_transportB g none hNF0 f3, ?_⟩
        intro w dw hdw hex
        by_cases hwu : w = u
        · subst hwu
          rcases hfr w dw hdw with hold | hnew
          · have hdw' : dw = d := by
              dsimp only at hold
              rw [hdu] at hold
              rw [← hdud]
              exact (Option.some.inj hold).symm
            refine Or.inr (Or.inl ?_)
            intro idx hidx sc hsc hins
            obtain ⟨w2, hw2, hw2le⟩ := f4 idx hidx sc hsc hins
            exact ⟨w2, hw2, by rw [hdw']; exact hw2le⟩
          · exact Or.inl hnew
        · exact hNBx w dw hdw (by simp [hwu])
      · rw [if_pos (by simp [hbt])]
        have hfl : dLtBest d st.best = false := by
          revert hbt
          cases dLtBest d st.best <;> simp
        obtain ⟨b, hb, hble⟩ := dLtBest_false _ _ hfl
        refine ⟨hinv0, hC0, hNF0, ?_⟩
        intro w dw hdw hex
        by_cases hwu : w = u
        · subst hwu
          have hdw' : dw = du := by
            rw [hdu] at hdw
            exact (Option.some.inj hdw).symm
          exact Or.inr (Or.inr ⟨b, hb, by rw [hdw', hdud]; exact hble⟩)
        · exact hNB0 w dw hdw (by simp [hwu])

/-- A successful classic termination test at a sorted state certifies the
end condition. -/
theorem classic_term_end (st : SState) (hs1 : sortedQ st.pq_fwd)
    (hs2 : sortedQ st.pq_bwd) (ht : classic_term st = true) : end_cond st := by
  rw [classic_term] at ht
  cases hqf : st.pq_fwd with
  | nil =>
    cases hqb : st.pq_bwd with
    | nil => exact Or.inl ⟨hqf, hqb⟩
    | cons p q =>
      rw [hqf, hqb] at ht
      cases ht
  | cons p1 q1 =>
    obtain ⟨d1, u1⟩ := p1
    cases hqb : st.pq_bwd with
    | nil =>
      rw [hqf, hqb] at ht
      cases ht
    | cons p2 q2 =>
      obtain ⟨d2, u2⟩ := p2
      rw [hqf, hqb] at ht
      dsimp only at ht
      rw [Bool.and_eq_true] at ht
      have hf1 : dLtBest d1 st.best = false := by
        have := ht.1
        revert this
        cases dLtBest d1 st.best <;> simp
      have hf2 : dLtBest d2 st.best = false := by
        have := ht.2
        revert this
        cases dLtBest d2 st.best <;> simp
      obtain ⟨b, hb, hb1⟩ := dLtBest_false _ _ hf1
      obtain ⟨b', hb', hb2⟩ := dLtBest_false _ _ hf2
      rw [hb] at hb'
      cases hb'
      refine Or.inr ⟨b, hb, ?_, ?_⟩
      · rw [hqf]
        intro p hp
        exact le_trans hb1 (sortedQ_all d1 u1 q1 (by rw [← hqf]; exact hs1) p hp)
      · rw [hqb]
        intro p hp
        exact le_trans hb2 (sortedQ_all d2 u2 q2 (by rw [← hqb]; exact hs2) p hp)

/-- The classic loop preserves the invariants and, on normal exit, certifies
the end condition. -/
theorem classic_loop_lemma (g : ShortcutGraph) (s t : Nat) (hnn : nonneg_costs g) :
    ∀ (fuel : Nat) (st : SState),
    SearchInv g s t st → meetC st → NodeInvF g none st → NodeInvB g none st →
    ∀ st', classic_loop g fuel st = some st' →
    SearchInv g s t st' ∧ meetC st' ∧ NodeInvF g none st' ∧ NodeInvB g none st' ∧
    end_cond st' := by
  intro fuel
  induction fuel with
  | zero =>
    intro st hinv hC hNF hNB st' h'
    rw [classic_loop] at h'
    by_cases hc : (st.pq_fwd.isEmpty && st.pq_bwd.isEmpty) = true
    · rw [if_pos hc] at h'
      cases h'
      rw [Bool.and_eq_true] at hc
      exact ⟨hinv, hC, hNF, hNB,
        Or.inl ⟨List.isEmpty_iff.mp hc.1, List.isEmpty_iff.mp hc.2⟩⟩
    · rw [if_neg hc] at h'
      cases h'
  | succ fuel ih =>
    intro st hinv hC hNF hNB st' h'
    rw [classic_loop] at h'
    by_cases hc : (st.pq_fwd.isEmpty && st.pq_bwd.isEmpty) = true
    · rw [if_pos hc] at h'
      cases h'
      rw [Bool.and_eq_true] at hc
      exact ⟨hinv, hC, hNF, hNB,
        Or.inl ⟨List.isEmpty_iff.mp hc.1, List.isEmpty_iff.mp hc.2⟩⟩
    · rw [if_neg hc] at h'
      dsimp only at h'
      obtain ⟨i1, i2, i3, i4⟩ := classic_fwd_step_lemma g s t st hnn hinv hC hNF hNB
      by_cases hf2 : (classic_fwd_step g st).2 = true
      · rw [if_pos hf2] at h'
        exact ih (classic_fwd_step g st).1 i1 i2 i3 i4 st' h'
      · rw [if_neg hf2] at h'
        obtain ⟨j1, j2, j3, j4⟩ :=
          classic_bwd_step_lemma g s t (classic_fwd_step g st).1 hnn i1 i2 i3 i4
        by_cases hb2 : (classic_bwd_step g (classic_fwd_step g st).1).2 = true
        · rw [if_pos hb2] at h'
          exact ih _ j1 j2 j3 j4 st' h'
        · rw [if_neg hb2] at h'
          by_cases hterm :
              classic_term (classic_bwd_step g (classic_fwd_step g st).1).1 = true
          · rw [if_pos hterm] at h'
            cases h'
            exact ⟨j1, j2, j3, j4, classic_term_end _ j1.sorted_f j1.sorted_b hterm⟩
          · rw [if_neg hterm] at h'
            exact ih _ j1 j2 j3 j4 st' h'

/-- The multi loop preserves the invariants and exits with both queues
empty. -/
theorem multi_loop_lemma (g : ShortcutGraph) (s t : Nat) (hnn : nonneg_costs g) :
    ∀ (fuel : Nat) (st : SState),
    SearchInv g s t st → meetM st → NodeInvF g none st → NodeInvB g none st →
    ∀ st', multi_loop g fuel st = some st' →
    SearchInv g s t st' ∧ meetM st' ∧ NodeInvF g none st' ∧ NodeInvB g none st' ∧
    st'.pq_fwd = [] ∧ st'.pq_bwd = [] := by
  intro fuel
  induction fuel with
  | zero =>
    intro st hinv hM hNF hNB st' h'
    rw [multi_loop] at h'
    by_cases hc : (st.pq_fwd.isEmpty && st.pq_bwd.isEmpty) = true
    · rw [if_pos hc] at h'
      cases h'
      rw [Bool.and_eq_true] at hc
      exact ⟨hinv, hM, hNF, hNB, List.isEmpty_iff.mp hc.1, List.isEmpty_iff.mp hc.2⟩
    · rw [if_neg hc] at h'
      cases h'
  | succ fuel ih =>
    intro st hinv hM hNF hNB st' h'
    rw [multi_loop] at h'
    by_cases hc : (st.pq_fwd.isEmpty && st.pq_bwd.isEmpty) = true
    · rw [if_pos hc] at h'
      cases h'
      rw [Bool.and_eq_true] at hc
      exact ⟨hinv, hM, hNF, hNB, List.isEmpty_iff.mp hc.1, List.isEmpty_iff.mp hc.2⟩
    · rw [if_neg hc] at h'
      dsimp only at h'
      obtain ⟨i1, i2, i3, i4⟩ := multi_fwd_step_lemma g s t st hnn hinv hM hNF hNB
      by_cases hf2 : (multi_fwd_step g st).2 = true
      · rw [if_pos hf2] at h'
        exact ih (multi_fwd_step g st).1 i1 i2 i3 i4 st' h'
      · rw [if_neg hf2] at h'
        obtain ⟨j1, j2, j3, j4⟩ :=
          multi_bwd_step_lemma g s t (multi_fwd_step g st).1 hnn i1 i2 i3 i4
        by_cases hb2 : (multi_bwd_step g (multi_fwd_step g st).1).2 = true
        · rw [if_pos hb2] at h'
          exact ih _ j1 j2 j3 j4 st' h'
        · rw [if_neg hb2] at h'
          obtain ⟨k1, k2, k3, k4⟩ :=
            multi_drain_lemma g s t (multi_bwd_step g (multi_fwd_step g st).1).1
              j1 j2 j3 j4
          exact ih _ k1 k2 k3 k4 st' h'

/-- The single-endpoint initial state satisfies the invariants when source
and target differ. -/
theorem init_single_lemma (g : ShortcutGraph) (s t : Nat)
    (hnn : nonneg_costs g) (hst : s ≠ t) :
    SearchInv g s t (init_single g s t) ∧ meetC (init_single g s t) ∧
    NodeInvF g none (init_single g s t) ∧ NodeInvB g none (init_single g s t) := by
  rw [init_single]
  refine ⟨⟨?_, ?_, ?_, ?_, ?_, ?_, ?_, ?_, ?_, ?_, ?_, rfl, ?_, ?_⟩, ?_, ?_, ?_⟩
  · rw [sortedQ]
    exact List.pairwise_singleton _ _
  · rw [sortedQ]
    exact List.pairwise_singleton _ _
  · intro x v hx
    dsimp only at hx
    by_cases hxs : x = s
    · subst hxs
      rw [mupd_self] at hx
      cases hx
      exact le_refl 0
    · rw [mupd_ne _ _ _ _ hxs] at hx
      exact absurd hx (by simp)
  · intro x v hx
    dsimp only at hx
    by_cases hxt : x = t
    · subst hxt
      rw [mupd_self] at hx
      cases hx
      exact get_edge_cost_nonneg g hnn x
    · rw [mupd_ne _ _ _ _ hxt] at hx
      exact absurd hx (by simp)
  · intro x v hx
    dsimp only at hx
    by_cases hxs : x = s
    · subst hxs
      rw [mupd_self] at hx
      cases hx
      exact FwdReach.base
    · rw [mupd_ne _ _ _ _ hxs] at hx
      exact absurd hx (by simp)
  · intro x v hx
    dsimp only at hx
    by_cases hxt : x = t
    · subst hxt
      rw [mupd_self] at hx
      cases hx
      exact BwdReach.base
    · rw [mupd_ne _ _ _ _ hxt] at hx
      exact absurd hx (by simp)
  · intro p hp
    dsimp only at hp
    rw [List.mem_singleton] at hp
    subst hp
    refine ⟨0, ?_, le_refl 0⟩
    dsimp only
    exact mupd_self _ _ _
  · intro p hp
    dsimp only at hp
    rw [List.mem_singleton] at hp
    subst hp
    refine ⟨g.get_edge_cost t, ?_, le_refl _⟩
    dsimp only
    exact mupd_self _ _ _
  · intro p hp
    dsimp only at hp
    rw [List.mem_singleton] at hp
    subst hp
    exact FwdReach.base
  · intro p hp
    dsimp only at hp
    rw [List.mem_singleton] at hp
    subst hp
    exact BwdReach.base
  · intro b hb
    cases hb
  · refine ⟨0, ?_, le_refl 0⟩
    dsimp only
    exact mupd_self _ _ _
  · refine ⟨g.get_edge_cost t, ?_, le_refl _⟩
    dsimp only
    exact mupd_self _ _ _
  · intro x v1 v2 h1 h2
    dsimp only at h1 h2
    by_cases hxs : x = s
    · subst hxs
      rw [mupd_ne _ _ _ _ hst] at h2
      exact absurd h2 (by simp)
    · rw [mupd_ne _ _ _ _ hxs] at h1
      exact absurd h1 (by simp)
  · intro u du hdu hex
    dsimp only at hdu
    by_cases hus : u = s
    · subst hus
      rw [mupd_self] at hdu
      cases hdu
      exact Or.inl (List.mem_singleton.mpr rfl)
    · rw [mupd_ne _ _ _ _ hus] at hdu
      exact absurd hdu (by simp)
  · intro u du hdu hex
    dsimp only at hdu
    by_cases hut : u = t
    · subst hut
      rw [mupd_self] at hdu
      cases hdu
      exact Or.inl (List.mem_singleton.mpr rfl)
    · rw [mupd_ne _ _ _ _ hut] at hdu
      exact absurd hdu (by simp)

/-- The seeded state of `query_multi([s], [0], [t], [0])` written as an
explicit literal (both endpoints carry metadata). -/
theorem multi_init_shape (g : ShortcutGraph) (s t : Nat)
    (hs : (metaFind g.edge_meta s).isSome = true)
    (ht : (metaFind g.edge_meta t).isSome = true) :
    multi_init g [s] [0] [t] [0] =
    { dist_fwd := mupd (fun _ => none) s 0
      dist_bwd := mupd (fun _ => none) t (0 + g.get_edge_cost t)
      parent_fwd := mupd (fun _ => none) s s
      parent_bwd := mupd (fun _ => none) t t
      pq_fwd := [(0, s)]
      pq_bwd := [(0 + g.get_edge_cost t, t)]
      best := none
      meeting := 0
      found := false } := by
  rw [multi_init]
  dsimp only [multi_init_sources, multi_init_targets, List.zip, List.zipWith, List.foldl]
  rw [if_pos hs]
  dsimp only
  rw [if_pos ht]
  dsimp only [pqPush]

/-- The seeded multi state satisfies the invariants (no distinctness of the
endpoints is required: a coinciding pair is covered by the queued seed). -/
theorem multi_init_lemma (g : ShortcutGraph) (s t : Nat)
    (hnn : nonneg_costs g)
    (hs : (metaFind g.edge_meta s).isSome = true)
    (ht : (metaFind g.edge_meta t).isSome = true) :
    SearchInv g s t (multi_init g [s] [0] [t] [0]) ∧
    meetM (multi_init g [s] [0] [t] [0]) ∧
    NodeInvF g none (multi_init g [s] [0] [t] [0]) ∧
    NodeInvB g none (multi_init g [s] [0] [t] [0]) := by
  rw [multi_init_shape g s t hs ht]
  have hbase : BwdReach g t t (0 + g.get_edge_cost t) := by
    rw [zero_add]
    exact BwdReach.base
  refine ⟨⟨?_, ?_, ?_, ?_, ?_, ?_, ?_, ?_, ?_, ?_, ?_, rfl, ?_, ?_⟩, ?_, ?_, ?_⟩
  · rw [sortedQ]
    exact List.pairwise_singleton _ _
  · rw [sortedQ]
    exact List.pairwise_singleton _ _
  · intro x v hx
    dsimp only at hx
    by_cases hxs : x = s
    · subst hxs
      rw [mupd_self] at hx
      cases hx
      exact le_refl 0
    · rw [mupd_ne _ _ _ _ hxs] at hx
      exact absurd hx (by simp)
  · intro x v hx
    dsimp only at hx
    by_cases hxt : x = t
    · subst hxt
      rw [mupd_self] at hx
      cases hx
      rw [zero_add]
      exact get_edge_cost_nonneg g hnn x
    · rw [mupd_ne _ _ _ _ hxt] at hx
      exact absurd hx (by simp)
  · intro x v hx
    dsimp only at hx
    by_cases hxs : x = s
    · subst hxs
      rw [mupd_self] at hx
      cases hx
      exact FwdReach.base
    · rw [mupd_ne _ _ _ _ hxs] at hx
      exact absurd hx (by simp)
  · intro x v hx
    dsimp only at hx
    by_cases hxt : x = t
    · subst hxt
      rw [mupd_self] at hx
      cases hx
      exact hbase
    · rw [mupd_ne _ _ _ _ hxt] at hx
      exact absurd hx (by simp)
  · intro p hp
    dsimp only at hp
    rw [List.mem_singleton] at hp
    subst hp
    refine ⟨0, ?_, le_refl 0⟩
    dsimp only
    exact mupd_self _ _ _
  · intro p hp
    dsimp only at hp
    rw [List.mem_singleton] at hp
    subst hp
    refine ⟨0 + g.get_edge_cost t, ?_, le_refl _⟩
    dsimp only
    exact mupd_self _ _ _
  · intro p hp
    dsimp only at hp
    rw [List.mem_singleton] at hp
    subst hp
    exact FwdReach.base
  · intro p hp
    dsimp only at hp
    rw [List.mem_singleton] at hp
    subst hp
    exact hbase
  · intro b hb
    cases hb
  · refine ⟨0, ?_, le_refl 0⟩
    dsimp only
    exact mupd_self _ _ _
  · refine ⟨0 + g.get_edge_cost t, ?_, le_of_eq (zero_add _)⟩
    dsimp only
    exact mupd_self _ _ _
  · intro x v1 v2 h1 h2
    dsimp only at h1 h2
    by_cases hxs : x = s
    · subst hxs
      rw [mupd_self] at h1
      cases h1
      exact Or.inr (Or.inl (List.mem_singleton.mpr rfl))
    · rw [mupd_ne _ _ _ _ hxs] at h1
      exact absurd h1 (by simp)
  · intro u du hdu hex
    dsimp only at hdu
    by_cases hus : u = s
    · subst hus
      rw [mupd_self] at hdu
      cases hdu
      exact Or.inl (List.mem_singleton.mpr rfl)
    · rw [mupd_ne _ _ _ _ hus] at hdu
      exact absurd hdu (by simp)
  · intro u du hdu hex
    dsimp only at hdu
    by_cases hut : u = t
    · subst hut
      rw [mupd_self] at hdu
      cases hdu
      exact Or.inl (List.mem_singleton.mpr rfl)
    · rw [mupd_ne _ _ _ _ hut] at hdu
      exact absurd hdu (by simp)

/-- The classic meeting invariant implies the multi one. -/
theorem meetC_to_meetM (st : SState) (h : meetC st) : meetM st :=
  fun x v1 v2 h1 h2 => Or.inl (h x v1 v2 h1 h2)

/-- Completeness at a terminal state: every achievable forward/backward pair
bounds the recorded `best` from above. -/
theorem search_complete (g : ShortcutGraph) (s t : Nat) (st : SState)
    (hnn : nonneg_costs g)
    (hinv : SearchInv g s t st) (hNF : NodeInvF g none st) (hNB : NodeInvB g none st)
    (hend : end_cond st) (hm : meetM st) :
    ∀ x v1 v2, FwdReach g s x v1 → BwdReach g t x v2 → bestLE st.best (v1 + v2) := by
  have hQf : ∀ p ∈ st.pq_fwd, bestLE st.best p.1 := by
    rcases hend with ⟨h1, h2⟩ | ⟨b, hb, hf, hbq⟩
    · rw [h1]
      intro p hp
      exact absurd hp (List.not_mem_nil p)
    · intro p hp
      exact ⟨b, hb, hf p hp⟩
  have hQb : ∀ p ∈ st.pq_bwd, bestLE st.best p.1 := by
    rcases hend with ⟨h1, h2⟩ | ⟨b, hb, hf, hbq⟩
    · rw [h2]
      intro p hp
      exact absurd hp (List.not_mem_nil p)
    · intro p hp
      exact ⟨b, hb, hbq p hp⟩
  have HF : ∀ u du, st.dist_fwd u = some du →
      (∀ idx ∈ g.fwd_adj u, ∀ sc, g.shortcuts[idx]? = some sc → sc.inside = 1 →
        ∃ w, st.dist_fwd sc.«to» = some w ∧ w ≤ du + sc.cost) ∨ bestLE st.best du := by
    intro u du hdu
    rcases hNF u du hdu (by simp) with hA | hB | hC
    · exact Or.inr (hQf _ hA)
    · exact Or.inl hB
    · exact Or.inr hC
  have HB : ∀ u du, st.dist_bwd u = some du →
      (∀ idx ∈ g.bwd_adj u, ∀ sc, g.shortcuts[idx]? = some sc →
          (sc.inside = -1 ∨ sc.inside = 0) →
        ∃ w, st.dist_bwd sc.«from» = some w ∧ w ≤ du + sc.cost) ∨ bestLE st.best du := by
    intro u du hdu
    rcases hNB u du hdu (by simp) with hA | hB | hC
    · exact Or.inr (hQb _ hA)
    · exact Or.inl hB
    · exact Or.inr hC
  have claimF : ∀ x v1, FwdReach g s x v1 →
      (∃ w, st.dist_fwd x = some w ∧ w ≤ v1) ∨ bestLE st.best v1 := by
    intro x v1 hr
    induction hr with
    | base =>
      obtain ⟨w, hw, hwle⟩ := hinv.seed_f
      exact Or.inl ⟨w, hw, hwle⟩
    | step hprev hidx hsc hins ih =>
      have hcost := hnn.1 _ (List.getElem?_mem hsc)
      rcases ih with ⟨w, hw, hwle⟩ | hbest
      · rcases HF _ w hw with hB | hC
        · obtain ⟨w2, hw2, hw2le⟩ := hB _ hidx _ hsc hins
          exact Or.inl ⟨w2, hw2, by linarith⟩
        · obtain ⟨b, hb, hble⟩ := hC
          exact Or.inr ⟨b, hb, by linarith⟩
      · obtain ⟨b, hb, hble⟩ := hbest
        exact Or.inr ⟨b, hb, by linarith⟩
  have claimB : ∀ x v2, BwdReach g t x v2 →
      (∃ w, st.dist_bwd x = some w ∧ w ≤ v2) ∨ bestLE st.best v2 := by
    intro x v2 hr
    induction hr with
    | base =>
      obtain ⟨w, hw, hwle⟩ := hinv.seed_b
      exact Or.inl ⟨w, hw, hwle⟩
    | step hprev hidx hsc hins ih =>
      have hcost := hnn.1 _ (List.getElem?_mem hsc)
      rcases ih with ⟨w, hw, hwle⟩ | hbest
      · rcases HB _ w hw with hB | hC
        · obtain ⟨w2, hw2, hw2le⟩ := hB _ hidx _ hsc hins
          exact Or.inl ⟨w2, hw2, by linarith⟩
        · obtain ⟨b, hb, hble⟩ := hC
          exact Or.inr ⟨b, hb, by linarith⟩
      · obtain ⟨b, hb, hble⟩ := hbest
        exact Or.inr ⟨b, hb, by linarith⟩
  intro x v1 v2 h1 h2
  have h10 : 0 ≤ v1 := FwdReach_nonneg g s hnn x v1 h1
  have h20 : 0 ≤ v2 := BwdReach_nonneg g t hnn x v2 h2
  rcases claimF x v1 h1 with ⟨w1, hw1, hw1le⟩ | ⟨b, hb, hble⟩
  · rcases claimB x v2 h2 with ⟨w2, hw2, hw2le⟩ | ⟨b, hb, hble⟩
    · have hw10 : 0 ≤ w1 := hinv.nonneg_f x w1 hw1
      have hw20 : 0 ≤ w2 := hinv.nonneg_b x w2 hw2
      rcases hm x w1 w2 hw1 hw2 with hc | hc | hc
      · obtain ⟨b, hb, hble⟩ := hc
        exact ⟨b, hb, by linarith⟩
      · obtain ⟨b, hb, hble⟩ := hQf _ hc
        dsimp only at hble
        exact ⟨b, hb, by linarith⟩
      · obtain ⟨b, hb, hble⟩ := hQb _ hc
        dsimp only at hble
        exact ⟨b, hb, by linarith⟩
    · exact ⟨b, hb, by linarith⟩
  · exact ⟨b, hb, by linarith⟩

/-- The epilogue either reports the recorded `best` as reachable distance or
the unreachable sentinel, according to the `found` flag. -/
theorem finish_search_shape (fuel : Nat) (st : SState) (r : QueryResult)
    (h : finish_search fuel st = some r) :
    (st.found = true ∧ r.distance = st.best.getD 0 ∧ r.reachable = true) ∨
    (st.found = false ∧ r.distance = -1 ∧ r.reachable = false) := by
  rw [finish_search] at h
  by_cases hf : st.found = true
  · rw [if_pos hf] at h
    rcases Option.map_eq_some'.mp h with ⟨p, hp, hr⟩
    subst hr
    exact Or.inl ⟨hf, rfl, rfl⟩
  · rw [if_neg hf] at h
    cases h
    refine Or.inr ⟨?_, rfl, rfl⟩
    revert hf
    cases st.found <;> simp

/-- Claim C3: for every store satisfying the data-model cost invariant and
every pair of edges `s`, `t` that both have metadata,
`query_multi([s], [0], [t], [0])` returns the same distance and the same
reachable flag as `query_classic(s, t)` whenever both runs finish within
their fuel. -/
theorem claim_C3 (g : ShortcutGraph) (fuel1 fuel2 : Nat) (s t : Nat)
    (hnn : nonneg_costs g)
    (hs : (metaFind g.edge_meta s).isSome = true)
    (ht : (metaFind g.edge_meta t).isSome = true)
    (r1 r2 : QueryResult)
    (h1 : g.query_classic fuel1 s t = some r1)
    (h2 : g.query_multi fuel2 [s] [0] [t] [0] = some r2) :
    r1.distance = r2.distance ∧ r1.reachable = r2.reachable := by
  rw [ShortcutGraph.query_multi] at h2
  obtain ⟨stm, hstm, hfin2⟩ := Option.bind_eq_some.mp h2
  obtain ⟨mi1, mi2, mi3, mi4⟩ := multi_init_lemma g s t hnn hs ht
  obtain ⟨m1, m2, m3, m4, me1, me2⟩ :=
    multi_loop_lemma g s t hnn fuel2 _ mi1 mi2 mi3 mi4 stm hstm
  have hCompM := search_complete g s t stm hnn m1 m3 m4 (Or.inl ⟨me1, me2⟩) m2
  by_cases hst : s = t
  · subst hst
    rw [ShortcutGraph.query_classic, if_pos rfl] at h1
    injection h1 with h1'
    subst h1'
    obtain ⟨b2, hb2, hble2⟩ := hCompM s 0 (g.get_edge_cost s) FwdReach.base BwdReach.base
    obtain ⟨x, v1, v2, hfx, hbx, heq⟩ := m1.best_sound b2 hb2
    have hv1 : 0 ≤ v1 := FwdReach_nonneg g s hnn x v1 hfx
    have hv2 : g.get_edge_cost s ≤ v2 := BwdReach_ge g s hnn x v2 hbx
    have hbeq : b2 = g.get_edge_cost s :=
      le_antisymm (by linarith) (by linarith)
    have hfound2 : stm.found = true := by rw [m1.found_iff, hb2]; rfl
    rcases finish_search_shape fuel2 stm r2 hfin2 with ⟨hf, hd, hr⟩ | ⟨hf, hd, hr⟩
    · constructor
      · rw [hd, hb2]
        dsimp only
        rw [hbeq]
        rfl
      · rw [hr]
    · rw [hfound2] at hf
      cases hf
  · rw [ShortcutGraph.query_classic, if_neg hst] at h1
    obtain ⟨stc, hstc, hfin1⟩ := Option.bind_eq_some.mp h1
    obtain ⟨ci1, ci2, ci3, ci4⟩ := init_single_lemma g s t hnn hst
    obtain ⟨c1, c2, c3, c4, cend⟩ :=
      classic_loop_lemma g s t hnn fuel1 _ ci1 ci2 ci3 ci4 stc hstc
    have hCompC := search_complete g s t stc hnn c1 c3 c4 cend (meetC_to_meetM stc c2)
    cases hb1 : stc.best with
    | none =>
      have hb2n : stm.best = none := by
        cases hb2 : stm.best with
        | none => rfl
        | some b2 =>
          obtain ⟨x, v1, v2, hfx, hbx, heq⟩ := m1.best_sound b2 hb2
          obtain ⟨b, hb, hble⟩ := hCompC x v1 v2 hfx hbx
          rw [hb1] at hb
          cases hb
      have hf1 : stc.found = false := by rw [c1.found_iff, hb1]; rfl
      have hf2 : stm.found = false := by rw [m1.found_iff, hb2n]; rfl
      rcases finish_search_shape fuel1 stc r1 hfin1 with ⟨hf, hd1, hr1⟩ | ⟨hf, hd1, hr1⟩
      · rw [hf1] at hf
        cases hf
      · rcases finish_search_shape fuel2 stm r2 hfin2 with ⟨hf', hd2, hr2⟩ | ⟨hf', hd2, hr2⟩
        · rw [hf2] at hf'
          cases hf'
        · exact ⟨by rw [hd1, hd2], by rw [hr1, hr2]⟩
    | some b1 =>
      obtain ⟨x, v1, v2, hfx, hbx, heq⟩ := c1.best_sound b1 hb1
      obtain ⟨b2, hb2, hble2⟩ := hCompM x v1 v2 hfx hbx
      obtain ⟨x', v1', v2', hfx', hbx', heq'⟩ := m1.best_sound b2 hb2
      obtain ⟨b1', hb1', hble1⟩ := hCompC x' v1' v2' hfx' hbx'
      rw [hb1] at hb1'
      have h21 : b2 ≤ b1 := by rw [heq]; exact hble2
      have h12 : b1 ≤ b2 := by
        rw [Option.some.inj hb1', heq']
        exact hble1
      have hbeq := le_antisymm h12 h21
      have hf1 : stc.found = true := by rw [c1.found_iff, hb1]; rfl
      have hf2 : stm.found = true := by rw [m1.found_iff, hb2]; rfl
      rcases finish_search_shape fuel1 stc r1 hfin1 with ⟨hf, hd1, hr1⟩ | ⟨hf, hd1, hr1⟩
      · rcases finish_search_shape fuel2 stm r2 hfin2 with ⟨hf', hd2, hr2⟩ | ⟨hf', hd2, hr2⟩
        · refine ⟨?_, by rw [hr1, hr2]⟩
          rw [hd1, hd2, hb1, hb2]
          simp [hbeq]
        · rw [hf2] at hf'
          cases hf'
      · rw [hf1] at hf
        cases hf

set_option maxHeartbeats 2000000 in
/-- Witness for claim C3 on the S5 store: both endpoints carry metadata, the
costs are nonnegative, both query variants finish, and the distances and
reachable flags agree (both return distance `8`, reachable). -/
theorem claim_C3_witness :
    nonneg_costs storeS5 ∧
    (metaFind storeS5.edge_meta 1).isSome = true ∧
    (metaFind storeS5.edge_meta 2).isSome = true ∧
    ∃ r1 r2 : QueryResult,
      storeS5.query_classic 3 1 2 = some r1 ∧
      storeS5.query_multi 4 [1] [0] [2] [0] = some r2 ∧
      r1.distance = r2.distance ∧ r1.reachable = r2.reachable := by
  have hnn : nonneg_costs storeS5 := by
    constructor
    · intro sc hsc
      rw [storeS5] at hsc
      have hsc' := List.mem_singleton.mp hsc
      subst hsc'
      norm_num
    · intro e m hm
      rw [storeS5] at hm
      dsimp only at hm
      rw [metaFind] at hm
      by_cases h1 : 1 = e
      · rw [if_pos h1] at hm
        injection hm with hm'
        subst hm'
        norm_num
      · rw [if_neg h1] at hm
        rw [metaFind] at hm
        by_cases h2 : 2 = e
        · rw [if_pos h2] at hm
          injection hm with hm'
          subst hm'
          norm_num
        · rw [if_neg h2] at hm
          rw [metaFind] at hm
          cases hm
  have hs : (metaFind storeS5.edge_meta 1).isSome = true := by
    norm_num [storeS5, metaFind]
  have ht : (metaFind storeS5.edge_meta 2).isSome = true := by
    norm_num [storeS5, metaFind]
  have h1 : storeS5.query_classic 3 1 2 =
      some { distance := 8, path := [1, 2], reachable := true } := by
    norm_num [storeS5, ShortcutGraph.query_classic, init_single, classic_loop,
      classic_fwd_step, classic_bwd_step, classic_fwd_relax, classic_bwd_relax,
      classic_term, finish_search, reconstruct_path, walk_fwd, walk_bwd,
      ShortcutGraph.get_edge_cost, metaFind, mupd, pqPush, dLtBest,
      forward_inside_ok, backward_inside_ok_classic]
  have h2 : storeS5.query_multi 4 [1] [0] [2] [0] =
      some { distance := 8, path := [1, 2], reachable := true } := by
    norm_num [storeS5, ShortcutGraph.query_multi, multi_init, multi_init_sources,
      multi_init_targets, multi_loop, multi_fwd_step, multi_bwd_step, multi_drain,
      meet_fwd, meet_bwd, relax_fwd, relax_bwd, finish_search, reconstruct_path,
      walk_fwd, walk_bwd, ShortcutGraph.get_edge_cost, metaFind, mupd, pqPush,
      dLtBest, forward_inside_ok, backward_inside_ok_classic]
  exact ⟨hnn, hs, ht, _, _, h1, h2, claim_C3 storeS5 3 4 1 2 hnn hs ht _ _ h1 h2⟩

end RoutingEngine
